import Mathlib

/-!
# trains: closed toy-train layouts

A shallow embedding of `trains.go` (and of `updateChain` from `trains_test.go`).

* Go `float64` is an arbitrary linearly ordered field `R`; the functions taken from
  package `math` (`Pi`, `Sin`, `Cos`, `Sqrt`) are the fields of `MathFn R`.  Statements
  "over exact reals" instantiate `R := ℝ` and ask the fields to be the real functions.
* Go `int` is `Int`; nothing below depends on 64-bit wrap-around.
* The package-level variables `AngleN`, `Radius`, `BridgeLen`, `StraightLen` are the
  fields of `Params R`; the package-level slice `updateTab` is an explicit argument.
* Slices are lists.  An index expression that would panic makes the enclosing
  function stop with `Err.indexOutOfRange`.
* The channel `out` is the list of tracks sent so far, in sending order; a panic leaves
  what was already sent in place, and `close(out)` is reached iff `err = none`.
-/

namespace Trains

/-- Ways in which the Go code stops abnormally. -/
inductive Err where
  /-- `panic("can handle only 0 or 1 bridges")` -/
  | invalidInput
  /-- runtime error: index out of range -/
  | indexOutOfRange
  /-- runtime error: makeslice: len out of range -/
  | makeSliceLen
  /-- runtime error: integer divide by zero -/
  | divideByZero
  /-- the recursion budget of the embedding ran out (never happens, see `findTracks_fuel`) -/
  | outOfFuel
  deriving DecidableEq, Repr

/-- Package-level variables of `trains.go`. -/
structure Params (R : Type) where
  /-- how many curve parts form a full circle -/
  AngleN : Int
  /-- radius of the circle made by curve parts -/
  Radius : R
  /-- length of the bridge part -/
  BridgeLen : R
  /-- length of the straight part -/
  StraightLen : R

/-- The functions of Go package `math` used by `trains.go`. -/
structure MathFn (R : Type) where
  Pi : R
  Sin : R → R
  Cos : R → R
  Sqrt : R → R

/-- `type Angle int` -/
abbrev Angle := Int

/-- `func (a Angle) Add(b Angle) Angle`; `%` is Go's truncated remainder and panics on a
zero divisor. -/
def Angle.Add (AngleN : Int) (a b : Angle) : Except Err Angle :=
  if AngleN = 0 then .error .divideByZero
  else
    let res := (a + b).tmod AngleN
    .ok (if res < 0 then res + AngleN else res)

/-- `func (a Angle) Rad() float64` -/
def Angle.Rad {R : Type} [LinearOrderedField R] (P : Params R) (M : MathFn R) (a : Angle) : R :=
  2 * M.Pi * (a : R) / (P.AngleN : R)

/-- `type Kind int` with its five constants (`kindCnt` is `5`). -/
inductive Kind where
  | End
  | Bridge
  | Straight
  | Left
  | Right
  deriving DecidableEq, Repr

/-- The `iota` value of a kind. -/
def Kind.toInt : Kind → Int
  | .End => 0
  | .Bridge => 1
  | .Straight => 2
  | .Left => 3
  | .Right => 4

/-- The constant `kindCnt`. -/
def kindCnt : Int := 5

/-- `type Part struct` -/
structure Part (R : Type) where
  X : R
  Y : R
  Angle : Angle
  Kind : Kind

/-- The zero value of `Part`, as produced by `make`. -/
def Part.zero {R : Type} [LinearOrderedField R] : Part R := ⟨0, 0, 0, .End⟩

/-- `func (p *Part) AtSamePlaceAs(p2 *Part) bool` with `prec = 1e-2`. -/
def Part.AtSamePlaceAs {R : Type} [LinearOrderedField R] (p p2 : Part R) : Bool :=
  decide (|p.X - p2.X| < 1 / 100) && decide (|p.Y - p2.Y| < 1 / 100) &&
    decide (p.Angle = p2.Angle)

/-- `type update struct` -/
structure update (R : Type) where
  x : R
  y : R
  a : Angle

/-- The zero value of `update`. -/
def update.zero {R : Type} [LinearOrderedField R] : update R := ⟨0, 0, 0⟩

/-- `func (p *Part) Update(target *Part)`: the returned part is `target` after the call. -/
def Part.Update {R : Type} [LinearOrderedField R] (P : Params R) (updateTab : List (update R))
    (p target : Part R) : Except Err (Part R) :=
  let i : Int := p.Kind.toInt * P.AngleN + p.Angle
  if i < 0 then .error .indexOutOfRange
  else
    match updateTab[i.toNat]? with
    | none => .error .indexOutOfRange
    | some u =>
      match Angle.Add P.AngleN p.Angle u.a with
      | .error e => .error e
      | .ok a => .ok { X := p.X + u.x, Y := p.Y + u.y, Angle := a, Kind := target.Kind }

/-- One iteration of the loop of `initUpdateTab`, for the angle `a`. -/
def initUpdateTabStep {R : Type} [LinearOrderedField R] (P : Params R) (M : MathFn R)
    (updateTab : List (update R)) (a : Nat) : List (update R) :=
  let n : R := (P.AngleN : R)
  let curveLen : R := P.Radius * 2 * M.Sin (M.Pi / n)
  let N : Nat := P.AngleN.toNat
  let s := M.Sin (Angle.Rad P M a)
  let c := M.Cos (Angle.Rad P M a)
  let updateTab := updateTab.set (1 * N + a) ⟨c * P.BridgeLen, s * P.BridgeLen, 0⟩
  let updateTab := updateTab.set (2 * N + a) ⟨c * P.StraightLen, s * P.StraightLen, 0⟩
  let sl := M.Sin (Angle.Rad P M a + M.Pi / n)
  let cl := M.Cos (Angle.Rad P M a + M.Pi / n)
  let updateTab := updateTab.set (3 * N + a) ⟨cl * curveLen, sl * curveLen, 1⟩
  let sr := M.Sin (Angle.Rad P M a - M.Pi / n)
  let cr := M.Cos (Angle.Rad P M a - M.Pi / n)
  updateTab.set (4 * N + a) ⟨cr * curveLen, sr * curveLen, -1⟩

/-- `func initUpdateTab()`: the value it leaves in `updateTab`.  For `0 ≤ AngleN` every
index written lies inside the slice (`initUpdateTab_loop`), so no assignment panics. -/
def initUpdateTab {R : Type} [LinearOrderedField R] (P : Params R) (M : MathFn R) :
    Except Err (List (update R)) :=
  if kindCnt * P.AngleN < 0 then .error .makeSliceLen
  else
    .ok ((List.range P.AngleN.toNat).foldl (initUpdateTabStep P M)
      (List.replicate (kindCnt * P.AngleN).toNat update.zero))

/-- The state of one run of `findTracks`: the working slice `track`, the tracks sent on
`out` so far, and the panic that stopped the run, if any. -/
structure Search (R : Type) where
  track : List (Part R)
  out : List (List (Part R))
  err : Option Err

/-- Sequencing of statements: a panic skips what follows. -/
def Search.andThen {R : Type} (x : Search R)
    (f : List (Part R) → List (List (Part R)) → Search R) : Search R :=
  match x.err with
  | some _ => x
  | none => f x.track x.out

/-- The headings of the working slice and of the tracks sent so far lie in `[0, N)`. -/
def Search.InRange {R : Type} (N : Int) (x : Search R) : Prop :=
  (∀ p ∈ x.track, (0 : Int) ≤ p.Angle ∧ p.Angle < N) ∧
    ∀ t ∈ x.out, ∀ p ∈ t, (0 : Int) ≤ p.Angle ∧ p.Angle < N

/-- The closure `r` of `findTracks`; `curves`, `n1` and `curveLen` are the captured
variables, `track` and `out` the slice and the channel it works on.  The first argument
bounds the recursion depth. -/
def r {R : Type} [LinearOrderedField R] (P : Params R) (M : MathFn R)
    (updateTab : List (update R)) (curves n1 : Int) (curveLen : R) :
    Nat → Nat → Kind → Int → Int → List (Part R) → List (List (Part R)) → Search R
  | 0, _, _, _, _, track, out => ⟨track, out, some .outOfFuel⟩
  | fuel + 1, pos, kind, s, c, track, out =>
    match track[pos]? with
    | none => ⟨track, out, some .indexOutOfRange⟩
    | some p0 =>
      let p : Part R := { p0 with Kind := kind }
      let track := track.set pos p
      match track[pos + 1]? with
      | none => ⟨track, out, some .indexOutOfRange⟩
      | some target =>
        match p.Update P updateTab target with
        | .error e => ⟨track, out, some e⟩
        | .ok q =>
          let track := track.set (pos + 1) q
          if s = 0 ∧ c = 0 then
            if n1 < 0 then ⟨track, out, some .indexOutOfRange⟩
            else
              match track[0]?, track[n1.toNat]? with
              | some first, some last =>
                if first.AtSamePlaceAs last then ⟨track, out ++ [track.take n1.toNat], none⟩
                else ⟨track, out, none⟩
              | _, _ => ⟨track, out, some .indexOutOfRange⟩
          else
            let dist := M.Sqrt (q.X * q.X + q.Y * q.Y)
            if dist > (s : R) * P.StraightLen + (c : R) * curveLen + 1 then ⟨track, out, none⟩
            else
              Search.andThen
                (if s > 0 then r P M updateTab curves n1 curveLen fuel (pos + 1) .Straight (s - 1) c
                    track out
                  else ⟨track, out, none⟩)
                fun track out =>
                  if c > 0 then
                    Search.andThen
                      (r P M updateTab curves n1 curveLen fuel (pos + 1) .Left s (c - 1) track out)
                      fun track out =>
                        if c < curves then
                          r P M updateTab curves n1 curveLen fuel (pos + 1) .Right s (c - 1)
                            track out
                        else ⟨track, out, none⟩
                  else ⟨track, out, none⟩

/-- The part of `findTracks` that places the bridge: `track[0].Kind = Bridge`,
`track[0].Update(&track[1])`. -/
def placeBridge {R : Type} [LinearOrderedField R] (P : Params R) (updateTab : List (update R))
    (track : List (Part R)) : Search R :=
  match track[0]? with
  | none => ⟨track, [], some .indexOutOfRange⟩
  | some p0 =>
    let p : Part R := { p0 with Kind := .Bridge }
    let track := track.set 0 p
    match track[1]? with
    | none => ⟨track, [], some .indexOutOfRange⟩
    | some target =>
      match p.Update P updateTab target with
      | .error e => ⟨track, [], some e⟩
      | .ok q => ⟨track.set 1 q, [], none⟩

/-- `func findTracks(out chan []Part, bridges, straights, curves int)`. -/
def findTracks {R : Type} [LinearOrderedField R] (P : Params R) (M : MathFn R)
    (updateTab : List (update R)) (bridges straights curves : Int) : Search R :=
  if bridges > 1 then ⟨[], [], some .invalidInput⟩
  else if bridges + straights + curves + 1 < 0 then ⟨[], [], some .makeSliceLen⟩
  else
    let track : List (Part R) := List.replicate (bridges + straights + curves + 1).toNat Part.zero
    let startAt : Nat := if bridges = 1 then 1 else 0
    let n1 : Int := (track.length : Int) - 1
    let curveLen : R := P.Radius * 2 * M.Sin (M.Pi / (P.AngleN : R))
    let fuel : Nat := straights.toNat + curves.toNat + 1
    Search.andThen (if bridges = 1 then placeBridge P updateTab track else ⟨track, [], none⟩)
      fun track out =>
        Search.andThen
          (r P M updateTab curves n1 curveLen fuel startAt .Straight (straights - 1) curves
            track out)
          fun track out =>
            r P M updateTab curves n1 curveLen fuel startAt .Left straights (curves - 1) track out

/-- `func totalAngle(track []Part) (angle int)` -/
def totalAngle {R : Type} (track : List (Part R)) : Int :=
  track.foldl (fun angle p =>
    match p.Kind with
    | .Left => angle + 1
    | .Right => angle - 1
    | _ => angle) 0

/-- `func trackBounds(track []Part) (minX, minY, maxX, maxY float64)`: the four named
results start at their zero value and are updated part by part. -/
def trackBounds {R : Type} [LinearOrderedField R] (track : List (Part R)) : R × R × R × R :=
  track.foldl (fun (b : R × R × R × R) (p : Part R) =>
    let minX := if b.1 > p.X then p.X else b.1
    let maxX := if b.2.2.1 < p.X then p.X else b.2.2.1
    let minY := if b.2.1 > p.Y then p.Y else b.2.1
    let maxY := if b.2.2.2 < p.Y then p.Y else b.2.2.2
    (minX, minY, maxX, maxY)) (0, 0, 0, 0)

/-- The tuple `b = (minX, minY, maxX, maxY)` is the bounding box of the parts of `track`:
`minX` and `maxX` are the smallest and the largest `X` over its parts, `minY` and `maxY` the
smallest and the largest `Y`. -/
def IsBoundingBox {R : Type} [LinearOrderedField R] (track : List (Part R))
    (b : R × R × R × R) : Prop :=
  (∀ p ∈ track, b.1 ≤ p.X ∧ b.2.1 ≤ p.Y ∧ p.X ≤ b.2.2.1 ∧ p.Y ≤ b.2.2.2) ∧
    (∃ p ∈ track, p.X = b.1) ∧ (∃ p ∈ track, p.Y = b.2.1) ∧
    (∃ p ∈ track, p.X = b.2.2.1) ∧ (∃ p ∈ track, p.Y = b.2.2.2)

/-- The loop of `updateChain` in `trains_test.go`, on the slice `parts` from index `i`. -/
def updateChainLoop {R : Type} [LinearOrderedField R] (P : Params R) (updateTab : List (update R))
    (n : Nat) : Nat → List Kind → List (Part R) → Except Err (List (Part R))
  | _, [], parts => .ok parts
  | i, p :: pieces, parts =>
    match parts[i]? with
    | none => .error .indexOutOfRange
    | some x =>
      let x : Part R := { x with Kind := p }
      let parts := parts.set i x
      if i + 1 < n then
        match parts[i + 1]? with
        | none => .error .indexOutOfRange
        | some target =>
          match x.Update P updateTab target with
          | .error e => .error e
          | .ok q => updateChainLoop P updateTab n (i + 1) pieces (parts.set (i + 1) q)
      else updateChainLoop P updateTab n (i + 1) pieces parts

/-- `func updateChain(pieces []Kind) []Part` of `trains_test.go`. -/
def updateChain {R : Type} [LinearOrderedField R] (P : Params R) (updateTab : List (update R))
    (pieces : List Kind) : Except Err (List (Part R)) :=
  updateChainLoop P updateTab pieces.length 0 pieces (List.replicate pieces.length Part.zero)

/-! ### A path-passing presentation of the search

`dfs` is `r` with the working slice replaced by what `r` reads from it: the parts placed
before the current slot (`pre`) and the position and heading of the current slot.  It
returns the tracks sent during the call and the panic that stopped it.  `r_eq_dfs` shows
that `r` computes exactly this; the properties of `findTracks` are then read off `dfs`. -/

/-- Sequencing for the results of `dfs`. -/
def seqOut {R : Type} (a b : List (List (Part R)) × Option Err) :
    List (List (Part R)) × Option Err :=
  match a.2 with
  | some _ => a
  | none => (a.1 ++ b.1, b.2)

/-- The search of `r` as a function of the placed parts `pre` and of the current slot
`(X, Y, Angle)`. -/
def dfs {R : Type} [LinearOrderedField R] (P : Params R) (M : MathFn R)
    (updateTab : List (update R)) (curves : Int) (curveLen : R) :
    Nat → List (Part R) → R → R → Angle → Kind → Int → Int →
      List (List (Part R)) × Option Err
  | 0, _, _, _, _, _, _, _ => ([], some .outOfFuel)
  | fuel + 1, pre, X, Y, A, kind, s, c =>
    if s + c + 1 ≤ 0 then ([], some .indexOutOfRange)
    else
      let p : Part R := ⟨X, Y, A, kind⟩
      match p.Update P updateTab Part.zero with
      | .error e => ([], some e)
      | .ok q =>
        if s = 0 ∧ c = 0 then
          if ((pre ++ [p]).headD p).AtSamePlaceAs q then ([pre ++ [p]], none) else ([], none)
        else if M.Sqrt (q.X * q.X + q.Y * q.Y) > (s : R) * P.StraightLen + (c : R) * curveLen + 1
        then ([], none)
        else
          seqOut
            (if s > 0 then
              dfs P M updateTab curves curveLen fuel (pre ++ [p]) q.X q.Y q.Angle .Straight (s - 1) c
            else ([], none))
            (if c > 0 then
              seqOut
                (dfs P M updateTab curves curveLen fuel (pre ++ [p]) q.X q.Y q.Angle .Left s (c - 1))
                (if c < curves then
                  dfs P M updateTab curves curveLen fuel (pre ++ [p]) q.X q.Y q.Angle .Right s
                    (c - 1)
                else ([], none))
            else ([], none))

/-- Two parts with the same position and heading. -/
def Part.SamePose {R : Type} (p q : Part R) : Prop :=
  p.X = q.X ∧ p.Y = q.Y ∧ p.Angle = q.Angle

/-- The slice `t2` has the length of `t1`, agrees with it before `pos`, and has the same
position and heading at `pos`: what a call of `r` at `pos` leaves of the slice. -/
def Frame {R : Type} (pos : Nat) (t1 t2 : List (Part R)) : Prop :=
  t2.length = t1.length ∧ t2.take pos = t1.take pos ∧
    ∀ x y, t1[pos]? = some x → t2[pos]? = some y → x.SamePose y

/-- The state `res` reached by a piece of `findTracks` started on `track`, `out`
corresponds to the result `d` of the path-passing search. -/
def Sim {R : Type} (pos : Nat) (track : List (Part R)) (out : List (List (Part R)))
    (res : Search R) (d : List (List (Part R)) × Option Err) : Prop :=
  res.out = out ++ d.1 ∧ res.err = d.2 ∧ Frame pos track res.track

/-- The body of `findTracks` after the bridge check, in path-passing form. -/
def tracksSpec {R : Type} [LinearOrderedField R] (P : Params R) (M : MathFn R)
    (updateTab : List (update R)) (bridges straights curves : Int) :
    List (List (Part R)) × Option Err :=
  let curveLen : R := P.Radius * 2 * M.Sin (M.Pi / (P.AngleN : R))
  let fuel : Nat := straights.toNat + curves.toNat + 1
  if bridges = 1 then
    match (⟨0, 0, 0, .Bridge⟩ : Part R).Update P updateTab Part.zero with
    | .error e => ([], some e)
    | .ok q =>
      seqOut
        (dfs P M updateTab curves curveLen fuel [⟨0, 0, 0, .Bridge⟩] q.X q.Y q.Angle .Straight
          (straights - 1) curves)
        (dfs P M updateTab curves curveLen fuel [⟨0, 0, 0, .Bridge⟩] q.X q.Y q.Angle .Left
          straights (curves - 1))
  else
    seqOut
      (dfs P M updateTab curves curveLen fuel [] 0 0 0 .Straight (straights - 1) curves)
      (dfs P M updateTab curves curveLen fuel [] 0 0 0 .Left straights (curves - 1))

/-- The parts obtained by placing the kinds `ks` one after the other by `Update`, the first
one at `(X, Y)` with heading `A`, together with the trailing slot after the last one. -/
def place {R : Type} [LinearOrderedField R] (P : Params R) (updateTab : List (update R)) :
    R → R → Angle → List Kind → Except Err (List (Part R) × Part R)
  | X, Y, A, [] => .ok ([], ⟨X, Y, A, .End⟩)
  | X, Y, A, k :: ks =>
    match (⟨X, Y, A, k⟩ : Part R).Update P updateTab Part.zero with
    | .error e => .error e
    | .ok q =>
      match place P updateTab q.X q.Y q.Angle ks with
      | .error e => .error e
      | .ok (ps, v) => .ok (⟨X, Y, A, k⟩ :: ps, v)

/-- A curve is a `Left` or a `Right` part. -/
def Kind.isCurve : Kind → Bool
  | .Left => true
  | .Right => true
  | _ => false

/-- What `r` may still place after a call with `s` straights and `c` curves left: exactly
`s` `Straight` and `c` `Left`/`Right` pieces, nothing else, and the first of the curves is
`Left` as long as no curve was placed before (`curves ≤ c`). -/
def KindsOK (curves s c : Int) (ks : List Kind) : Prop :=
  (ks.count .Straight : Int) = s ∧ ((ks.count .Left : Int) + (ks.count .Right : Int)) = c ∧
    (∀ k ∈ ks, k = .Straight ∨ k = .Left ∨ k = .Right) ∧
    (curves ≤ c → ∀ k, ks.find? Kind.isCurve = some k → k = .Left)

/-- A chain-consistent closed loop: the first part sits at `(0, 0)` with heading `0`, each
later part is where `Update` puts it after its predecessor, and the slot that `Update`
computes after the last part is at the same place as the first part. -/
def ClosedLoop {R : Type} [LinearOrderedField R] (P : Params R) (updateTab : List (update R))
    (t : List (Part R)) : Prop :=
  List.Chain' (fun p q => p.Update P updateTab q = .ok q) t ∧
    ∃ first last v, t.head? = some first ∧ first.X = 0 ∧ first.Y = 0 ∧ first.Angle = 0 ∧
      t.getLast? = some last ∧ last.Update P updateTab Part.zero = .ok v ∧
      first.AtSamePlaceAs v = true

/-- The order on kinds given by their `iota` values; in particular
`Straight < Left < Right`. -/
def Kind.lt (k1 k2 : Kind) : Prop := k1.toInt < k2.toInt

/-- The kinds of a track, in order. -/
def kinds {R : Type} (t : List (Part R)) : List Kind := t.map Part.Kind

/-- The kind sequences the two start calls of `findTracks` can produce: the bridge, if
any, then either a `Straight` followed by what `r` may place with `straights - 1` straights
and `curves` curves left, or a `Left` followed by what it may place with `straights`
straights and `curves - 1` curves left. -/
def StartKinds (bridges straights curves : Int) (ks : List Kind) : Prop :=
  ∃ k0 rest, ks = (if bridges = 1 then [Kind.Bridge] else []) ++ k0 :: rest ∧
    ((k0 = .Straight ∧ KindsOK curves (straights - 1) curves rest) ∨
      (k0 = .Left ∧ KindsOK curves straights (curves - 1) rest))

/-- Mirror image of a kind: `Left` and `Right` are swapped. -/
def Kind.mirror : Kind → Kind
  | .Left => .Right
  | .Right => .Left
  | k => k

/-- The search of `dfs` with the guard `c < curves` of `r` replaced by the flag the guard
stands for: a curve has already been placed on the current path (`seen` tells whether one
was placed before the call, the call itself places `kind`). -/
def dfsByFlag {R : Type} [LinearOrderedField R] (P : Params R) (M : MathFn R)
    (updateTab : List (update R)) (curveLen : R) :
    Nat → List (Part R) → R → R → Angle → Kind → Int → Int → Bool →
      List (List (Part R)) × Option Err
  | 0, _, _, _, _, _, _, _, _ => ([], some .outOfFuel)
  | fuel + 1, pre, X, Y, A, kind, s, c, seen =>
    if s + c + 1 ≤ 0 then ([], some .indexOutOfRange)
    else
      let p : Part R := ⟨X, Y, A, kind⟩
      let seen := seen || kind.isCurve
      match p.Update P updateTab Part.zero with
      | .error e => ([], some e)
      | .ok q =>
        if s = 0 ∧ c = 0 then
          if ((pre ++ [p]).headD p).AtSamePlaceAs q then ([pre ++ [p]], none) else ([], none)
        else if M.Sqrt (q.X * q.X + q.Y * q.Y) > (s : R) * P.StraightLen + (c : R) * curveLen + 1
        then ([], none)
        else
          seqOut
            (if s > 0 then
              dfsByFlag P M updateTab curveLen fuel (pre ++ [p]) q.X q.Y q.Angle .Straight (s - 1) c
                seen
            else ([], none))
            (if c > 0 then
              seqOut
                (dfsByFlag P M updateTab curveLen fuel (pre ++ [p]) q.X q.Y q.Angle .Left s (c - 1)
                  seen)
                (if seen = true then
                  dfsByFlag P M updateTab curveLen fuel (pre ++ [p]) q.X q.Y q.Angle .Right s
                    (c - 1) seen
                else ([], none))
            else ([], none))

/-- The body of `findTracks` after the bridge check, searched by `dfsByFlag`. -/
def tracksByFlag {R : Type} [LinearOrderedField R] (P : Params R) (M : MathFn R)
    (updateTab : List (update R)) (bridges straights curves : Int) :
    List (List (Part R)) × Option Err :=
  let curveLen : R := P.Radius * 2 * M.Sin (M.Pi / (P.AngleN : R))
  let fuel : Nat := straights.toNat + curves.toNat + 1
  if bridges = 1 then
    match (⟨0, 0, 0, .Bridge⟩ : Part R).Update P updateTab Part.zero with
    | .error e => ([], some e)
    | .ok q =>
      seqOut
        (dfsByFlag P M updateTab curveLen fuel [⟨0, 0, 0, .Bridge⟩] q.X q.Y q.Angle .Straight
          (straights - 1) curves false)
        (dfsByFlag P M updateTab curveLen fuel [⟨0, 0, 0, .Bridge⟩] q.X q.Y q.Angle .Left
          straights (curves - 1) false)
  else
    seqOut
      (dfsByFlag P M updateTab curveLen fuel [] 0 0 0 .Straight (straights - 1) curves false)
      (dfsByFlag P M updateTab curveLen fuel [] 0 0 0 .Left straights (curves - 1) false)

/-- The slice `initUpdateTab` leaves in `updateTab` when `AngleN` is not negative. -/
def tableOf {R : Type} [LinearOrderedField R] (P : Params R) (M : MathFn R) : List (update R) :=
  (List.range P.AngleN.toNat).foldl (initUpdateTabStep P M)
    (List.replicate (kindCnt * P.AngleN).toNat update.zero)

/-- The entry `initUpdateTab` stores for the kind `k` and the angle `a`; the entries for
`End` keep their zero value. -/
def entry {R : Type} [LinearOrderedField R] (P : Params R) (M : MathFn R) : Kind → Nat → update R
  | .End, _ => update.zero
  | .Bridge, a =>
    ⟨M.Cos (Angle.Rad P M a) * P.BridgeLen, M.Sin (Angle.Rad P M a) * P.BridgeLen, 0⟩
  | .Straight, a =>
    ⟨M.Cos (Angle.Rad P M a) * P.StraightLen, M.Sin (Angle.Rad P M a) * P.StraightLen, 0⟩
  | .Left, a =>
    ⟨M.Cos (Angle.Rad P M a + M.Pi / (P.AngleN : R)) *
        (P.Radius * 2 * M.Sin (M.Pi / (P.AngleN : R))),
      M.Sin (Angle.Rad P M a + M.Pi / (P.AngleN : R)) *
        (P.Radius * 2 * M.Sin (M.Pi / (P.AngleN : R))), 1⟩
  | .Right, a =>
    ⟨M.Cos (Angle.Rad P M a - M.Pi / (P.AngleN : R)) *
        (P.Radius * 2 * M.Sin (M.Pi / (P.AngleN : R))),
      M.Sin (Angle.Rad P M a - M.Pi / (P.AngleN : R)) *
        (P.Radius * 2 * M.Sin (M.Pi / (P.AngleN : R))), -1⟩

/-- The `iota` value of a kind as a natural number. -/
def Kind.toNat : Kind → Nat
  | .End => 0
  | .Bridge => 1
  | .Straight => 2
  | .Left => 3
  | .Right => 4

/-- The contribution of one part to `totalAngle`. -/
def Kind.turn : Kind → Int
  | .Left => 1
  | .Right => -1
  | _ => 0

/-- The functions of `M` are the real ones: `float64` arithmetic read over exact reals. -/
def MathFn.Exact (M : MathFn ℝ) : Prop :=
  M.Pi = Real.pi ∧ M.Sin = Real.sin ∧ M.Cos = Real.cos ∧ M.Sqrt = Real.sqrt

/-- The length of the displacement stored for a kind: the piece length for `Bridge` and
`Straight`, `curveLen` (the chord `Radius * 2 * Sin(Pi / AngleN)`) for the curves. -/
def stepLen {R : Type} [LinearOrderedField R] (P : Params R) (M : MathFn R) : Kind → R
  | .End => 0
  | .Bridge => P.BridgeLen
  | .Straight => P.StraightLen
  | .Left => P.Radius * 2 * M.Sin (M.Pi / (P.AngleN : R))
  | .Right => P.Radius * 2 * M.Sin (M.Pi / (P.AngleN : R))

/-! ### A rational instance

Angles are measured so that a full turn is `4`; `gridSin` and `gridCos` are exact at the
quarter turns and take the values `±1/2` at the eighth turns in between, so that with
`AngleN = 4` every entry of the transition table is rational and four `Left` parts close
up. It serves to run the definitions on concrete inputs. -/

/-- Sine on the grid. -/
def gridSin (x : ℚ) : ℚ :=
  if x = 0 then 0 else if x = 1 then 1 else if x = 2 then 0 else if x = 3 then -1
  else if x = 1 / 2 then 1 / 2 else if x = 3 / 2 then 1 / 2 else if x = 5 / 2 then -1 / 2
  else if x = 7 / 2 then -1 / 2 else if x = -1 / 2 then -1 / 2 else 0

/-- Cosine on the grid. -/
def gridCos (x : ℚ) : ℚ :=
  if x = 0 then 1 else if x = 1 then 0 else if x = 2 then -1 else if x = 3 then 0
  else if x = 1 / 2 then 1 / 2 else if x = 3 / 2 then -1 / 2 else if x = 5 / 2 then -1 / 2
  else if x = 7 / 2 then 1 / 2 else if x = -1 / 2 then 1 / 2 else 0

/-- Square root rounded down to an integer, for arguments below `32 * 32`. -/
def gridSqrt (x : ℚ) : ℚ :=
  (((List.range 32).filter (fun k => decide (((k : ℚ) + 1) * ((k : ℚ) + 1) ≤ x))).length : ℚ)

/-- The grid functions as a `MathFn`. -/
def gridMath : MathFn ℚ := ⟨2, gridSin, gridCos, gridSqrt⟩

/-- Parameters for the grid: four curves to the circle. -/
def gridParams : Params ℚ := ⟨4, 2, 8, 1⟩

/-- The transition table `initUpdateTab` builds for `gridParams`. -/
def gridTab : List (update ℚ) :=
  match initUpdateTab gridParams gridMath with
  | .ok t => t
  | .error _ => []

/-! ## Theorems -/

set_option linter.unusedSectionVars false

variable {R : Type} [LinearOrderedField R]

/-! ### `r` computes the path-passing search -/

theorem Update_zero_of_ok (P : Params R) (tab : List (update R)) (p t q : Part R)
    (h : p.Update P tab t = .ok q) :
    p.Update P tab Part.zero = .ok ⟨q.X, q.Y, q.Angle, .End⟩ ∧ q.Kind = t.Kind := by
  unfold Part.Update at h ⊢
  simp only at h ⊢
  split at h
  · cases h
  · rename_i hi
    split at h
    · cases h
    · split at h
      · cases h
      · cases h
        simp [Part.zero, hi]

theorem Update_zero_of_error (P : Params R) (tab : List (update R)) (p t : Part R) (e : Err)
    (h : p.Update P tab t = .error e) :
    p.Update P tab Part.zero = .error e := by
  unfold Part.Update at h ⊢
  simp only at h ⊢
  split at h
  · rename_i hi
    simpa [hi] using h
  · rename_i hi
    split at h
    · simpa [hi] using h
    · split at h
      · simpa [hi] using h
      · cases h
theorem Frame.refl (pos : Nat) (t : List (Part R)) : Frame pos t t := by
  refine ⟨rfl, rfl, ?_⟩
  intro x y hx hy
  rw [hx] at hy
  cases hy
  exact ⟨rfl, rfl, rfl⟩

theorem Frame.trans {pos : Nat} {t1 t2 t3 : List (Part R)} (h12 : Frame pos t1 t2)
    (h23 : Frame pos t2 t3) : Frame pos t1 t3 := by
  obtain ⟨hl, ht, hp⟩ := h12
  obtain ⟨hl2, ht2, hp2⟩ := h23
  refine ⟨hl2.trans hl, ht2.trans ht, ?_⟩
  intro x z hx hz
  have hlt : pos < t2.length := by
    rw [hl]
    exact (List.getElem?_eq_some_iff.1 hx).1
  obtain ⟨y, hy⟩ : ∃ y, t2[pos]? = some y := ⟨t2[pos], List.getElem?_eq_getElem hlt⟩
  obtain ⟨a1, a2, a3⟩ := hp x y hx hy
  obtain ⟨b1, b2, b3⟩ := hp2 y z hy hz
  exact ⟨a1.trans b1, a2.trans b2, a3.trans b3⟩

theorem Frame.weaken {pos : Nat} {t1 t2 : List (Part R)} (h : Frame (pos + 1) t1 t2) :
    Frame pos t1 t2 := by
  obtain ⟨hl, ht, _⟩ := h
  have hget : ∀ i, i < pos + 1 → t2[i]? = t1[i]? := by
    intro i hi
    have h1 := congrArg (fun l => l[i]?) ht
    simpa [List.getElem?_take, hi] using h1
  refine ⟨hl, ?_, ?_⟩
  · have h1 := congrArg (List.take pos) ht
    simpa [List.take_take] using h1
  · intro x y hx hy
    rw [hget pos (Nat.lt_succ_self pos), hx] at hy
    cases hy
    exact ⟨rfl, rfl, rfl⟩

theorem Sim.skip (pos : Nat) (track : List (Part R)) (out : List (List (Part R))) :
    Sim pos track out ⟨track, out, none⟩ ([], none) :=
  ⟨by simp, rfl, Frame.refl pos track⟩

theorem Sim.andThen {pos : Nat} {track : List (Part R)} {out : List (List (Part R))}
    {a : Search R} {f : List (Part R) → List (List (Part R)) → Search R}
    {da db : List (List (Part R)) × Option Err}
    (ha : Sim pos track out a da)
    (hf : Frame pos track a.track → Sim pos a.track a.out (f a.track a.out) db) :
    Sim pos track out (a.andThen f) (seqOut da db) := by
  obtain ⟨ho, he, hfr⟩ := ha
  unfold Search.andThen seqOut
  cases hda : da.2 with
  | some e =>
    rw [hda] at he
    simp only [he]
    exact ⟨ho, by rw [he, hda], hfr⟩
  | none =>
    rw [hda] at he
    simp only [he]
    obtain ⟨ho2, he2, hfr2⟩ := hf hfr
    exact ⟨by rw [ho2, ho, List.append_assoc], he2, hfr.trans hfr2⟩

theorem Sim.mono {pos : Nat} {t1 t2 : List (Part R)} {out : List (List (Part R))}
    {res : Search R} {d : List (List (Part R)) × Option Err}
    (h : Sim (pos + 1) t2 out res d) (h12 : Frame pos t1 t2) : Sim pos t1 out res d :=
  ⟨h.1, h.2.1, h12.trans h.2.2.weaken⟩
theorem take_set_ge {α : Type} (a : α) {n m : Nat} (l : List α) (h : m ≤ n) :
    (l.set n a).take m = l.take m :=
  List.ext_getElem? fun i => by
    rw [List.getElem?_take, List.getElem?_take]
    split
    · rw [List.getElem?_set_ne (by omega)]
    · rfl

theorem r_eq_dfs (P : Params R) (M : MathFn R) (tab : List (update R)) (curves n1 : Int)
    (curveLen : R) :
    ∀ (fuel pos : Nat) (kind : Kind) (s c : Int) (track : List (Part R))
      (out : List (List (Part R))) (pre : List (Part R)) (X Y : R) (A : Angle),
      (track.length : Int) = pos + s + c + 2 → n1 = (track.length : Int) - 1 →
      track.take pos = pre →
      (∀ x, track[pos]? = some x → x.X = X ∧ x.Y = Y ∧ x.Angle = A) →
      Sim pos track out (r P M tab curves n1 curveLen fuel pos kind s c track out)
        (dfs P M tab curves curveLen fuel pre X Y A kind s c) := by
  intro fuel
  induction fuel with
  | zero =>
    intro pos kind s c track out pre X Y A _ _ _ _
    exact ⟨by simp [r, dfs], by simp [r, dfs], Frame.refl _ _⟩
  | succ fuel ih =>
    intro pos kind s c track out pre X Y A hlen hn1 hpre hcur
    unfold r dfs
    cases h0 : track[pos]? with
    | none =>
      have hs : s + c + 1 ≤ 0 := by
        rw [List.getElem?_eq_none_iff] at h0
        omega
      simp only [hs, if_true]
      exact ⟨by simp, rfl, Frame.refl _ _⟩
    | some p0 =>
      obtain ⟨hX, hY, hA⟩ := hcur p0 h0
      have hpos : pos < track.length := (List.getElem?_eq_some_iff.1 h0).1
      have hp : ({ p0 with Kind := kind } : Part R) = ⟨X, Y, A, kind⟩ := by
        rw [← hX, ← hY, ← hA]
      simp only [hp]
      have hfr1 : Frame pos track (track.set pos ⟨X, Y, A, kind⟩) := by
        refine ⟨by simp, take_set_ge _ _ (Nat.le_refl _), ?_⟩
        intro x y hx hy
        rw [h0] at hx
        cases hx
        rw [List.getElem?_set_self (by simpa using hpos)] at hy
        cases hy
        exact ⟨hX, hY, hA⟩
      cases h1 : (track.set pos ⟨X, Y, A, kind⟩)[pos + 1]? with
      | none =>
        have hs : s + c + 1 ≤ 0 := by
          rw [List.getElem?_eq_none_iff, List.length_set] at h1
          omega
        simp only [hs, if_true]
        exact ⟨by simp, rfl, hfr1⟩
      | some target =>
        have hpos1 : pos + 1 < track.length := by
          have := (List.getElem?_eq_some_iff.1 h1).1
          simpa using this
        have hs : ¬ s + c + 1 ≤ 0 := by omega
        simp only [hs, if_false]
        cases h2 : Part.Update P tab ⟨X, Y, A, kind⟩ target with
        | error e =>
          rw [Update_zero_of_error P tab _ _ _ h2]
          exact ⟨by simp, rfl, hfr1⟩
        | ok q =>
          obtain ⟨hz, -⟩ := Update_zero_of_ok P tab _ _ _ h2
          rw [hz]
          simp only
          have hfr2 : Frame pos track ((track.set pos ⟨X, Y, A, kind⟩).set (pos + 1) q) := by
            refine hfr1.trans ⟨by simp, take_set_ge _ _ (Nat.le_succ _), ?_⟩
            intro x y hx hy
            rw [List.getElem?_set_ne (by omega)] at hy
            rw [hx] at hy
            cases hy
            exact ⟨rfl, rfl, rfl⟩
          have htake : ((track.set pos ⟨X, Y, A, kind⟩).set (pos + 1) q).take (pos + 1)
              = pre ++ [⟨X, Y, A, kind⟩] := by
            rw [take_set_ge _ _ (Nat.le_refl _), List.take_succ, take_set_ge _ _ (Nat.le_refl _), hpre,
              List.getElem?_set_self hpos]
            rfl
          have hq1 : ((track.set pos ⟨X, Y, A, kind⟩).set (pos + 1) q)[pos + 1]? = some q :=
            List.getElem?_set_self (by simpa using hpos1)
          by_cases hterm : s = 0 ∧ c = 0
          · simp only [hterm, and_self, if_true]
            have hn : ¬ n1 < 0 := by omega
            have hn1' : n1.toNat = pos + 1 := by omega
            simp only [hn, if_false, hn1', hq1, htake]
            have h00 : ((track.set pos ⟨X, Y, A, kind⟩).set (pos + 1) q)[0]?
                = some ((pre ++ [(⟨X, Y, A, kind⟩ : Part R)]).headD ⟨X, Y, A, kind⟩) := by
              have := congrArg (fun l => l[0]?) htake
              simp only [List.getElem?_take, Nat.zero_lt_succ, if_true] at this
              rw [this]
              cases pre <;> simp
            rw [h00]
            simp only
            have hsame : ∀ f : Part R, f.AtSamePlaceAs q
                = f.AtSamePlaceAs ⟨q.X, q.Y, q.Angle, .End⟩ := fun f => rfl
            rw [← hsame]
            split
            · exact ⟨rfl, rfl, hfr2⟩
            · exact ⟨by simp, rfl, hfr2⟩
          · simp only [hterm, if_false]
            split
            · exact ⟨by simp, rfl, hfr2⟩
            · have key : ∀ (kind2 : Kind) (s2 c2 : Int) (track2 : List (Part R))
                  (out2 : List (List (Part R))), s2 + c2 + 1 = s + c →
                  Frame (pos + 1) ((track.set pos ⟨X, Y, A, kind⟩).set (pos + 1) q) track2 →
                  Sim (pos + 1) track2 out2
                    (r P M tab curves n1 curveLen fuel (pos + 1) kind2 s2 c2 track2 out2)
                    (dfs P M tab curves curveLen fuel (pre ++ [(⟨X, Y, A, kind⟩ : Part R)]) q.X q.Y q.Angle
                      kind2 s2 c2) := by
                intro kind2 s2 c2 track2 out2 hsc hfr
                obtain ⟨hl, ht, hp2⟩ := hfr
                apply ih
                · rw [hl]; simp only [List.length_set]; push_cast; omega
                · rw [hl]; simpa using hn1
                · rw [ht, htake]
                · intro x hx
                  obtain ⟨e1, e2, e3⟩ := hp2 q x hq1 hx
                  exact ⟨e1.symm, e2.symm, e3.symm⟩
              refine Sim.mono ?_ hfr2
              refine Sim.andThen ?_ ?_
              · by_cases hs0 : s > 0
                · simp only [hs0, if_true]
                  exact key _ _ _ _ _ (by omega) (Frame.refl _ _)
                · simp only [hs0, if_false]
                  exact Sim.skip _ _ _
              · intro hfrA
                by_cases hc0 : c > 0
                · simp only [hc0, if_true]
                  refine Sim.andThen (key _ _ _ _ _ (by omega) hfrA) ?_
                  intro hfrB
                  by_cases hcc : c < curves
                  · simp only [hcc, if_true]
                    exact key _ _ _ _ _ (by omega) (hfrA.trans hfrB)
                  · simp only [hcc, if_false]
                    exact Sim.skip _ _ _
                · simp only [hc0, if_false]
                  exact Sim.skip _ _ _
theorem Sim.out_err (pos : Nat) (track : List (Part R)) {res : Search R}
    {d : List (List (Part R)) × Option Err} (h : Sim pos track [] res d) :
    res.out = d.1 ∧ res.err = d.2 :=
  ⟨by simpa using h.1, h.2.1⟩

theorem findTracks_eq_spec (P : Params R) (M : MathFn R) (tab : List (update R))
    (bridges straights curves : Int) (hb : bridges = 0 ∨ bridges = 1) (hs : 0 ≤ straights)
    (hc : 0 ≤ curves) :
    (findTracks P M tab bridges straights curves).out = (tracksSpec P M tab bridges straights curves).1 ∧
    (findTracks P M tab bridges straights curves).err = (tracksSpec P M tab bridges straights curves).2 := by
  have hb1 : ¬ bridges > 1 := by omega
  have hn : ¬ bridges + straights + curves + 1 < 0 := by omega
  unfold findTracks tracksSpec
  simp only [hb1, hn, if_false]
  rcases hb with hb | hb
  · subst hb
    simp only [zero_ne_one, if_false]
    apply Sim.out_err 0 (List.replicate (0 + straights + curves + 1).toNat Part.zero)
    have hz : ∀ x : Part R, (List.replicate (0 + straights + curves + 1).toNat (Part.zero : Part R))[0]? = some x →
        x.X = 0 ∧ x.Y = 0 ∧ x.Angle = 0 := by
      intro x hx
      rw [List.getElem?_replicate] at hx
      split at hx
      · cases hx; exact ⟨rfl, rfl, rfl⟩
      · cases hx
    have hrun : ∀ (t : List (Part R)) o, Search.andThen ⟨t, o, none⟩ = fun f => f t o := by
      intro t o; rfl
    rw [hrun]
    simp only
    refine Sim.andThen ?_ ?_
    · apply r_eq_dfs
      · simp only [List.length_replicate]; push_cast; omega
      · rfl
      · rfl
      · exact hz
    · intro hfr
      obtain ⟨hl, -, hp⟩ := hfr
      apply r_eq_dfs
      · rw [hl]; simp only [List.length_replicate]; push_cast; omega
      · rw [hl]
      · rfl
      · intro x hx
        have h0 : (List.replicate (0 + straights + curves + 1).toNat (Part.zero : Part R))[0]? = some Part.zero := by
          rw [List.getElem?_replicate, if_pos (by omega)]
        obtain ⟨e1, e2, e3⟩ := hp _ _ h0 hx
        exact ⟨e1.symm, e2.symm, e3.symm⟩
  · subst hb
    simp only [if_true]
    obtain ⟨n, hn2⟩ : ∃ n : Nat, (1 + straights + curves + 1).toNat = n + 2 :=
      ⟨(straights + curves).toNat, by omega⟩
    rw [hn2]
    have hrep : List.replicate (n + 2) (Part.zero : Part R)
        = Part.zero :: Part.zero :: List.replicate n Part.zero := rfl
    have hpb : placeBridge P tab (List.replicate (n + 2) (Part.zero : Part R))
        = match (⟨0, 0, 0, .Bridge⟩ : Part R).Update P tab Part.zero with
          | .error e => ⟨(⟨0, 0, 0, .Bridge⟩ : Part R) :: Part.zero :: List.replicate n Part.zero,
              [], some e⟩
          | .ok q => ⟨(⟨0, 0, 0, .Bridge⟩ : Part R) :: q :: List.replicate n Part.zero,
              [], none⟩ := by
      rw [hrep]
      simp only [placeBridge, List.getElem?_cons_zero, List.set_cons_zero,
        List.getElem?_cons_succ, List.set_cons_succ]
      rfl
    rw [hpb]
    cases hu : (⟨0, 0, 0, .Bridge⟩ : Part R).Update P tab Part.zero with
    | error e => exact ⟨rfl, rfl⟩
    | ok q =>
      simp only
      have hrun : ∀ (t : List (Part R)) o, Search.andThen ⟨t, o, none⟩ = fun f => f t o := by
        intro t o; rfl
      rw [hrun]
      simp only
      apply Sim.out_err 1 ((⟨0, 0, 0, .Bridge⟩ : Part R) :: q :: List.replicate n Part.zero)
      refine Sim.andThen ?_ ?_
      · apply r_eq_dfs
        · simp only [List.length_cons, List.length_replicate]; push_cast; omega
        · simp only [List.length_cons, List.length_replicate]
        · rfl
        · intro x hx
          simp only [List.getElem?_cons_succ, List.getElem?_cons_zero, Option.some.injEq] at hx
          subst hx
          exact ⟨rfl, rfl, rfl⟩
      · intro hfr
        obtain ⟨hl, ht, hp⟩ := hfr
        apply r_eq_dfs
        · rw [hl]; simp only [List.length_cons, List.length_replicate]; push_cast; omega
        · rw [hl]; simp only [List.length_cons, List.length_replicate]
        · rw [ht]; rfl
        · intro x hx
          obtain ⟨e1, e2, e3⟩ := hp q x (by simp) hx
          exact ⟨e1.symm, e2.symm, e3.symm⟩
/-! ### What the search sends -/

theorem mem_seqOut {a b : List (List (Part R)) × Option Err} {t : List (Part R)}
    (h : t ∈ (seqOut a b).1) : t ∈ a.1 ∨ t ∈ b.1 := by
  unfold seqOut at h
  split at h
  · exact Or.inl h
  · exact List.mem_append.1 h

theorem KindsOK.nil (curves : Int) : KindsOK curves 0 0 [] := by
  refine ⟨by simp, by simp, by simp, ?_⟩
  intro _ k hk
  simp at hk

theorem KindsOK.straight {curves s c : Int} {ks : List Kind} (h : KindsOK curves (s - 1) c ks) :
    KindsOK curves s c (.Straight :: ks) := by
  obtain ⟨h1, h2, h3, h4⟩ := h
  refine ⟨?_, ?_, ?_, ?_⟩
  · rw [List.count_cons_self]; push_cast; omega
  · rw [List.count_cons_of_ne (by decide), List.count_cons_of_ne (by decide)]; exact h2
  · intro k hk
    rcases List.mem_cons.1 hk with rfl | hk
    · exact Or.inl rfl
    · exact h3 k hk
  · intro hc k hk
    rw [List.find?_cons_of_neg _ (by decide)] at hk
    exact h4 hc k hk

theorem KindsOK.left {curves s c : Int} {ks : List Kind} (h : KindsOK curves s (c - 1) ks) :
    KindsOK curves s c (.Left :: ks) := by
  obtain ⟨h1, h2, h3, _⟩ := h
  refine ⟨?_, ?_, ?_, ?_⟩
  · rw [List.count_cons_of_ne (by decide)]; exact h1
  · rw [List.count_cons_self, List.count_cons_of_ne (by decide)]; push_cast; omega
  · intro k hk
    rcases List.mem_cons.1 hk with rfl | hk
    · exact Or.inr (Or.inl rfl)
    · exact h3 k hk
  · intro _ k hk
    rw [List.find?_cons_of_pos _ (by decide)] at hk
    cases hk
    rfl

theorem KindsOK.right {curves s c : Int} {ks : List Kind} (hlt : c < curves)
    (h : KindsOK curves s (c - 1) ks) : KindsOK curves s c (.Right :: ks) := by
  obtain ⟨h1, h2, h3, _⟩ := h
  refine ⟨?_, ?_, ?_, ?_⟩
  · rw [List.count_cons_of_ne (by decide)]; exact h1
  · rw [List.count_cons_self, List.count_cons_of_ne (by decide)]; push_cast; omega
  · intro k hk
    rcases List.mem_cons.1 hk with rfl | hk
    · exact Or.inr (Or.inr rfl)
    · exact h3 k hk
  · intro hc
    omega

theorem dfs_sound (P : Params R) (M : MathFn R) (tab : List (update R)) (curves : Int)
    (curveLen : R) :
    ∀ (fuel : Nat) (pre : List (Part R)) (X Y : R) (A : Angle) (kind : Kind) (s c : Int)
      (t : List (Part R)),
      t ∈ (dfs P M tab curves curveLen fuel pre X Y A kind s c).1 →
      ∃ ks ps v first, KindsOK curves s c ks ∧ place P tab X Y A (kind :: ks) = .ok (ps, v) ∧
        t = pre ++ ps ∧ t.head? = some first ∧ first.AtSamePlaceAs v = true := by
  intro fuel
  induction fuel with
  | zero =>
    intro pre X Y A kind s c t h
    simp [dfs] at h
  | succ fuel ih =>
    intro pre X Y A kind s c t h
    unfold dfs at h
    split at h
    · simp at h
    · simp only at h
      split at h
      · simp at h
      · rename_i q hq
        have step : ∀ (kind2 : Kind) (s2 c2 : Int),
            (∀ ks, KindsOK curves s2 c2 ks → KindsOK curves s c (kind2 :: ks)) →
            t ∈ (dfs P M tab curves curveLen fuel (pre ++ [⟨X, Y, A, kind⟩]) q.X q.Y q.Angle
              kind2 s2 c2).1 →
            ∃ ks ps v first, KindsOK curves s c ks ∧ place P tab X Y A (kind :: ks) = .ok (ps, v) ∧
              t = pre ++ ps ∧ t.head? = some first ∧ first.AtSamePlaceAs v = true := by
          intro kind2 s2 c2 hk ht
          obtain ⟨ks, ps, v, first, h1, h2, h3, h4, h5⟩ := ih _ _ _ _ _ _ _ _ ht
          refine ⟨kind2 :: ks, ⟨X, Y, A, kind⟩ :: ps, v, first, hk ks h1, ?_, ?_, h4, h5⟩
          · rw [place, hq]
            simp only [h2]
          · rw [h3, List.append_assoc]
            rfl
        split at h
        · rename_i hterm
          split at h
          · rename_i hclose
            simp only [List.mem_singleton] at h
            refine ⟨[], [⟨X, Y, A, kind⟩], ⟨q.X, q.Y, q.Angle, .End⟩,
              (pre ++ [(⟨X, Y, A, kind⟩ : Part R)]).headD ⟨X, Y, A, kind⟩, ?_, ?_, h, ?_, hclose⟩
            · rw [hterm.1, hterm.2]; exact KindsOK.nil curves
            · rw [place, hq]
              simp only [place]
            · rw [h]; cases pre <;> rfl
          · simp at h
        · split at h
          · simp at h
          · rcases mem_seqOut h with h | h
            · split at h
              · exact step _ _ _ (fun ks hk => hk.straight) h
              · simp at h
            · split at h
              · rcases mem_seqOut h with h | h
                · exact step _ _ _ (fun ks hk => hk.left) h
                · split at h
                  · rename_i hlt
                    exact step _ _ _ (fun ks hk => hk.right hlt) h
                  · simp at h
              · simp at h
theorem Update_kind (P : Params R) (tab : List (update R)) (p t q : Part R)
    (h : p.Update P tab t = .ok q) : q.Kind = t.Kind :=
  (Update_zero_of_ok P tab p t q h).2

theorem Update_target (P : Params R) (tab : List (update R)) (p t t2 q : Part R)
    (h : p.Update P tab t = .ok q) : p.Update P tab t2 = .ok ⟨q.X, q.Y, q.Angle, t2.Kind⟩ := by
  unfold Part.Update at h ⊢
  simp only at h ⊢
  split at h
  · cases h
  · rename_i hi
    split at h
    · cases h
    · split at h
      · cases h
      · cases h
        simp [hi]

theorem place_kinds (P : Params R) (tab : List (update R)) :
    ∀ (ks : List Kind) (X Y : R) (A : Angle) (ps : List (Part R)) (v : Part R),
      place P tab X Y A ks = .ok (ps, v) → kinds ps = ks := by
  intro ks
  induction ks with
  | nil =>
    intro X Y A ps v h
    simp only [place, Except.ok.injEq, Prod.mk.injEq] at h
    rw [← h.1]; rfl
  | cons k ks ih =>
    intro X Y A ps v h
    rw [place] at h
    split at h
    · cases h
    · split at h
      · cases h
      · rename_i _ q hq _ ps2 v2 hp
        simp only [Except.ok.injEq, Prod.mk.injEq] at h
        rw [← h.1]
        simp only [kinds, List.map_cons]
        have := ih _ _ _ _ _ hp
        simp only [kinds] at this
        rw [this]

theorem place_head (P : Params R) (tab : List (update R)) (k : Kind) (ks : List Kind) (X Y : R)
    (A : Angle) (ps : List (Part R)) (v : Part R) (h : place P tab X Y A (k :: ks) = .ok (ps, v)) :
    ∃ ps2, ps = ⟨X, Y, A, k⟩ :: ps2 := by
  rw [place] at h
  split at h
  · cases h
  · split at h
    · cases h
    · rename_i _ q hq _ ps2 v2 hp
      simp only [Except.ok.injEq, Prod.mk.injEq] at h
      exact ⟨ps2, h.1.symm⟩

/-- The parts computed by `place` form a chain for `Update`, and for a non-empty sequence the
trailing slot is what `Update` computes after the last part. -/
theorem place_chain (P : Params R) (tab : List (update R)) :
    ∀ (ks : List Kind) (X Y : R) (A : Angle) (ps : List (Part R)) (v : Part R),
      place P tab X Y A ks = .ok (ps, v) →
      List.Chain' (fun p q => p.Update P tab q = .ok q) ps ∧
      (∀ last, ps.getLast? = some last → last.Update P tab Part.zero = .ok v) ∧
      (ps = [] → v = ⟨X, Y, A, .End⟩) := by
  intro ks
  induction ks with
  | nil =>
    intro X Y A ps v h
    simp only [place, Except.ok.injEq, Prod.mk.injEq] at h
    obtain ⟨h1, h2⟩ := h
    subst h1
    exact ⟨List.chain'_nil, by simp, fun _ => h2.symm⟩
  | cons k ks ih =>
    intro X Y A ps v h
    rw [place] at h
    split at h
    · cases h
    · split at h
      · cases h
      · rename_i _ q hq _ ps2 v2 hp
        simp only [Except.ok.injEq, Prod.mk.injEq] at h
        obtain ⟨h1, h2⟩ := h
        subst h1 h2
        obtain ⟨ic, il, ie⟩ := ih _ _ _ _ _ hp
        refine ⟨?_, ?_, by simp⟩
        · cases ks with
          | nil =>
            simp only [place, Except.ok.injEq, Prod.mk.injEq] at hp
            rw [← hp.1]
            exact List.chain'_singleton _
          | cons k2 ks2 =>
            obtain ⟨ps3, hps3⟩ := place_head P tab _ _ _ _ _ _ _ hp
            subst hps3
            refine List.Chain'.cons ?_ ic
            exact Update_target P tab _ _ _ _ hq
        · intro last hl
          cases ps2 with
          | nil =>
            simp only [List.getLast?_singleton, Option.some.injEq] at hl
            subst hl
            rw [ie rfl, hq]
            have hk := Update_kind P tab _ _ _ hq
            cases q
            simp only [Part.zero] at hk
            simp only [hk]
          | cons p3 ps3 =>
            rw [List.getLast?_cons_cons] at hl
            exact il last hl
theorem findTracks_sound (P : Params R) (M : MathFn R) (tab : List (update R))
    (bridges straights curves : Int) (hb : bridges = 0 ∨ bridges = 1) (hs : 0 ≤ straights)
    (hc : 0 ≤ curves) (t : List (Part R))
    (ht : t ∈ (findTracks P M tab bridges straights curves).out) :
    ∃ v first, StartKinds bridges straights curves (kinds t) ∧
      place P tab 0 0 0 (kinds t) = .ok (t, v) ∧ t.head? = some first ∧
      first.AtSamePlaceAs v = true := by
  rw [(findTracks_eq_spec P M tab bridges straights curves hb hs hc).1] at ht
  unfold tracksSpec at ht
  simp only at ht
  rcases hb with hb | hb
  · subst hb
    simp only [zero_ne_one, if_false] at ht
    have fin : ∀ (k0 : Kind) (s c : Int),
        ((k0 = .Straight ∧ KindsOK curves (straights - 1) curves = KindsOK curves s c) ∨
          (k0 = .Left ∧ KindsOK curves straights (curves - 1) = KindsOK curves s c)) →
        t ∈ (dfs P M tab curves (P.Radius * 2 * M.Sin (M.Pi / (P.AngleN : R)))
          (straights.toNat + curves.toNat + 1) [] 0 0 0 k0 s c).1 →
        ∃ v first, StartKinds 0 straights curves (kinds t) ∧
          place P tab 0 0 0 (kinds t) = .ok (t, v) ∧ t.head? = some first ∧
          first.AtSamePlaceAs v = true := by
      intro k0 s c hk h
      obtain ⟨ks, ps, v, first, h1, h2, h3, h4, h5⟩ := dfs_sound P M tab _ _ _ _ _ _ _ _ _ _ _ h
      simp only [List.nil_append] at h3
      subst h3
      have hkk := place_kinds P tab _ _ _ _ _ _ h2
      rw [hkk]
      refine ⟨v, first, ⟨k0, ks, by simp, ?_⟩, h2, h4, h5⟩
      rcases hk with ⟨e1, e2⟩ | ⟨e1, e2⟩
      · exact Or.inl ⟨e1, by rw [e2]; exact h1⟩
      · exact Or.inr ⟨e1, by rw [e2]; exact h1⟩
    rcases mem_seqOut ht with h | h
    · exact fin _ _ _ (Or.inl ⟨rfl, rfl⟩) h
    · exact fin _ _ _ (Or.inr ⟨rfl, rfl⟩) h
  · subst hb
    simp only [if_true] at ht
    split at ht
    · simp at ht
    · rename_i q hq
      have fin : ∀ (k0 : Kind) (s c : Int),
          ((k0 = .Straight ∧ KindsOK curves (straights - 1) curves = KindsOK curves s c) ∨
            (k0 = .Left ∧ KindsOK curves straights (curves - 1) = KindsOK curves s c)) →
          t ∈ (dfs P M tab curves (P.Radius * 2 * M.Sin (M.Pi / (P.AngleN : R)))
            (straights.toNat + curves.toNat + 1) [⟨0, 0, 0, .Bridge⟩] q.X q.Y q.Angle k0 s c).1 →
          ∃ v first, StartKinds 1 straights curves (kinds t) ∧
            place P tab 0 0 0 (kinds t) = .ok (t, v) ∧ t.head? = some first ∧
            first.AtSamePlaceAs v = true := by
        intro k0 s c hk h
        obtain ⟨ks, ps, v, first, h1, h2, h3, h4, h5⟩ := dfs_sound P M tab _ _ _ _ _ _ _ _ _ _ _ h
        subst h3
        have hkk := place_kinds P tab _ _ _ _ _ _ h2
        have hkt : kinds ([(⟨0, 0, 0, .Bridge⟩ : Part R)] ++ ps) = .Bridge :: k0 :: ks := by
          simp only [kinds] at hkk
          simp [kinds, hkk]
        rw [hkt]
        refine ⟨v, first, ⟨k0, ks, by simp, ?_⟩, ?_, h4, h5⟩
        · rcases hk with ⟨e1, e2⟩ | ⟨e1, e2⟩
          · exact Or.inl ⟨e1, by rw [e2]; exact h1⟩
          · exact Or.inr ⟨e1, by rw [e2]; exact h1⟩
        · rw [place, hq]
          simp only [h2]
          rfl
      rcases mem_seqOut ht with h | h
      · exact fin _ _ _ (Or.inl ⟨rfl, rfl⟩) h
      · exact fin _ _ _ (Or.inr ⟨rfl, rfl⟩) h
/-! ### Closed loops, piece counts and symmetry breaking (C1, C2, C7, C8) -/

theorem closedLoop_of_place (P : Params R) (tab : List (update R)) (t : List (Part R))
    (v first : Part R) (hne : kinds t ≠ [])
    (hp : place P tab 0 0 0 (kinds t) = .ok (t, v)) (hh : t.head? = some first)
    (hc : first.AtSamePlaceAs v = true) : ClosedLoop P tab t := by
  obtain ⟨hchain, hlast, -⟩ := place_chain P tab _ _ _ _ _ _ hp
  obtain ⟨k, ks, hk⟩ := List.exists_cons_of_ne_nil hne
  rw [hk] at hp
  obtain ⟨ps2, hps⟩ := place_head P tab _ _ _ _ _ _ _ hp
  have hf : first = ⟨0, 0, 0, k⟩ := by
    rw [hps] at hh
    simp only [List.head?_cons, Option.some.injEq] at hh
    exact hh.symm
  have hne2 : t ≠ [] := by rw [hps]; simp
  refine ⟨hchain, first, t.getLast hne2, v, hh, ?_, ?_, ?_, List.getLast?_eq_getLast _ hne2,
    hlast _ (List.getLast?_eq_getLast _ hne2), hc⟩
  · rw [hf]
  · rw [hf]
  · rw [hf]

theorem StartKinds.ne_nil {bridges straights curves : Int} {ks : List Kind}
    (h : StartKinds bridges straights curves ks) : ks ≠ [] := by
  obtain ⟨k0, rest, h1, -⟩ := h
  rw [h1]
  simp

/-- C1: for `bridges ∈ {0, 1}`, `straights ≥ 0` and `curves ≥ 0`, every track sent by
`findTracks` is a chain-consistent closed loop: its first part is at `(0, 0)` with heading
`0`, every later part is the result of `Update` applied to the part before it, and the slot
`Update` computes after the last part is `AtSamePlaceAs` the first part. -/
theorem findTracks_emits_closed_loops (P : Params R) (M : MathFn R) (tab : List (update R))
    (bridges straights curves : Int) (hb : bridges = 0 ∨ bridges = 1) (hs : 0 ≤ straights)
    (hc : 0 ≤ curves) :
    ∀ t ∈ (findTracks P M tab bridges straights curves).out, ClosedLoop P tab t := by
  intro t ht
  obtain ⟨v, first, hk, hp, hh, hcl⟩ := findTracks_sound P M tab bridges straights curves hb hs hc t ht
  exact closedLoop_of_place P tab t v first hk.ne_nil hp hh hcl

theorem count_of_slr (ks : List Kind)
    (h : ∀ k ∈ ks, k = Kind.Straight ∨ k = Kind.Left ∨ k = Kind.Right) :
    ks.length = ks.count .Straight + ks.count .Left + ks.count .Right ∧
      ks.count .Bridge = 0 ∧ ks.count .End = 0 := by
  induction ks with
  | nil => simp
  | cons k ks ih =>
    obtain ⟨i1, i2, i3⟩ := ih (fun k hk => h k (List.mem_cons_of_mem _ hk))
    rcases h k (List.mem_cons_self _ _) with rfl | rfl | rfl
    · refine ⟨?_, ?_, ?_⟩
      · rw [List.length_cons, List.count_cons_self, List.count_cons_of_ne (by decide),
          List.count_cons_of_ne (by decide)]; omega
      · rw [List.count_cons_of_ne (by decide)]; exact i2
      · rw [List.count_cons_of_ne (by decide)]; exact i3
    · refine ⟨?_, ?_, ?_⟩
      · rw [List.length_cons, List.count_cons_self, List.count_cons_of_ne (by decide),
          List.count_cons_of_ne (by decide)]; omega
      · rw [List.count_cons_of_ne (by decide)]; exact i2
      · rw [List.count_cons_of_ne (by decide)]; exact i3
    · refine ⟨?_, ?_, ?_⟩
      · rw [List.length_cons, List.count_cons_self, List.count_cons_of_ne (by decide),
          List.count_cons_of_ne (by decide)]; omega
      · rw [List.count_cons_of_ne (by decide)]; exact i2
      · rw [List.count_cons_of_ne (by decide)]; exact i3

theorem StartKinds.counts {bridges straights curves : Int} {ks : List Kind}
    (hb : bridges = 0 ∨ bridges = 1) (h : StartKinds bridges straights curves ks) :
    (ks.length : Int) = bridges + straights + curves ∧ (ks.count .Bridge : Int) = bridges ∧
      (ks.count .Straight : Int) = straights ∧
      (ks.count .Left : Int) + (ks.count .Right : Int) = curves ∧ ks.count .End = 0 := by
  obtain ⟨k0, rest, h1, h2⟩ := h
  have hrest : ∃ s c, KindsOK curves s c rest := by
    rcases h2 with ⟨-, h⟩ | ⟨-, h⟩
    · exact ⟨_, _, h⟩
    · exact ⟨_, _, h⟩
  obtain ⟨s, c, -, -, hslr, -⟩ := hrest
  obtain ⟨l1, l2, l3⟩ := count_of_slr rest hslr
  subst h1
  have e1 : rest.count .Bridge = 0 := l2
  rcases hb with hb | hb <;> subst hb <;>
    rcases h2 with ⟨rfl, c1, c2, -, -⟩ | ⟨rfl, c1, c2, -, -⟩ <;>
    simp [List.count_cons, l2, l3] <;>
    omega
/-- C2: for `bridges ∈ {0, 1}`, `straights ≥ 0` and `curves ≥ 0`, every track sent by
`findTracks` has `bridges + straights + curves` parts, of which exactly `bridges` are
`Bridge`, exactly `straights` are `Straight`, exactly `curves` are `Left` or `Right`, and
none is `End`. -/
theorem findTracks_uses_all_pieces (P : Params R) (M : MathFn R) (tab : List (update R))
    (bridges straights curves : Int) (hb : bridges = 0 ∨ bridges = 1) (hs : 0 ≤ straights)
    (hc : 0 ≤ curves) :
    ∀ t ∈ (findTracks P M tab bridges straights curves).out,
      (t.length : Int) = bridges + straights + curves ∧
      ((kinds t).count .Bridge : Int) = bridges ∧
      ((kinds t).count .Straight : Int) = straights ∧
      ((kinds t).count .Left : Int) + ((kinds t).count .Right : Int) = curves ∧
      Kind.End ∉ kinds t := by
  intro t ht
  obtain ⟨v, first, hk, -, -, -⟩ := findTracks_sound P M tab bridges straights curves hb hs hc t ht
  obtain ⟨h1, h2, h3, h4, h5⟩ := hk.counts hb
  refine ⟨?_, h2, h3, h4, List.count_eq_zero.1 h5⟩
  rw [← h1]
  simp [kinds]

theorem StartKinds.firstCurve {bridges straights curves : Int} {ks : List Kind}
    (h : StartKinds bridges straights curves ks) :
    ∀ k, ks.find? Kind.isCurve = some k → k = .Left := by
  obtain ⟨k0, rest, h1, h2⟩ := h
  intro k hk
  have hk2 : (k0 :: rest).find? Kind.isCurve = some k := by
    rw [h1] at hk
    split at hk
    · simpa [List.find?_cons, Kind.isCurve] using hk
    · simpa using hk
  rcases h2 with ⟨rfl, -, -, -, h4⟩ | ⟨rfl, -⟩
  · rw [List.find?_cons_of_neg _ (by decide)] at hk2
    exact h4 (le_refl _) k hk2
  · rw [List.find?_cons_of_pos _ (by decide)] at hk2
    cases hk2
    rfl

theorem isCurve_mirror (k : Kind) : k.mirror.isCurve = k.isCurve := by
  cases k <;> rfl

theorem find_isCurve_mirror (ks : List Kind) :
    (ks.map Kind.mirror).find? Kind.isCurve = (ks.find? Kind.isCurve).map Kind.mirror := by
  induction ks with
  | nil => rfl
  | cons k ks ih =>
    simp only [List.map_cons, List.find?_cons, isCurve_mirror]
    cases k.isCurve
    · simpa using ih
    · rfl

theorem dfsByFlag_eq_dfs (P : Params R) (M : MathFn R) (tab : List (update R)) (curves : Int)
    (curveLen : R) :
    ∀ (fuel : Nat) (pre : List (Part R)) (X Y : R) (A : Angle) (kind : Kind) (s c : Int)
      (seen : Bool), c ≤ curves → (((seen || kind.isCurve) = true) ↔ c < curves) →
      dfsByFlag P M tab curveLen fuel pre X Y A kind s c seen
        = dfs P M tab curves curveLen fuel pre X Y A kind s c := by
  intro fuel
  induction fuel with
  | zero => intros; rfl
  | succ fuel ih =>
    intro pre X Y A kind s c seen hle hiff
    unfold dfsByFlag dfs
    simp only
    have e1 : dfsByFlag P M tab curveLen fuel = dfsByFlag P M tab curveLen fuel := rfl
    split
    · rfl
    · split
      · rfl
      · rename_i q hq
        split
        · rfl
        · split
          · rfl
          · congr 1
            · split
              · exact ih _ _ _ _ _ _ _ _ hle (by simpa [Kind.isCurve] using hiff)
              · rfl
            · split
              · rename_i hc0
                congr 1
                · exact ih _ _ _ _ _ _ _ _ (by omega) (by simp [Kind.isCurve]; omega)
                · by_cases hlt : c < curves
                  · rw [if_pos (hiff.2 hlt), if_pos hlt]
                    exact ih _ _ _ _ _ _ _ _ (by omega) (by simp [Kind.isCurve]; omega)
                  · rw [if_neg (fun h => hlt (hiff.1 h)), if_neg hlt]
              · rfl

theorem tracksByFlag_eq_spec (P : Params R) (M : MathFn R) (tab : List (update R))
    (bridges straights curves : Int) :
    tracksByFlag P M tab bridges straights curves = tracksSpec P M tab bridges straights curves := by
  unfold tracksByFlag tracksSpec
  simp only
  have e1 : ∀ fuel pre X Y A s, dfsByFlag P M tab (P.Radius * 2 * M.Sin (M.Pi / (P.AngleN : R)))
      fuel pre X Y A .Straight s curves false
      = dfs P M tab curves (P.Radius * 2 * M.Sin (M.Pi / (P.AngleN : R))) fuel pre X Y A
        .Straight s curves :=
    fun fuel pre X Y A s => dfsByFlag_eq_dfs P M tab curves _ fuel pre X Y A _ s _ _ (le_refl _)
      (by simp [Kind.isCurve])
  have e2 : ∀ fuel pre X Y A s, dfsByFlag P M tab (P.Radius * 2 * M.Sin (M.Pi / (P.AngleN : R)))
      fuel pre X Y A .Left s (curves - 1) false
      = dfs P M tab curves (P.Radius * 2 * M.Sin (M.Pi / (P.AngleN : R))) fuel pre X Y A
        .Left s (curves - 1) :=
    fun fuel pre X Y A s => dfsByFlag_eq_dfs P M tab curves _ fuel pre X Y A _ s _ _ (by omega)
      (by simp [Kind.isCurve])
  simp only [e1, e2]

/-- C7: for `bridges ∈ {0, 1}`, `straights ≥ 0` and `curves ≥ 0`: in every track sent by
`findTracks` that contains a curve, the first curve is `Left`; the search with the guard
`c < curves` replaced by the flag "a curve was already placed on the current path" sends
the same tracks and stops the same way; and for a sent track with a curve, no sent track
has the kinds obtained from it by swapping `Left` and `Right`. -/
theorem findTracks_first_curve_left (P : Params R) (M : MathFn R) (tab : List (update R))
    (bridges straights curves : Int) (hb : bridges = 0 ∨ bridges = 1) (hs : 0 ≤ straights)
    (hc : 0 ≤ curves) :
    (∀ t ∈ (findTracks P M tab bridges straights curves).out,
      (∃ k ∈ kinds t, k.isCurve = true) → (kinds t).find? Kind.isCurve = some .Left) ∧
    ((findTracks P M tab bridges straights curves).out
        = (tracksByFlag P M tab bridges straights curves).1 ∧
      (findTracks P M tab bridges straights curves).err
        = (tracksByFlag P M tab bridges straights curves).2) ∧
    (∀ t ∈ (findTracks P M tab bridges straights curves).out,
      (∃ k ∈ kinds t, k.isCurve = true) →
      ∀ t2 ∈ (findTracks P M tab bridges straights curves).out,
        kinds t2 ≠ (kinds t).map Kind.mirror) := by
  have first : ∀ t ∈ (findTracks P M tab bridges straights curves).out,
      (∃ k ∈ kinds t, k.isCurve = true) → (kinds t).find? Kind.isCurve = some .Left := by
    intro t ht ⟨k, hk, hkc⟩
    obtain ⟨v, f, hsk, -, -, -⟩ := findTracks_sound P M tab bridges straights curves hb hs hc t ht
    cases hf : (kinds t).find? Kind.isCurve with
    | none =>
      rw [List.find?_eq_none] at hf
      exact absurd hkc (hf k hk)
    | some k2 => rw [hsk.firstCurve k2 hf]
  refine ⟨first, ?_, ?_⟩
  · rw [tracksByFlag_eq_spec]
    exact findTracks_eq_spec P M tab bridges straights curves hb hs hc
  · intro t ht hcurve t2 ht2 heq
    have h1 := first t ht hcurve
    have h2 : (kinds t2).find? Kind.isCurve = some .Right := by
      rw [heq, find_isCurve_mirror, h1]
      rfl
    obtain ⟨k, hk, hkc⟩ := hcurve
    have h3 := first t2 ht2 ⟨k.mirror, by rw [heq]; exact List.mem_map_of_mem _ hk,
      by rw [isCurve_mirror]; exact hkc⟩
    rw [h3] at h2
    cases h2

/-- C8: for `straights ≥ 0` and `curves ≥ 0`: when `bridges = 1` every track sent by
`findTracks` has a `Bridge` at index `0` and at no other index; when `bridges = 0` no
track sent contains a `Bridge`. -/
theorem findTracks_bridge_first (P : Params R) (M : MathFn R) (tab : List (update R))
    (bridges straights curves : Int) (hb : bridges = 0 ∨ bridges = 1) (hs : 0 ≤ straights)
    (hc : 0 ≤ curves) :
    ∀ t ∈ (findTracks P M tab bridges straights curves).out,
      (bridges = 1 → (kinds t)[0]? = some .Bridge ∧
        ∀ i, (kinds t)[i]? = some .Bridge → i = 0) ∧
      (bridges = 0 → Kind.Bridge ∉ kinds t) := by
  intro t ht
  obtain ⟨v, first, hk, -, -, -⟩ := findTracks_sound P M tab bridges straights curves hb hs hc t ht
  obtain ⟨k0, rest, h1, h2⟩ := hk
  have hrest : ∀ k ∈ k0 :: rest, k ≠ .Bridge := by
    intro k hk
    rcases List.mem_cons.1 hk with rfl | hk
    · rcases h2 with ⟨rfl, -⟩ | ⟨rfl, -⟩ <;> decide
    · have h3 : ∀ k ∈ rest, k = .Straight ∨ k = .Left ∨ k = .Right := by
        rcases h2 with ⟨-, h⟩ | ⟨-, h⟩
        · exact h.2.2.1
        · exact h.2.2.1
      rcases h3 k hk with rfl | rfl | rfl <;> decide
  constructor
  · intro hb1
    rw [h1, if_pos hb1]
    refine ⟨rfl, ?_⟩
    intro i hi
    cases i with
    | zero => rfl
    | succ i =>
      simp only [List.singleton_append, List.getElem?_cons_succ] at hi
      exact absurd rfl (hrest _ (List.getElem?_mem hi))
  · intro hb0
    rw [h1, if_neg (by omega)]
    intro hmem
    exact hrest _ hmem rfl
/-! ### Order of the tracks sent (C9) -/

theorem dfs_kinds_start (P : Params R) (M : MathFn R) (tab : List (update R)) (curves : Int)
    (curveLen : R) (fuel : Nat) (pre : List (Part R)) (X Y : R) (A : Angle) (kind : Kind)
    (s c : Int) (t : List (Part R))
    (h : t ∈ (dfs P M tab curves curveLen fuel pre X Y A kind s c).1) :
    ∃ ks, kinds t = kinds pre ++ kind :: ks := by
  obtain ⟨ks, ps, v, first, -, h2, h3, -, -⟩ := dfs_sound P M tab _ _ _ _ _ _ _ _ _ _ _ h
  have hk := place_kinds P tab _ _ _ _ _ _ h2
  refine ⟨ks, ?_⟩
  rw [h3]
  simp only [kinds, List.map_append] at hk ⊢
  rw [hk]

theorem pairwise_seqOut {Rel : List (Part R) → List (Part R) → Prop}
    {a b : List (List (Part R)) × Option Err} (ha : a.1.Pairwise Rel) (hb : b.1.Pairwise Rel)
    (hab : ∀ x ∈ a.1, ∀ y ∈ b.1, Rel x y) : (seqOut a b).1.Pairwise Rel := by
  unfold seqOut
  split
  · exact ha
  · exact List.pairwise_append.2 ⟨ha, hb, hab⟩

theorem lex_of_common_start {pk : List Kind} (k1 k2 : Kind) {t1 t2 : List (Part R)}
    (h : k1.toInt < k2.toInt) (h1 : ∃ ks, kinds t1 = pk ++ k1 :: ks)
    (h2 : ∃ ks, kinds t2 = pk ++ k2 :: ks) : List.Lex Kind.lt (kinds t1) (kinds t2) := by
  obtain ⟨ks1, e1⟩ := h1
  obtain ⟨ks2, e2⟩ := h2
  rw [e1, e2]
  exact List.Lex.append_left Kind.lt (List.Lex.rel (show Kind.lt k1 k2 from h)) _

theorem dfs_sorted (P : Params R) (M : MathFn R) (tab : List (update R)) (curves : Int)
    (curveLen : R) :
    ∀ (fuel : Nat) (pre : List (Part R)) (X Y : R) (A : Angle) (kind : Kind) (s c : Int),
      List.Pairwise (fun t1 t2 => List.Lex Kind.lt (kinds t1) (kinds t2))
        (dfs P M tab curves curveLen fuel pre X Y A kind s c).1 := by
  intro fuel
  induction fuel with
  | zero => intros; simp [dfs]
  | succ fuel ih =>
    intro pre X Y A kind s c
    unfold dfs
    simp only
    split
    · exact List.Pairwise.nil
    · split
      · exact List.Pairwise.nil
      · rename_i q hq
        split
        · split
          · exact List.pairwise_singleton _ _
          · exact List.Pairwise.nil
        · split
          · exact List.Pairwise.nil
          · have hpk : ∀ (k : Kind) (t : List (Part R)),
                (∃ ks, kinds t = kinds (pre ++ [(⟨X, Y, A, kind⟩ : Part R)]) ++ k :: ks) →
                ∃ ks, kinds t = (kinds pre ++ [kind]) ++ k :: ks := by
              intro k t ⟨ks, h⟩
              exact ⟨ks, by rw [h]; simp [kinds]⟩
            have hL : ∀ t ∈ (seqOut
                (dfs P M tab curves curveLen fuel (pre ++ [⟨X, Y, A, kind⟩]) q.X q.Y q.Angle
                  .Left s (c - 1))
                (if c < curves then
                  dfs P M tab curves curveLen fuel (pre ++ [⟨X, Y, A, kind⟩]) q.X q.Y q.Angle
                    .Right s (c - 1)
                else ([], none))).1,
                ∃ k, Kind.Straight.toInt < k.toInt ∧
                  ∃ ks, kinds t = (kinds pre ++ [kind]) ++ k :: ks := by
              intro t ht
              rcases mem_seqOut ht with h | h
              · exact ⟨.Left, by decide, hpk _ _ (dfs_kinds_start P M tab _ _ _ _ _ _ _ _ _ _ _ h)⟩
              · split at h
                · exact ⟨.Right, by decide,
                    hpk _ _ (dfs_kinds_start P M tab _ _ _ _ _ _ _ _ _ _ _ h)⟩
                · simp at h
            refine pairwise_seqOut ?_ ?_ ?_
            · split
              · exact ih _ _ _ _ _ _ _
              · exact List.Pairwise.nil
            · split
              · refine pairwise_seqOut (ih _ _ _ _ _ _ _) ?_ ?_
                · split
                  · exact ih _ _ _ _ _ _ _
                  · exact List.Pairwise.nil
                · intro x hx y hy
                  split at hy
                  · exact lex_of_common_start .Left .Right (by decide)
                      (hpk _ _ (dfs_kinds_start P M tab _ _ _ _ _ _ _ _ _ _ _ hx))
                      (hpk _ _ (dfs_kinds_start P M tab _ _ _ _ _ _ _ _ _ _ _ hy))
                  · simp at hy
              · exact List.Pairwise.nil
            · intro x hx y hy
              split at hx
              · split at hy
                · obtain ⟨k, hk, hks⟩ := hL y hy
                  exact lex_of_common_start _ _ hk
                    (hpk _ _ (dfs_kinds_start P M tab _ _ _ _ _ _ _ _ _ _ _ hx)) hks
                · simp at hy
              · simp at hx

/-- C9: for `bridges ∈ {0, 1}`, `straights ≥ 0` and `curves ≥ 0`, the tracks sent by
`findTracks` come in strictly increasing lexicographic order of their kind sequences, for
the order `Straight < Left < Right` on kinds; hence no kind sequence is sent twice. -/
theorem findTracks_sorted (P : Params R) (M : MathFn R) (tab : List (update R))
    (bridges straights curves : Int) (hb : bridges = 0 ∨ bridges = 1) (hs : 0 ≤ straights)
    (hc : 0 ≤ curves) :
    List.Pairwise (fun t1 t2 => List.Lex Kind.lt (kinds t1) (kinds t2))
        (findTracks P M tab bridges straights curves).out ∧
      ((findTracks P M tab bridges straights curves).out.map kinds).Nodup := by
  have hsorted : List.Pairwise (fun t1 t2 => List.Lex Kind.lt (kinds t1) (kinds t2))
      (findTracks P M tab bridges straights curves).out := by
    rw [(findTracks_eq_spec P M tab bridges straights curves hb hs hc).1]
    unfold tracksSpec
    simp only
    split
    · split
      · exact List.Pairwise.nil
      · refine pairwise_seqOut (dfs_sorted P M tab _ _ _ _ _ _ _ _ _ _)
          (dfs_sorted P M tab _ _ _ _ _ _ _ _ _ _) ?_
        intro x hx y hy
        exact lex_of_common_start .Straight .Left (by decide)
          (dfs_kinds_start P M tab _ _ _ _ _ _ _ _ _ _ _ hx)
          (dfs_kinds_start P M tab _ _ _ _ _ _ _ _ _ _ _ hy)
    · refine pairwise_seqOut (dfs_sorted P M tab _ _ _ _ _ _ _ _ _ _)
        (dfs_sorted P M tab _ _ _ _ _ _ _ _ _ _) ?_
      intro x hx y hy
      exact lex_of_common_start .Straight .Left (by decide)
        (dfs_kinds_start P M tab _ _ _ _ _ _ _ _ _ _ _ hx)
        (dfs_kinds_start P M tab _ _ _ _ _ _ _ _ _ _ _ hy)
  refine ⟨hsorted, ?_⟩
  rw [List.Nodup, List.pairwise_map]
  refine hsorted.imp ?_
  intro a b hab
  refine List.Lex.to_ne (List.Lex.imp ?_ _ _ hab)
  intro k1 k2 hk h
  rw [h] at hk
  exact lt_irrefl _ hk
/-! ### The transition table and the heading (C10) -/

theorem neg_lt_tmod (x N : Int) (hN : 0 < N) : -N < x.tmod N := by
  obtain ⟨n, rfl⟩ := Int.eq_ofNat_of_zero_le (le_of_lt hN)
  cases x with
  | ofNat m =>
    have : (0 : Int) ≤ (Int.ofNat m).tmod n := Int.tmod_nonneg _ (Int.ofNat_nonneg m)
    omega
  | negSucc m =>
    have h1 : (Int.negSucc m).tmod (n : Int) = -Int.ofNat ((m + 1) % n) := rfl
    rw [h1]
    have h2 : (m + 1) % n < n := Nat.mod_lt _ (by omega)
    simp only [Int.ofNat_eq_coe]
    omega

/-- For a positive modulus `Add` never fails and returns the residue of `a + b` in
`[0, AngleN)`. -/
theorem Add_eq (N a b : Int) (hN : 0 < N) : Angle.Add N a b = .ok ((a + b) % N) := by
  unfold Angle.Add
  rw [if_neg (by omega)]
  simp only
  congr 1
  have h1 := Int.tmod_add_tdiv (a + b) N
  have h2 := Int.tmod_lt_of_pos (a + b) hN
  have h3 := neg_lt_tmod (a + b) N hN
  generalize (a + b).tmod N = r at h1 h2 h3
  generalize (a + b).tdiv N = q at h1
  rw [← h1]
  split
  · rw [show r + N * q = (r + N) + N * (q - 1) by ring, Int.add_mul_emod_self_left,
      Int.emod_eq_of_lt (by omega) (by omega)]
  · rw [Int.add_mul_emod_self_left, Int.emod_eq_of_lt (by omega) (by omega)]
/-- What the first `k` iterations of the loop of `initUpdateTab` leave in the table. -/
theorem initUpdateTab_loop (P : Params R) (M : MathFn R) (n : Nat) (hn : P.AngleN.toNat = n) :
    ∀ k, k ≤ n →
      ((List.range k).foldl (initUpdateTabStep P M) (List.replicate (5 * n) update.zero)).length
          = 5 * n ∧
        ∀ (kd : Kind) (a : Nat), a < n →
          ((List.range k).foldl (initUpdateTabStep P M)
              (List.replicate (5 * n) update.zero))[kd.toNat * n + a]?
            = some (if a < k then entry P M kd a else update.zero) := by
  intro k
  induction k with
  | zero =>
    intro _
    refine ⟨by simp, ?_⟩
    intro kd a ha
    simp only [List.range_zero, List.foldl_nil, Nat.not_lt_zero, if_false]
    rw [List.getElem?_replicate, if_pos]
    cases kd <;> simp only [Kind.toNat] <;> omega
  | succ k ih =>
    intro hk
    obtain ⟨hl, hget⟩ := ih (by omega)
    rw [List.range_succ, List.foldl_append]
    simp only [List.foldl_cons, List.foldl_nil]
    generalize (List.range k).foldl (initUpdateTabStep P M) (List.replicate (5 * n) update.zero)
      = tab at hl hget
    refine ⟨by simp [initUpdateTabStep, hl], ?_⟩
    intro kd a ha
    unfold initUpdateTabStep
    simp only [hn]
    by_cases hak : a = k
    · subst hak
      rw [if_pos (Nat.lt_succ_self a)]
      cases kd
      · simp only [Kind.toNat]
        rw [List.getElem?_set_ne (by omega), List.getElem?_set_ne (by omega),
          List.getElem?_set_ne (by omega), List.getElem?_set_ne (by omega)]
        have := hget .End a ha
        simp only [Kind.toNat, lt_irrefl, if_false] at this
        rw [this]; rfl
      · simp only [Kind.toNat]
        rw [List.getElem?_set_ne (by omega), List.getElem?_set_ne (by omega),
          List.getElem?_set_ne (by omega), List.getElem?_set_self (by omega)]
        rfl
      · simp only [Kind.toNat]
        rw [List.getElem?_set_ne (by omega), List.getElem?_set_ne (by omega),
          List.getElem?_set_self (by simp; omega)]
        rfl
      · simp only [Kind.toNat]
        rw [List.getElem?_set_ne (by omega), List.getElem?_set_self (by simp; omega)]
        rfl
      · simp only [Kind.toNat]
        rw [List.getElem?_set_self (by simp; omega)]
        rfl
    · have hne : ∀ j : Nat, j ≤ 4 → j * n + k ≠ kd.toNat * n + a := by
        intro j hj e
        have h4 : kd.toNat ≤ 4 := by cases kd <;> simp [Kind.toNat]
        have : j = kd.toNat := by
          by_contra hne
          rcases Nat.lt_or_gt_of_ne hne with h | h
          · have : (j + 1) * n ≤ kd.toNat * n := Nat.mul_le_mul_right n h
            have e2 : (j + 1) * n = j * n + n := by ring
            omega
          · have : (kd.toNat + 1) * n ≤ j * n := Nat.mul_le_mul_right n h
            have e2 : (kd.toNat + 1) * n = kd.toNat * n + n := by ring
            omega
        subst this
        omega
      rw [List.getElem?_set_ne (hne 4 (by omega)), List.getElem?_set_ne (hne 3 (by omega)),
        List.getElem?_set_ne (hne 2 (by omega)), List.getElem?_set_ne (hne 1 (by omega)),
        hget kd a ha]
      by_cases h1 : a < k
      · rw [if_pos h1, if_pos (by omega)]
      · rw [if_neg h1, if_neg (by omega)]
theorem Kind.toInt_eq_toNat (k : Kind) : k.toInt = (k.toNat : Int) := by
  cases k <;> rfl

/-- The table built by `initUpdateTab` has `kindCnt * AngleN` entries, and the flattened
index `kind * AngleN + a` addresses the entry for `(kind, a)`. -/
theorem initUpdateTab_get (P : Params R) (M : MathFn R) (tab : List (update R))
    (hN : 0 ≤ P.AngleN) (h : initUpdateTab P M = .ok tab) :
    (tab.length : Int) = kindCnt * P.AngleN ∧
      ∀ (kd : Kind) (a : Int), 0 ≤ a → a < P.AngleN →
        tab[(kd.toInt * P.AngleN + a).toNat]? = some (entry P M kd a.toNat) := by
  unfold initUpdateTab at h
  have h5 : ¬ kindCnt * P.AngleN < 0 := by simp only [kindCnt]; omega
  rw [if_neg h5] at h
  simp only [Except.ok.injEq] at h
  obtain ⟨n, hn⟩ : ∃ n : Nat, P.AngleN.toNat = n := ⟨_, rfl⟩
  have h5n : (kindCnt * P.AngleN).toNat = 5 * n := by simp only [kindCnt]; omega
  rw [hn, h5n] at h
  obtain ⟨hl, hget⟩ := initUpdateTab_loop P M n hn n (le_refl n)
  rw [h] at hl hget
  refine ⟨by rw [hl]; simp only [kindCnt]; push_cast; omega, ?_⟩
  intro kd a ha0 ha1
  have hidx : (kd.toInt * P.AngleN + a).toNat = kd.toNat * n + a.toNat := by
    have e1 : P.AngleN = (n : Int) := by omega
    have e2 : a = (a.toNat : Int) := by omega
    rw [Kind.toInt_eq_toNat, e1]
    conv_lhs => rw [e2]
    have : ((kd.toNat : Int) * (n : Int) + (a.toNat : Int)) = ((kd.toNat * n + a.toNat : Nat) : Int) := by
      push_cast; ring
    rw [this, Int.toNat_ofNat]
  rw [hidx, hget kd a.toNat (by omega), if_pos (by omega)]

/-- With the table of `initUpdateTab` and a heading in `[0, AngleN)`, `Update` does not fail:
it adds the table entry of the part's kind and heading to the position, and adds the entry's
heading step modulo `AngleN`. -/
theorem Update_eq (P : Params R) (M : MathFn R) (tab : List (update R))
    (hN : 0 < P.AngleN) (h : initUpdateTab P M = .ok tab) (p t : Part R)
    (h0 : (0 : Int) ≤ p.Angle) (h1 : p.Angle < P.AngleN) :
    p.Update P tab t = .ok ⟨p.X + (entry P M p.Kind p.Angle.toNat).x,
      p.Y + (entry P M p.Kind p.Angle.toNat).y,
      (p.Angle + (entry P M p.Kind p.Angle.toNat).a) % P.AngleN, t.Kind⟩ := by
  obtain ⟨-, hget⟩ := initUpdateTab_get P M tab (le_of_lt hN) h
  unfold Part.Update
  simp only
  have hi : ¬ p.Kind.toInt * P.AngleN + p.Angle < 0 := by
    have : 0 ≤ p.Kind.toInt * P.AngleN :=
      Int.mul_nonneg (by cases p.Kind <;> decide) (le_of_lt hN)
    omega
  rw [if_neg hi, hget p.Kind p.Angle h0 h1]
  simp only [Add_eq P.AngleN _ _ hN]
theorem totalAngle_eq_sum (t : List (Part R)) :
    totalAngle t = t.foldl (fun angle p => angle + p.Kind.turn) 0 := by
  unfold totalAngle
  congr 1
  funext angle p
  cases p.Kind <;> simp [Kind.turn, Int.sub_eq_add_neg]

theorem foldl_turn (t : List (Part R)) (z : Int) :
    t.foldl (fun angle p => angle + p.Kind.turn) z
      = z + t.foldl (fun angle p => angle + p.Kind.turn) 0 := by
  induction t generalizing z with
  | nil => simp
  | cons p t ih =>
    simp only [List.foldl_cons]
    rw [ih, ih (0 + p.Kind.turn)]
    omega

theorem totalAngle_cons (p : Part R) (t : List (Part R)) :
    totalAngle (p :: t) = p.Kind.turn + totalAngle t := by
  rw [totalAngle_eq_sum, totalAngle_eq_sum, List.foldl_cons, foldl_turn]
  omega

theorem totalAngle_nil : totalAngle ([] : List (Part R)) = 0 := rfl

theorem entry_a (P : Params R) (M : MathFn R) (k : Kind) (a : Nat) :
    (entry P M k a).a = k.turn := by
  cases k <;> rfl

theorem AtSamePlaceAs_angle {p q : Part R} (h : p.AtSamePlaceAs q = true) :
    p.Angle = q.Angle := by
  unfold Part.AtSamePlaceAs at h
  simp only [Bool.and_eq_true, decide_eq_true_eq] at h
  exact h.2

/-- Along a chain for `Update` that starts with a heading in `[0, AngleN)`, the heading of the
slot after the last part is the start heading plus `totalAngle`, modulo `AngleN`. -/
theorem chain_heading (P : Params R) (M : MathFn R) (tab : List (update R))
    (hN : 1 ≤ P.AngleN) (htab : initUpdateTab P M = .ok tab) :
    ∀ (t : List (Part R)) (first last v : Part R),
      List.Chain' (fun p q => p.Update P tab q = .ok q) t → t.head? = some first →
      (0 : Int) ≤ first.Angle → first.Angle < P.AngleN → t.getLast? = some last →
      last.Update P tab Part.zero = .ok v →
      v.Angle = (first.Angle + totalAngle t) % P.AngleN := by
  intro t
  induction t with
  | nil => intro first last v _ hh; simp at hh
  | cons p t ih =>
    intro first last v hch hh h0 h1 hl hu
    simp only [List.head?_cons, Option.some.injEq] at hh
    subst hh
    cases t with
    | nil =>
      simp only [List.getLast?_singleton, Option.some.injEq] at hl
      subst hl
      rw [Update_eq P M tab (by omega) htab p _ h0 h1] at hu
      simp only [Except.ok.injEq] at hu
      rw [← hu, totalAngle_cons, totalAngle_nil, entry_a]
      simp
    | cons q t =>
      rw [List.getLast?_cons_cons] at hl
      rw [List.chain'_cons] at hch
      obtain ⟨hpq, hch⟩ := hch
      rw [Update_eq P M tab (by omega) htab p _ h0 h1] at hpq
      simp only [Except.ok.injEq] at hpq
      have hq : q.Angle = (p.Angle + p.Kind.turn) % P.AngleN := by
        rw [← hpq, entry_a]
      have hq0 : (0 : Int) ≤ q.Angle := by
        rw [hq]; exact Int.emod_nonneg _ (by omega)
      have hq1 : q.Angle < P.AngleN := by
        rw [hq]; exact Int.emod_lt_of_pos _ (by omega)
      rw [ih q last v hch rfl hq0 hq1 hl hu, hq, Int.emod_add_emod, totalAngle_cons p,
        Int.add_assoc]

/-- C10: with the table of `initUpdateTab` for `AngleN ≥ 1`: along every chain of parts by
`Update` that starts with a heading in `[0, AngleN)` the heading after the last part is
`(start heading + totalAngle) mod AngleN`; hence `totalAngle` of every closed chain, and in
particular of every track sent by `findTracks`, is a multiple of `AngleN`. -/
theorem totalAngle_multiple_of_AngleN (P : Params R) (M : MathFn R) (tab : List (update R))
    (hN : 1 ≤ P.AngleN) (htab : initUpdateTab P M = .ok tab) :
    (∀ (t : List (Part R)) (first last v : Part R),
      List.Chain' (fun p q => p.Update P tab q = .ok q) t → t.head? = some first →
      (0 : Int) ≤ first.Angle → first.Angle < P.AngleN → t.getLast? = some last →
      last.Update P tab Part.zero = .ok v →
      v.Angle = (first.Angle + totalAngle t) % P.AngleN) ∧
    (∀ (t : List (Part R)) (first last v : Part R),
      List.Chain' (fun p q => p.Update P tab q = .ok q) t → t.head? = some first →
      (0 : Int) ≤ first.Angle → first.Angle < P.AngleN → t.getLast? = some last →
      last.Update P tab Part.zero = .ok v → first.AtSamePlaceAs v = true →
      P.AngleN ∣ totalAngle t) ∧
    (∀ bridges straights curves : Int, (bridges = 0 ∨ bridges = 1) → 0 ≤ straights →
      0 ≤ curves → ∀ t ∈ (findTracks P M tab bridges straights curves).out,
        P.AngleN ∣ totalAngle t) := by
  have closed : ∀ (t : List (Part R)) (first last v : Part R),
      List.Chain' (fun p q => p.Update P tab q = .ok q) t → t.head? = some first →
      (0 : Int) ≤ first.Angle → first.Angle < P.AngleN → t.getLast? = some last →
      last.Update P tab Part.zero = .ok v → first.AtSamePlaceAs v = true →
      P.AngleN ∣ totalAngle t := by
    intro t first last v hch hh h0 h1 hl hu hc
    have h := chain_heading P M tab hN htab t first last v hch hh h0 h1 hl hu
    rw [← AtSamePlaceAs_angle hc] at h
    have h2 : (first.Angle + totalAngle t) % P.AngleN = first.Angle % P.AngleN := by
      rw [← h, Int.emod_eq_of_lt h0 h1]
    have h3 := Int.emod_emod_of_dvd
    have h4 : (first.Angle + totalAngle t - first.Angle) % P.AngleN = 0 :=
      Int.emod_eq_emod_iff_emod_sub_eq_zero.1 h2
    rw [add_sub_cancel_left] at h4
    exact Int.dvd_of_emod_eq_zero h4
  refine ⟨chain_heading P M tab hN htab, closed, ?_⟩
  intro bridges straights curves hb hs hc t ht
  obtain ⟨v, first, hk, hp, hh, hcl⟩ :=
    findTracks_sound P M tab bridges straights curves hb hs hc t ht
  obtain ⟨hch, first2, last, v2, e1, -, -, e4, e5, e6, e7⟩ :=
    closedLoop_of_place P tab t v first hk.ne_nil hp hh hcl
  exact closed t first2 last v2 hch e1 (by rw [e4]) (by rw [e4]; exact lt_of_lt_of_le Int.one_pos hN) e5 e6 e7
/-! ### Panics (C4, C5) and completion -/

/-- More than one bridge: `findTracks` panics with its own message before it allocates the
slice, places a part or sends a track. -/
theorem findTracks_many_bridges (P : Params R) (M : MathFn R) (tab : List (update R))
    (bridges straights curves : Int) (h : 1 < bridges) :
    findTracks P M tab bridges straights curves = ⟨[], [], some .invalidInput⟩ := by
  unfold findTracks
  rw [if_pos h]

/-- C4 (fails on the code): with `-1` bridges and one straight `findTracks` does not stop
with the invalid-input panic: it allocates the slice, places the straight at index `0` and
then stops with an index out of range. -/
theorem findTracks_negative_bridges (P : Params R) (M : MathFn R) (tab : List (update R)) :
    (findTracks P M tab (-1) 1 0).err = some .indexOutOfRange ∧
      (findTracks P M tab (-1) 1 0).track = [⟨0, 0, 0, .Straight⟩] ∧
      (findTracks P M tab (-1) 1 0).out = [] := by
  refine ⟨rfl, rfl, rfl⟩

theorem Update_err (P : Params R) (tab : List (update R)) (p t : Part R) (e : Err)
    (h : p.Update P tab t = .error e) :
    e = .indexOutOfRange ∨ (P.AngleN = 0 ∧ e = .divideByZero) := by
  unfold Part.Update at h
  simp only at h
  split at h
  · cases h; exact Or.inl rfl
  · split at h
    · cases h; exact Or.inl rfl
    · split at h
      · rename_i e2 ha
        cases h
        unfold Angle.Add at ha
        split at ha
        · rename_i h0
          cases ha
          exact Or.inr ⟨h0, rfl⟩
        · cases ha
      · cases h

/-- C5 (fails on the code): with one bridge and no other piece `findTracks` does not run
to completion. The start call `r(startAt, Straight, straights-1, curves)` is made although
no straight remains, and its `track[pos+1]` is `track[2]` in a slice of length `2`. -/
theorem findTracks_bridge_only_panics (P : Params R) (M : MathFn R) (tab : List (update R)) :
    (findTracks P M tab 1 0 0).out = [] ∧
      ((findTracks P M tab 1 0 0).err = some .indexOutOfRange ∨
        (P.AngleN = 0 ∧ (findTracks P M tab 1 0 0).err = some .divideByZero)) := by
  have h : findTracks P M tab 1 0 0 =
      match (⟨0, 0, 0, .Bridge⟩ : Part R).Update P tab Part.zero with
      | .error e => (⟨([⟨0, 0, 0, .Bridge⟩, Part.zero] : List (Part R)), [], some e⟩ : Search R)
      | .ok q => (⟨[⟨0, 0, 0, .Bridge⟩, ⟨q.X, q.Y, q.Angle, .Straight⟩], [],
          some .indexOutOfRange⟩ : Search R) := by
    unfold findTracks
    simp only [gt_iff_lt, lt_irrefl, if_false, if_true]
    have hl : (1 + 0 + 0 + 1 : Int).toNat = 2 := rfl
    have hn : ¬ ((1 : Int) + 0 + 0 + 1 < 0) := by decide
    rw [if_neg hn, hl]
    simp only [List.replicate, placeBridge, List.getElem?_cons_zero, List.set_cons_zero,
      List.getElem?_cons_succ, List.set_cons_succ]
    simp only [Part.zero]
    cases (⟨0, 0, 0, .Bridge⟩ : Part R).Update P tab ⟨0, 0, 0, .End⟩ <;> rfl
  rw [h]
  cases hu : (⟨0, 0, 0, .Bridge⟩ : Part R).Update P tab Part.zero with
  | error e =>
    refine ⟨rfl, ?_⟩
    rcases Update_err P tab _ _ _ hu with rfl | ⟨h0, rfl⟩
    · exact Or.inl rfl
    · exact Or.inr ⟨h0, rfl⟩
  | ok q => exact ⟨rfl, Or.inl rfl⟩
theorem andThen_not_invalid {x : Search R} {f : List (Part R) → List (List (Part R)) → Search R}
    (hx : x.err ≠ some .invalidInput) (hf : ∀ t o, (f t o).err ≠ some .invalidInput) :
    (x.andThen f).err ≠ some .invalidInput := by
  unfold Search.andThen
  split
  · exact hx
  · exact hf _ _

theorem Update_not_invalid (P : Params R) (tab : List (update R)) (p t : Part R) :
    p.Update P tab t ≠ .error .invalidInput := by
  intro h
  rcases Update_err P tab p t _ h with h | ⟨-, h⟩ <;> cases h

theorem r_not_invalid (P : Params R) (M : MathFn R) (tab : List (update R)) (curves n1 : Int)
    (curveLen : R) :
    ∀ (fuel pos : Nat) (kind : Kind) (s c : Int) (track : List (Part R))
      (out : List (List (Part R))),
      (r P M tab curves n1 curveLen fuel pos kind s c track out).err ≠ some .invalidInput := by
  intro fuel
  induction fuel with
  | zero => intro pos kind s c track out; simp [r]
  | succ fuel ih =>
    intro pos kind s c track out
    unfold r
    split
    · simp
    · simp only
      split
      · simp
      · split
        · rename_i e he
          intro h
          simp only [Option.some.injEq] at h
          rw [h] at he
          exact Update_not_invalid P tab _ _ he
        · split
          · split
            · simp
            · split
              · split <;> simp
              · simp
          · split
            · simp
            · refine andThen_not_invalid ?_ ?_
              · split
                · exact ih _ _ _ _ _ _
                · simp
              · intro t o
                split
                · refine andThen_not_invalid (ih _ _ _ _ _ _) ?_
                  intro t2 o2
                  split
                  · exact ih _ _ _ _ _ _
                  · simp
                · simp

/-- The invalid-input panic is raised exactly for more than one bridge; a negative number of
bridges is not rejected. -/
theorem findTracks_invalidInput_iff (P : Params R) (M : MathFn R) (tab : List (update R))
    (bridges straights curves : Int) :
    (findTracks P M tab bridges straights curves).err = some .invalidInput ↔ 1 < bridges := by
  constructor
  · intro h
    by_contra hb
    revert h
    unfold findTracks
    rw [if_neg hb]
    split
    · simp
    · simp only
      refine andThen_not_invalid ?_ ?_
      · split
        · unfold placeBridge
          split
          · simp
          · simp only
            split
            · simp
            · split
              · rename_i e he
                intro h
                simp only [Option.some.injEq] at h
                rw [h] at he
                exact Update_not_invalid P tab _ _ he
              · simp
        · simp
      · intro t o
        refine andThen_not_invalid (r_not_invalid P M tab _ _ _ _ _ _ _ _ _ _) ?_
        intro t2 o2
        exact r_not_invalid P M tab _ _ _ _ _ _ _ _ _ _
  · intro h
    unfold findTracks
    rw [if_pos h]
theorem seqOut_none {a b : List (List (Part R)) × Option Err} (h : (seqOut a b).2 = none) :
    a.2 = none ∧ b.2 = none ∧ (seqOut a b).1 = a.1 ++ b.1 := by
  cases ha : a.2 with
  | some e =>
    have e1 : seqOut a b = a := by unfold seqOut; rw [ha]
    rw [e1, ha] at h
    cases h
  | none =>
    have e1 : seqOut a b = (a.1 ++ b.1, b.2) := by unfold seqOut; rw [ha]
    rw [e1] at h ⊢
    exact ⟨rfl, h, rfl⟩

theorem seqOut_err_none {a b : List (List (Part R)) × Option Err} (ha : a.2 = none)
    (hb : b.2 = none) : (seqOut a b).2 = none := by
  unfold seqOut
  rw [ha]
  exact hb

/-- With at least one straight and one curve to place in every call, a table from
`initUpdateTab` and a heading in range, the search runs to completion: no index is out of
range and the recursion budget suffices. -/
theorem dfs_no_err (P : Params R) (M : MathFn R) (tab : List (update R)) (curves : Int)
    (curveLen : R) (hN : 1 ≤ P.AngleN) (htab : initUpdateTab P M = .ok tab) :
    ∀ (fuel : Nat) (pre : List (Part R)) (X Y : R) (A : Angle) (kind : Kind) (s c : Int),
      0 ≤ s → 0 ≤ c → s.toNat + c.toNat < fuel → (0 : Int) ≤ A → A < P.AngleN →
      (dfs P M tab curves curveLen fuel pre X Y A kind s c).2 = none := by
  intro fuel
  induction fuel with
  | zero => intro pre X Y A kind s c _ _ hf; omega
  | succ fuel ih =>
    intro pre X Y A kind s c hs hc hf h0 h1
    unfold dfs
    rw [if_neg (by omega)]
    simp only
    rw [Update_eq P M tab (by omega) htab ⟨X, Y, A, kind⟩ _ h0 h1]
    simp only
    have hq0 : (0 : Int) ≤ (A + (entry P M kind A.toNat).a) % P.AngleN :=
      Int.emod_nonneg _ (by omega)
    have hq1 : (A + (entry P M kind A.toNat).a) % P.AngleN < P.AngleN :=
      Int.emod_lt_of_pos _ (by omega)
    split
    · split <;> rfl
    · split
      · rfl
      · refine seqOut_err_none ?_ ?_
        · split
          · exact ih _ _ _ _ _ _ _ (by omega) hc (by omega) hq0 hq1
          · rfl
        · split
          · refine seqOut_err_none ?_ ?_
            · exact ih _ _ _ _ _ _ _ hs (by omega) (by omega) hq0 hq1
            · split
              · exact ih _ _ _ _ _ _ _ hs (by omega) (by omega) hq0 hq1
              · rfl
          · rfl

/-- With at least one straight and one curve (and zero or one bridge), a table from
`initUpdateTab` and `AngleN ≥ 1`, `findTracks` runs to completion. -/
theorem findTracks_completes (P : Params R) (M : MathFn R) (tab : List (update R))
    (hN : 1 ≤ P.AngleN) (htab : initUpdateTab P M = .ok tab)
    (bridges straights curves : Int) (hb : bridges = 0 ∨ bridges = 1) (hs : 1 ≤ straights)
    (hc : 1 ≤ curves) : (findTracks P M tab bridges straights curves).err = none := by
  rw [(findTracks_eq_spec P M tab bridges straights curves hb (by omega) (by omega)).2]
  unfold tracksSpec
  simp only
  split
  · rw [Update_eq P M tab (by omega) htab ⟨0, 0, 0, .Bridge⟩ _ (le_refl _)
      (lt_of_lt_of_le Int.one_pos hN)]
    simp only
    have hq0 : (0 : Int) ≤ (0 + (entry P M .Bridge (0 : Int).toNat).a) % P.AngleN :=
      Int.emod_nonneg _ (by omega)
    have hq1 : (0 + (entry P M .Bridge (0 : Int).toNat).a) % P.AngleN < P.AngleN :=
      Int.emod_lt_of_pos _ (by omega)
    exact seqOut_err_none
      (dfs_no_err P M tab _ _ hN htab _ _ _ _ _ _ _ _ (by omega) (by omega) (by omega) hq0 hq1)
      (dfs_no_err P M tab _ _ hN htab _ _ _ _ _ _ _ _ (by omega) (by omega) (by omega) hq0 hq1)
  · exact seqOut_err_none
      (dfs_no_err P M tab _ _ hN htab _ _ _ _ _ _ _ _ (by omega) (by omega) (by omega)
        (le_refl _) (lt_of_lt_of_le Int.one_pos hN))
      (dfs_no_err P M tab _ _ hN htab _ _ _ _ _ _ _ _ (by omega) (by omega) (by omega)
        (le_refl _) (lt_of_lt_of_le Int.one_pos hN))
/-! ### Exhaustiveness over exact reals (C3) -/

theorem hyp_add_le (a b c d : ℝ) :
    Real.sqrt ((a + c) * (a + c) + (b + d) * (b + d))
      ≤ Real.sqrt (a * a + b * b) + Real.sqrt (c * c + d * d) := by
  have h := Complex.abs.add_le ⟨a, b⟩ ⟨c, d⟩
  simpa [Complex.abs_apply, Complex.normSq_apply] using h

theorem entry_norm (P : Params ℝ) (M : MathFn ℝ) (hM : M.Exact) (k : Kind) (a : Nat) :
    (entry P M k a).x * (entry P M k a).x + (entry P M k a).y * (entry P M k a).y
      = stepLen P M k * stepLen P M k := by
  obtain ⟨-, hsin, hcos, -⟩ := hM
  cases k <;> simp only [entry, stepLen, update.zero, hsin, hcos]
  · ring
  · have := Real.cos_sq_add_sin_sq (Angle.Rad P M a)
    nlinarith [this]
  · have := Real.cos_sq_add_sin_sq (Angle.Rad P M a)
    nlinarith [this]
  · have := Real.cos_sq_add_sin_sq (Angle.Rad P M a + M.Pi / (P.AngleN : ℝ))
    linear_combination (P.Radius * 2 * Real.sin (M.Pi / (P.AngleN : ℝ))) ^ 2 * this
  · have := Real.cos_sq_add_sin_sq (Angle.Rad P M a - M.Pi / (P.AngleN : ℝ))
    linear_combination (P.Radius * 2 * Real.sin (M.Pi / (P.AngleN : ℝ))) ^ 2 * this

theorem curveLen_nonneg (P : Params ℝ) (M : MathFn ℝ) (hM : M.Exact) (hN : 1 ≤ P.AngleN)
    (hR : 0 ≤ P.Radius) : 0 ≤ P.Radius * 2 * M.Sin (M.Pi / (P.AngleN : ℝ)) := by
  obtain ⟨hpi, hsin, -, -⟩ := hM
  rw [hpi, hsin]
  have hN' : (1 : ℝ) ≤ (P.AngleN : ℝ) := by exact_mod_cast hN
  have h1 : 0 ≤ Real.pi / (P.AngleN : ℝ) := div_nonneg Real.pi_pos.le (by linarith)
  have h2 : Real.pi / (P.AngleN : ℝ) ≤ Real.pi := div_le_self Real.pi_pos.le hN'
  have := Real.sin_nonneg_of_nonneg_of_le_pi h1 h2
  positivity
/-- The remaining pieces cannot carry the track further than the sum of their lengths: the
slot after placing `ks` from `(X, Y)` is within `#Straight * StraightLen + #curves * curveLen`
of `(X, Y)`. -/
theorem place_reach (P : Params ℝ) (M : MathFn ℝ) (tab : List (update ℝ)) (hM : M.Exact)
    (hN : 1 ≤ P.AngleN) (hR : 0 ≤ P.Radius) (hS : 0 ≤ P.StraightLen)
    (htab : initUpdateTab P M = .ok tab) :
    ∀ (ks : List Kind) (X Y : ℝ) (A : Angle) (ps : List (Part ℝ)) (v : Part ℝ),
      (0 : Int) ≤ A → A < P.AngleN →
      (∀ k ∈ ks, k = Kind.Straight ∨ k = Kind.Left ∨ k = Kind.Right) →
      place P tab X Y A ks = .ok (ps, v) →
      Real.sqrt ((v.X - X) * (v.X - X) + (v.Y - Y) * (v.Y - Y))
        ≤ (ks.count .Straight : ℝ) * P.StraightLen
          + ((ks.count .Left : ℝ) + (ks.count .Right : ℝ))
            * (P.Radius * 2 * M.Sin (M.Pi / (P.AngleN : ℝ))) := by
  have hCL := curveLen_nonneg P M hM hN hR
  intro ks
  induction ks with
  | nil =>
    intro X Y A ps v _ _ _ h
    simp only [place, Except.ok.injEq, Prod.mk.injEq] at h
    rw [← h.2]
    simp
  | cons k ks ih =>
    intro X Y A ps v h0 h1 hk h
    rw [place, Update_eq P M tab (by omega) htab ⟨X, Y, A, k⟩ _ h0 h1] at h
    simp only at h
    split at h
    · cases h
    · rename_i ps2 v2 hp
      simp only [Except.ok.injEq, Prod.mk.injEq] at h
      rw [← h.2]
      have hq0 : (0 : Int) ≤ (A + (entry P M k A.toNat).a) % P.AngleN :=
        Int.emod_nonneg _ (by omega)
      have hq1 : (A + (entry P M k A.toNat).a) % P.AngleN < P.AngleN :=
        Int.emod_lt_of_pos _ (by omega)
      have hi := ih _ _ _ _ _ hq0 hq1 (fun k hk2 => hk k (List.mem_cons_of_mem _ hk2)) hp
      have htri := hyp_add_le (v2.X - (X + (entry P M k A.toNat).x))
        (v2.Y - (Y + (entry P M k A.toNat).y)) (entry P M k A.toNat).x (entry P M k A.toNat).y
      have e1 : v2.X - (X + (entry P M k A.toNat).x) + (entry P M k A.toNat).x = v2.X - X := by
        ring
      have e2 : v2.Y - (Y + (entry P M k A.toNat).y) + (entry P M k A.toNat).y = v2.Y - Y := by
        ring
      rw [e1, e2, entry_norm P M hM] at htri
      have hlen : 0 ≤ stepLen P M k := by
        rcases hk k (List.mem_cons_self _ _) with rfl | rfl | rfl
        · exact hS
        · exact hCL
        · exact hCL
      rw [Real.sqrt_mul_self hlen] at htri
      refine le_trans htri ?_
      rcases hk k (List.mem_cons_self _ _) with rfl | rfl | rfl
      · simp only [List.count_cons_self, List.count_cons_of_ne (show Kind.Left ≠ Kind.Straight by decide),
          List.count_cons_of_ne (show Kind.Right ≠ Kind.Straight by decide), stepLen]
        push_cast
        linarith
      · simp only [List.count_cons_self, List.count_cons_of_ne (show Kind.Straight ≠ Kind.Left by decide),
          List.count_cons_of_ne (show Kind.Right ≠ Kind.Left by decide), stepLen]
        push_cast
        linarith
      · simp only [List.count_cons_self, List.count_cons_of_ne (show Kind.Straight ≠ Kind.Right by decide),
          List.count_cons_of_ne (show Kind.Left ≠ Kind.Right by decide), stepLen]
        push_cast
        linarith

/-- A slot at the same place as a part at the origin is less than `1` away from the
origin. -/
theorem near_origin (f v : Part ℝ) (hx : f.X = 0) (hy : f.Y = 0)
    (h : f.AtSamePlaceAs v = true) : Real.sqrt (v.X * v.X + v.Y * v.Y) < 1 := by
  unfold Part.AtSamePlaceAs at h
  simp only [Bool.and_eq_true, decide_eq_true_eq, hx, hy, zero_sub, abs_neg] at h
  obtain ⟨⟨h1, h2⟩, -⟩ := h
  rw [abs_lt] at h1 h2
  rw [Real.sqrt_lt' one_pos]
  nlinarith [h1.1, h1.2, h2.1, h2.2]

/-- Soundness of the distance cut: a slot from which the remaining pieces lead back to the
origin is not cut. -/
theorem not_pruned (P : Params ℝ) (M : MathFn ℝ) (tab : List (update ℝ)) (hM : M.Exact)
    (hN : 1 ≤ P.AngleN) (hR : 0 ≤ P.Radius) (hS : 0 ≤ P.StraightLen)
    (htab : initUpdateTab P M = .ok tab) (ks : List Kind) (X Y : ℝ) (A : Angle)
    (ps : List (Part ℝ)) (v f : Part ℝ) (curves s c : Int) (h0 : (0 : Int) ≤ A)
    (h1 : A < P.AngleN) (hk : KindsOK curves s c ks) (hp : place P tab X Y A ks = .ok (ps, v)) (hx : f.X = 0)
    (hy : f.Y = 0) (hcl : f.AtSamePlaceAs v = true) :
    ¬ M.Sqrt (X * X + Y * Y)
        > (s : ℝ) * P.StraightLen + (c : ℝ) * (P.Radius * 2 * M.Sin (M.Pi / (P.AngleN : ℝ))) + 1 := by
  obtain ⟨k1, k2, k3, -⟩ := hk
  have hreach := place_reach P M tab hM hN hR hS htab ks X Y A ps v h0 h1 k3 hp
  have hnear := near_origin f v hx hy hcl
  have htri := hyp_add_le v.X v.Y (X - v.X) (Y - v.Y)
  have e1 : v.X + (X - v.X) = X := by ring
  have e2 : v.Y + (Y - v.Y) = Y := by ring
  have e3 : (X - v.X) * (X - v.X) + (Y - v.Y) * (Y - v.Y)
      = (v.X - X) * (v.X - X) + (v.Y - Y) * (v.Y - Y) := by ring
  rw [e1, e2, e3] at htri
  have c1 : ((ks.count .Straight : Int) : ℝ) = (s : ℝ) := by rw [k1]
  have c2 : (((ks.count .Left : Int) + (ks.count .Right : Int) : Int) : ℝ) = (c : ℝ) := by rw [k2]
  push_cast at c1 c2
  rw [c1, c2] at hreach
  rw [hM.2.2.2]
  linarith
theorem KindsOK.inv_nil {curves s c : Int} (h : KindsOK curves s c []) : s = 0 ∧ c = 0 := by
  obtain ⟨h1, h2, -, -⟩ := h
  simp only [List.count_nil, Nat.cast_zero, add_zero] at h1 h2
  exact ⟨h1.symm, h2.symm⟩

theorem KindsOK.inv_straight {curves s c : Int} {ks : List Kind}
    (h : KindsOK curves s c (.Straight :: ks)) : 0 < s ∧ KindsOK curves (s - 1) c ks := by
  obtain ⟨h1, h2, h3, h4⟩ := h
  rw [List.count_cons_self] at h1
  rw [List.count_cons_of_ne (by decide), List.count_cons_of_ne (by decide)] at h2
  push_cast at h1
  refine ⟨by omega, by omega, h2, fun k hk => h3 k (List.mem_cons_of_mem _ hk), ?_⟩
  intro hc k hk
  apply h4 hc k
  rw [List.find?_cons_of_neg _ (by decide)]
  exact hk

theorem KindsOK.inv_left {curves s c : Int} {ks : List Kind} (hle : c ≤ curves)
    (h : KindsOK curves s c (.Left :: ks)) : 0 < c ∧ KindsOK curves s (c - 1) ks := by
  obtain ⟨h1, h2, h3, -⟩ := h
  rw [List.count_cons_of_ne (by decide)] at h1
  rw [List.count_cons_self, List.count_cons_of_ne (by decide)] at h2
  push_cast at h2
  refine ⟨by omega, h1, by omega, fun k hk => h3 k (List.mem_cons_of_mem _ hk), ?_⟩
  intro hc
  omega

theorem KindsOK.inv_right {curves s c : Int} {ks : List Kind} (hle : c ≤ curves)
    (h : KindsOK curves s c (.Right :: ks)) :
    0 < c ∧ c < curves ∧ KindsOK curves s (c - 1) ks := by
  obtain ⟨h1, h2, h3, h4⟩ := h
  rw [List.count_cons_of_ne (by decide)] at h1
  rw [List.count_cons_self, List.count_cons_of_ne (by decide)] at h2
  push_cast at h2
  have hlt : c < curves := by
    by_contra hge
    have := h4 (by omega) .Right (by rw [List.find?_cons_of_pos _ (by decide)])
    cases this
  refine ⟨by omega, hlt, h1, by omega, fun k hk => h3 k (List.mem_cons_of_mem _ hk), ?_⟩
  intro hc
  omega

theorem headD_append_singleton (l : List (Part R)) (p d1 d2 : Part R) (q : Part R) :
    ((l ++ [p]) ++ [q]).headD d1 = (l ++ [p]).headD d2 := by
  cases l <;> rfl

/-- Completeness of the search over exact reals: if the call runs to completion, it sends
every continuation of the path that uses the remaining pieces, respects the first-curve
rule and closes the loop. -/
theorem dfs_complete (P : Params ℝ) (M : MathFn ℝ) (tab : List (update ℝ)) (hM : M.Exact)
    (hN : 1 ≤ P.AngleN) (hR : 0 ≤ P.Radius) (hS : 0 ≤ P.StraightLen)
    (htab : initUpdateTab P M = .ok tab) (curves : Int) :
    ∀ (fuel : Nat) (pre : List (Part ℝ)) (X Y : ℝ) (A : Angle) (kind : Kind) (s c : Int)
      (ks : List Kind) (ps : List (Part ℝ)) (v : Part ℝ),
      (dfs P M tab curves (P.Radius * 2 * M.Sin (M.Pi / (P.AngleN : ℝ))) fuel pre X Y A kind
        s c).2 = none →
      (0 : Int) ≤ A → A < P.AngleN → c ≤ curves →
      ((pre ++ [(⟨X, Y, A, kind⟩ : Part ℝ)]).headD ⟨X, Y, A, kind⟩).X = 0 →
      ((pre ++ [(⟨X, Y, A, kind⟩ : Part ℝ)]).headD ⟨X, Y, A, kind⟩).Y = 0 →
      KindsOK curves s c ks → place P tab X Y A (kind :: ks) = .ok (ps, v) →
      ((pre ++ [(⟨X, Y, A, kind⟩ : Part ℝ)]).headD ⟨X, Y, A, kind⟩).AtSamePlaceAs v = true →
      pre ++ ps ∈ (dfs P M tab curves (P.Radius * 2 * M.Sin (M.Pi / (P.AngleN : ℝ))) fuel pre
        X Y A kind s c).1 := by
  intro fuel
  induction fuel with
  | zero =>
    intro pre X Y A kind s c ks ps v herr
    simp [dfs] at herr
  | succ fuel ih =>
    intro pre X Y A kind s c ks ps v herr h0 h1 hle hx hy hk hp hcl
    rw [place, Update_eq P M tab (by omega) htab ⟨X, Y, A, kind⟩ _ h0 h1] at hp
    simp only at hp
    unfold dfs at herr ⊢
    split at herr
    · cases herr
    · rename_i hsc
      rw [if_neg hsc]
      simp only at herr ⊢
      rw [Update_eq P M tab (by omega) htab ⟨X, Y, A, kind⟩ _ h0 h1] at herr ⊢
      simp only at herr ⊢
      have hq0 : (0 : Int) ≤ (A + (entry P M kind A.toNat).a) % P.AngleN :=
        Int.emod_nonneg _ (by omega)
      have hq1 : (A + (entry P M kind A.toNat).a) % P.AngleN < P.AngleN :=
        Int.emod_lt_of_pos _ (by omega)
      split at hp
      · cases hp
      · rename_i ps2 v2 hp2
        simp only [Except.ok.injEq, Prod.mk.injEq] at hp
        obtain ⟨hps, hv⟩ := hp
        subst hps hv
        cases ks with
        | nil =>
          obtain ⟨rfl, rfl⟩ := hk.inv_nil
          simp only [place, Except.ok.injEq, Prod.mk.injEq] at hp2
          obtain ⟨rfl, rfl⟩ := hp2
          simp only [and_self, if_true]
          split
          · simp
          · rename_i hn
            exact absurd hcl hn
        | cons k2 ks2 =>
          have hnt : ¬ (s = 0 ∧ c = 0) := by
            obtain ⟨k1, k2', k3, -⟩ := hk
            rcases k3 k2 (List.mem_cons_self _ _) with rfl | rfl | rfl
            · rw [List.count_cons_self] at k1; push_cast at k1; omega
            · rw [List.count_cons_self] at k2'; push_cast at k2'; omega
            · rw [List.count_cons_self] at k2'; push_cast at k2'; omega
          have hnp := not_pruned P M tab hM hN hR hS htab (k2 :: ks2) _ _ _ ps2 v2 _ curves s c
            hq0 hq1 hk hp2 hx hy hcl
          rw [if_neg hnt] at herr ⊢
          rw [if_neg hnp] at herr ⊢
          obtain ⟨e1, e2, e3⟩ := seqOut_none herr
          rw [e3]
          have hx2 : ∀ k : Kind, ((pre ++ [(⟨X, Y, A, kind⟩ : Part ℝ)] ++ [(⟨X + (entry P M kind A.toNat).x,
              Y + (entry P M kind A.toNat).y, (A + (entry P M kind A.toNat).a) % P.AngleN, k⟩ : Part ℝ)]).headD
              ⟨X + (entry P M kind A.toNat).x,
              Y + (entry P M kind A.toNat).y, (A + (entry P M kind A.toNat).a) % P.AngleN, k⟩)
              = (pre ++ [(⟨X, Y, A, kind⟩ : Part ℝ)]).headD ⟨X, Y, A, kind⟩ :=
            fun k => headD_append_singleton _ _ _ _ _
          have happ : pre ++ (⟨X, Y, A, kind⟩ : Part ℝ) :: ps2
              = (pre ++ [(⟨X, Y, A, kind⟩ : Part ℝ)]) ++ ps2 := by simp
          rw [happ]
          cases k2 with
          | End =>
            rcases hk.2.2.1 _ (List.mem_cons_self _ _) with h | h | h <;> cases h
          | Bridge =>
            rcases hk.2.2.1 _ (List.mem_cons_self _ _) with h | h | h <;> cases h
          | Straight =>
            obtain ⟨hs0, hk2⟩ := hk.inv_straight
            rw [if_pos hs0] at e1 ⊢
            refine List.mem_append_left _ ?_
            exact ih _ _ _ _ _ _ _ ks2 ps2 v2 e1 hq0 hq1 hle (by rw [hx2]; exact hx)
              (by rw [hx2]; exact hy) hk2 hp2 (by rw [hx2]; exact hcl)
          | Left =>
            obtain ⟨hc0, hk2⟩ := hk.inv_left hle
            rw [if_pos hc0] at e2 ⊢
            obtain ⟨f1, f2, f3⟩ := seqOut_none e2
            rw [f3]
            refine List.mem_append_right _ (List.mem_append_left _ ?_)
            exact ih _ _ _ _ _ _ _ ks2 ps2 v2 f1 hq0 hq1 (by omega) (by rw [hx2]; exact hx)
              (by rw [hx2]; exact hy) hk2 hp2 (by rw [hx2]; exact hcl)
          | Right =>
            obtain ⟨hc0, hlt, hk2⟩ := hk.inv_right hle
            rw [if_pos hc0] at e2 ⊢
            obtain ⟨f1, f2, f3⟩ := seqOut_none e2
            rw [f3]
            rw [if_pos hlt] at f2 ⊢
            refine List.mem_append_right _ (List.mem_append_right _ ?_)
            exact ih _ _ _ _ _ _ _ ks2 ps2 v2 f2 hq0 hq1 (by omega) (by rw [hx2]; exact hx)
              (by rw [hx2]; exact hy) hk2 hp2 (by rw [hx2]; exact hcl)
/-- A chain for `Update` is what `place` computes from its first part and its kinds. -/
theorem place_of_chain (P : Params R) (tab : List (update R)) :
    ∀ (t : List (Part R)) (first last v : Part R),
      List.Chain' (fun p q => p.Update P tab q = .ok q) t → t.head? = some first →
      t.getLast? = some last → last.Update P tab Part.zero = .ok v →
      place P tab first.X first.Y first.Angle (kinds t) = .ok (t, v) := by
  intro t
  induction t with
  | nil => intro first last v _ hh; simp at hh
  | cons p t ih =>
    intro first last v hch hh hl hu
    simp only [List.head?_cons, Option.some.injEq] at hh
    subst hh
    cases t with
    | nil =>
      simp only [List.getLast?_singleton, Option.some.injEq] at hl
      subst hl
      have hk := Update_kind P tab _ _ _ hu
      simp only [kinds, List.map_cons, List.map_nil, place]
      have hp : (⟨p.X, p.Y, p.Angle, p.Kind⟩ : Part R) = p := rfl
      rw [hp, hu]
      simp only
      cases v
      simp only [Part.zero] at hk
      subst hk
      rfl
    | cons q t =>
      rw [List.getLast?_cons_cons] at hl
      rw [List.chain'_cons] at hch
      obtain ⟨hpq, hch⟩ := hch
      have h1 := Update_target P tab p q Part.zero q hpq
      have h2 := ih q last v hch rfl hl hu
      have hp : (⟨p.X, p.Y, p.Angle, p.Kind⟩ : Part R) = p := rfl
      have hkk : kinds (p :: q :: t) = p.Kind :: kinds (q :: t) := rfl
      rw [hkk, place, hp, h1]
      simp only
      rw [h2]

theorem slr_of_counts (ks : List Kind) (hB : ks.count .Bridge = 0) (hE : Kind.End ∉ ks) :
    ∀ k ∈ ks, k = Kind.Straight ∨ k = Kind.Left ∨ k = Kind.Right := by
  intro k hk
  cases k with
  | End => exact absurd hk hE
  | Bridge => exact absurd hk (List.count_eq_zero.1 hB)
  | Straight => exact Or.inl rfl
  | Left => exact Or.inr (Or.inl rfl)
  | Right => exact Or.inr (Or.inr rfl)

/-- The kinds after the bridge of a sequence that meets conditions (i)-(iii) of exhaustiveness
are what one of the two start calls may place. -/
theorem start_of_counts (curves straights : Int) (k0 : Kind) (rest : List Kind)
    (hslr : ∀ k ∈ k0 :: rest, k = Kind.Straight ∨ k = Kind.Left ∨ k = Kind.Right)
    (hS : ((k0 :: rest).count .Straight : Int) = straights)
    (hC : ((k0 :: rest).count .Left : Int) + ((k0 :: rest).count .Right : Int) = curves)
    (hF : ∀ k, (k0 :: rest).find? Kind.isCurve = some k → k = .Left) :
    (k0 = .Straight ∧ KindsOK curves (straights - 1) curves rest) ∨
      (k0 = .Left ∧ KindsOK curves straights (curves - 1) rest) := by
  have hrest : ∀ k ∈ rest, k = Kind.Straight ∨ k = Kind.Left ∨ k = Kind.Right :=
    fun k hk => hslr k (List.mem_cons_of_mem _ hk)
  rcases hslr k0 (List.mem_cons_self _ _) with rfl | rfl | rfl
  · left
    rw [List.count_cons_self] at hS
    rw [List.count_cons_of_ne (by decide), List.count_cons_of_ne (by decide)] at hC
    push_cast at hS
    refine ⟨rfl, by omega, hC, hrest, ?_⟩
    intro _ k hk
    apply hF k
    rw [List.find?_cons_of_neg _ (by decide)]
    exact hk
  · right
    rw [List.count_cons_of_ne (by decide)] at hS
    rw [List.count_cons_self, List.count_cons_of_ne (by decide)] at hC
    push_cast at hC
    refine ⟨rfl, hS, by omega, hrest, ?_⟩
    intro hc
    omega
  · have := hF .Right (by rw [List.find?_cons_of_pos _ (by decide)])
    cases this
/-- Completeness of the two start calls over exact reals. -/
theorem start_complete (P : Params ℝ) (M : MathFn ℝ) (tab : List (update ℝ)) (hM : M.Exact)
    (hN : 1 ≤ P.AngleN) (hR : 0 ≤ P.Radius) (hS : 0 ≤ P.StraightLen)
    (htab : initUpdateTab P M = .ok tab) (straights curves : Int) (fuel : Nat)
    (pre : List (Part ℝ)) (X Y : ℝ) (A : Angle) (h0 : (0 : Int) ≤ A) (h1 : A < P.AngleN)
    (k0 : Kind) (rest : List Kind) (ps : List (Part ℝ)) (v : Part ℝ)
    (hstart : (k0 = .Straight ∧ KindsOK curves (straights - 1) curves rest) ∨
      (k0 = .Left ∧ KindsOK curves straights (curves - 1) rest))
    (hp : place P tab X Y A (k0 :: rest) = .ok (ps, v))
    (hx : ∀ k, ((pre ++ [(⟨X, Y, A, k⟩ : Part ℝ)]).headD ⟨X, Y, A, k⟩).X = 0)
    (hy : ∀ k, ((pre ++ [(⟨X, Y, A, k⟩ : Part ℝ)]).headD ⟨X, Y, A, k⟩).Y = 0)
    (hcl : ∀ k, ((pre ++ [(⟨X, Y, A, k⟩ : Part ℝ)]).headD ⟨X, Y, A, k⟩).AtSamePlaceAs v = true)
    (herr : (seqOut
      (dfs P M tab curves (P.Radius * 2 * M.Sin (M.Pi / (P.AngleN : ℝ))) fuel pre X Y A
        .Straight (straights - 1) curves)
      (dfs P M tab curves (P.Radius * 2 * M.Sin (M.Pi / (P.AngleN : ℝ))) fuel pre X Y A
        .Left straights (curves - 1))).2 = none) :
    pre ++ ps ∈ (seqOut
      (dfs P M tab curves (P.Radius * 2 * M.Sin (M.Pi / (P.AngleN : ℝ))) fuel pre X Y A
        .Straight (straights - 1) curves)
      (dfs P M tab curves (P.Radius * 2 * M.Sin (M.Pi / (P.AngleN : ℝ))) fuel pre X Y A
        .Left straights (curves - 1))).1 := by
  obtain ⟨e1, e2, e3⟩ := seqOut_none herr
  rw [e3]
  rcases hstart with ⟨rfl, hk⟩ | ⟨rfl, hk⟩
  · exact List.mem_append_left _
      (dfs_complete P M tab hM hN hR hS htab curves fuel pre X Y A _ _ _ rest ps v e1 h0 h1
        (le_refl _) (hx _) (hy _) hk hp (hcl _))
  · exact List.mem_append_right _
      (dfs_complete P M tab hM hN hR hS htab curves fuel pre X Y A _ _ _ rest ps v e2 h0 h1
        (by omega) (hx _) (hy _) hk hp (hcl _))

/-- C3 (exhaustiveness, over exact reals): let `AngleN ≥ 1`, the lengths be positive, the
table be the one of `initUpdateTab`, `bridges ∈ {0, 1}`, `straights ≥ 0` and `curves ≥ 0`.
If `findTracks` runs to completion, then every track that (iv) is a closed loop chained by
`Update` from `(0, 0)` with heading `0`, (i) uses exactly `bridges` `Bridge`, `straights`
`Straight` and `curves` `Left`/`Right` parts and no `End`, (ii) starts with the `Bridge` when
`bridges = 1`, and (iii) has `Left` as its first curve, is among the tracks sent. -/
theorem findTracks_exhaustive (P : Params ℝ) (M : MathFn ℝ) (tab : List (update ℝ))
    (hM : M.Exact) (hN : 1 ≤ P.AngleN) (hR : 0 < P.Radius) (hB : 0 < P.BridgeLen)
    (hS : 0 < P.StraightLen) (htab : initUpdateTab P M = .ok tab)
    (bridges straights curves : Int) (hb : bridges = 0 ∨ bridges = 1) (hs : 0 ≤ straights)
    (hc : 0 ≤ curves) (hrun : (findTracks P M tab bridges straights curves).err = none) :
    ∀ t : List (Part ℝ), ClosedLoop P tab t →
      ((kinds t).count .Bridge : Int) = bridges →
      ((kinds t).count .Straight : Int) = straights →
      ((kinds t).count .Left : Int) + ((kinds t).count .Right : Int) = curves →
      Kind.End ∉ kinds t →
      (bridges = 1 → (kinds t).head? = some .Bridge) →
      (∀ k, (kinds t).find? Kind.isCurve = some k → k = .Left) →
      t ∈ (findTracks P M tab bridges straights curves).out := by
  intro t hloop cB cS cC cE hhead hfirst
  obtain ⟨hch, first, last, v, hh, fx, fy, fa, hl, hu, hcl⟩ := hloop
  have hplace := place_of_chain P tab t first last v hch hh hl hu
  rw [fx, fy, fa] at hplace
  rw [(findTracks_eq_spec P M tab bridges straights curves hb hs hc).2] at hrun
  rw [(findTracks_eq_spec P M tab bridges straights curves hb hs hc).1]
  have hBL := hB
  unfold tracksSpec at hrun ⊢
  simp only at hrun ⊢
  obtain ⟨k0, ks, hks⟩ : ∃ k0 ks, kinds t = k0 :: ks := by
    cases t with
    | nil => simp at hh
    | cons p t => exact ⟨p.Kind, kinds t, rfl⟩
  rw [hks] at hplace cB cS cC cE hhead hfirst
  obtain ⟨ps0, hps0⟩ := place_head P tab _ _ _ _ _ _ _ hplace
  have hfirst0 : first = ⟨0, 0, 0, k0⟩ := by
    rw [hps0] at hh
    simp only [List.head?_cons, Option.some.injEq] at hh
    exact hh.symm
  rcases hb with hb | hb
  · subst hb
    rw [if_neg (by decide)] at hrun ⊢
    have hslr := slr_of_counts (k0 :: ks) (by exact_mod_cast cB) cE
    have hstart := start_of_counts curves straights k0 ks hslr cS cC hfirst
    have key := start_complete P M tab hM hN hR.le hS.le htab straights curves _ [] 0 0 0
      (le_refl _) (lt_of_lt_of_le Int.one_pos hN) k0 ks t v hstart hplace
      (fun _ => rfl) (fun _ => rfl)
      (fun k => by
        rw [hfirst0] at hcl
        exact hcl) hrun
    simpa using key
  · subst hb
    rw [if_pos rfl] at hrun ⊢
    have hk0 : k0 = .Bridge := by
      have := hhead rfl
      simp only [List.head?_cons, Option.some.injEq] at this
      exact this
    subst hk0
    rw [place] at hplace
    split at hplace
    · cases hplace
    · rename_i q hq
      simp only [hq] at hrun ⊢
      split at hplace
      · cases hplace
      · rename_i ps2 v2 hp2
        simp only [Except.ok.injEq, Prod.mk.injEq] at hplace
        obtain ⟨hps, hv⟩ := hplace
        subst hv
        rw [List.count_cons_self] at cB
        rw [List.count_cons_of_ne (by decide)] at cS
        rw [List.count_cons_of_ne (by decide), List.count_cons_of_ne (by decide)] at cC
        have cB2 : ks.count .Bridge = 0 := by
          push_cast at cB
          omega
        have hslr := slr_of_counts ks cB2 (fun h => cE (List.mem_cons_of_mem _ h))
        have hq2 := Update_eq P M tab (by omega) htab ⟨0, 0, 0, .Bridge⟩ Part.zero (le_refl _)
          (lt_of_lt_of_le Int.one_pos hN)
        rw [hq] at hq2
        simp only [Except.ok.injEq] at hq2
        have hq0 : (0 : Int) ≤ q.Angle := by
          rw [hq2]; exact Int.emod_nonneg _ (by omega)
        have hq1 : q.Angle < P.AngleN := by
          rw [hq2]; exact Int.emod_lt_of_pos _ (by omega)
        cases ks with
        | nil =>
          exfalso
          simp only [List.count_nil, Nat.cast_zero, add_zero] at cS cC
          subst cS cC
          have : (dfs P M tab 0 (P.Radius * 2 * M.Sin (M.Pi / (P.AngleN : ℝ)))
              ((0 : Int).toNat + (0 : Int).toNat + 1) [⟨0, 0, 0, .Bridge⟩] q.X q.Y q.Angle
              .Straight (0 - 1) 0).2 = some .indexOutOfRange := by
            have e : (0 : Int).toNat + (0 : Int).toNat + 1 = 0 + 1 := rfl
            rw [e, dfs, if_pos (by decide)]
          obtain ⟨e1, -, -⟩ := seqOut_none hrun
          rw [this] at e1
          cases e1
        | cons k1 ks1 =>
          have hfc : ∀ k, (k1 :: ks1).find? Kind.isCurve = some k → k = .Left := by
            intro k hk
            apply hfirst k
            rw [List.find?_cons_of_neg _ (by decide)]
            exact hk
          have hstart := start_of_counts curves straights k1 ks1 hslr cS cC hfc
          have key := start_complete P M tab hM hN hR.le hS.le htab straights curves _
            [⟨0, 0, 0, .Bridge⟩] q.X q.Y q.Angle hq0 hq1 k1 ks1 ps2 v2 hstart hp2
            (fun _ => rfl) (fun _ => rfl)
            (fun k => by
              rw [hfirst0] at hcl
              exact hcl) hrun
          rw [← hps]
          exact key
/-! ### Twelve curves with the default parameters (C6) -/

theorem initUpdateTab_ok (P : Params R) (M : MathFn R) (hN : 0 ≤ P.AngleN) :
    initUpdateTab P M = .ok (tableOf P M) := by
  unfold initUpdateTab tableOf
  rw [if_neg (by simp only [kindCnt]; omega)]

/-- A start call made with no straight left (`s = -1`) sends nothing, and it panics as soon
as one path of `Left` parts escapes the distance cut down to the end of the slice. -/
theorem dfs_dummy_panics (P : Params R) (M : MathFn R) (tab : List (update R)) (curves : Int)
    (curveLen : R) (hN : 1 ≤ P.AngleN) (htab : initUpdateTab P M = .ok tab) :
    ∀ (c fuel : Nat) (pre : List (Part R)) (X Y : R) (A : Angle) (kind : Kind),
      c < fuel → (0 : Int) ≤ A → A < P.AngleN →
      (∀ j : Nat, j < c → ∀ ps v, place P tab X Y A (kind :: List.replicate j .Left) = .ok (ps, v) →
        ¬ M.Sqrt (v.X * v.X + v.Y * v.Y)
          > ((-1 : Int) : R) * P.StraightLen + (((c : Int) - (j : Int) : Int) : R) * curveLen + 1) →
      dfs P M tab curves curveLen fuel pre X Y A kind (-1) c = ([], some .indexOutOfRange) := by
  intro c
  induction c with
  | zero =>
    intro fuel pre X Y A kind hf _ _ _
    obtain ⟨f, rfl⟩ : ∃ f, fuel = f + 1 := ⟨fuel - 1, by omega⟩
    rw [dfs, if_pos (by simp)]
  | succ c ih =>
    intro fuel pre X Y A kind hf h0 h1 hnp
    obtain ⟨f, rfl⟩ : ∃ f, fuel = f + 1 := ⟨fuel - 1, by omega⟩
    have hq0 : (0 : Int) ≤ (A + (entry P M kind A.toNat).a) % P.AngleN :=
      Int.emod_nonneg _ (by omega)
    have hq1 : (A + (entry P M kind A.toNat).a) % P.AngleN < P.AngleN :=
      Int.emod_lt_of_pos _ (by omega)
    have hu := Update_eq P M tab (by omega) htab ⟨X, Y, A, kind⟩ Part.zero h0 h1
    dsimp only at hu
    have hp0 := hnp 0 (Nat.succ_pos c) [⟨X, Y, A, kind⟩]
      ⟨X + (entry P M kind A.toNat).x, Y + (entry P M kind A.toNat).y,
        (A + (entry P M kind A.toNat).a) % P.AngleN, .End⟩
      (by rw [List.replicate_zero, place, hu]; rfl)
    simp only [Nat.cast_zero, sub_zero] at hp0
    have hchild := ih f (pre ++ [⟨X, Y, A, kind⟩]) (X + (entry P M kind A.toNat).x)
      (Y + (entry P M kind A.toNat).y) ((A + (entry P M kind A.toNat).a) % P.AngleN) .Left
      (by omega) hq0 hq1 (by
        intro j hj ps v hp
        have := hnp (j + 1) (by omega) (⟨X, Y, A, kind⟩ :: ps) v (by
          rw [List.replicate_succ, place, hu]
          simp only
          rw [hp])
        have e : ((c + 1 : Nat) : Int) - ((j + 1 : Nat) : Int) = (c : Int) - (j : Int) := by
          push_cast; ring
        rw [e] at this
        exact this)
    rw [dfs, if_neg (by omega)]
    simp only [hu]
    rw [if_neg (by omega), if_neg hp0, if_neg (by omega), if_pos (by omega)]
    have e2 : ((c + 1 : Nat) : Int) - 1 = (c : Int) := by push_cast; ring
    rw [e2, hchild]
    rfl
theorem chord_x (r th al : ℝ) :
    Real.cos (th + al) * (r * 2 * Real.sin al) = r * (Real.sin (th + al + al) - Real.sin th) := by
  have h1 := Real.sin_add (th + al) al
  have h2 := Real.sin_sub (th + al) al
  rw [add_sub_cancel_right] at h2
  rw [h1, h2]
  ring

theorem chord_y (r th al : ℝ) :
    Real.sin (th + al) * (r * 2 * Real.sin al) = r * (Real.cos th - Real.cos (th + al + al)) := by
  have h1 := Real.cos_add (th + al) al
  have h2 := Real.cos_sub (th + al) al
  rw [add_sub_cancel_right] at h2
  rw [h1, h2]
  ring

/-- Over exact reals, `j` consecutive `Left` parts started with heading `a` (and not passing
the heading `AngleN`) move the track along the circle of radius `Radius`. -/
theorem place_lefts (P : Params ℝ) (M : MathFn ℝ) (tab : List (update ℝ)) (hM : M.Exact)
    (hN : 1 ≤ P.AngleN) (htab : initUpdateTab P M = .ok tab) :
    ∀ (j : Nat) (X Y : ℝ) (a : Int) (ps : List (Part ℝ)) (v : Part ℝ),
      0 ≤ a → a + (j : Int) ≤ P.AngleN →
      place P tab X Y a (List.replicate j .Left) = .ok (ps, v) →
      v.X = X + P.Radius * (Real.sin (2 * Real.pi * ((a : ℝ) + (j : ℝ)) / (P.AngleN : ℝ))
          - Real.sin (2 * Real.pi * (a : ℝ) / (P.AngleN : ℝ))) ∧
        v.Y = Y + P.Radius * (Real.cos (2 * Real.pi * (a : ℝ) / (P.AngleN : ℝ))
          - Real.cos (2 * Real.pi * ((a : ℝ) + (j : ℝ)) / (P.AngleN : ℝ))) := by
  obtain ⟨hpi, hsin, hcos, -⟩ := hM
  have hNr : (P.AngleN : ℝ) ≠ 0 := by
    have : (1 : ℝ) ≤ (P.AngleN : ℝ) := by exact_mod_cast hN
    linarith
  intro j
  induction j with
  | zero =>
    intro X Y a ps v _ _ h
    simp only [List.replicate_zero, place, Except.ok.injEq, Prod.mk.injEq] at h
    rw [← h.2]
    simp
  | succ j ih =>
    intro X Y a ps v h0 h1 h
    push_cast at h1
    have h1' : a < P.AngleN := by omega
    rw [List.replicate_succ, place,
      Update_eq P M tab (by omega) htab ⟨X, Y, a, .Left⟩ Part.zero h0 h1'] at h
    simp only at h
    have hcast : ((a.toNat : Int) : ℝ) = (a : ℝ) := by
      rw [Int.toNat_of_nonneg h0]
    have hth : 2 * Real.pi * (a : ℝ) / (P.AngleN : ℝ) + Real.pi / (P.AngleN : ℝ)
        + Real.pi / (P.AngleN : ℝ) = 2 * Real.pi * ((a : ℝ) + 1) / (P.AngleN : ℝ) := by
      field_simp
      ring
    have ex : (entry P M .Left a.toNat).x
        = P.Radius * (Real.sin (2 * Real.pi * ((a : ℝ) + 1) / (P.AngleN : ℝ))
          - Real.sin (2 * Real.pi * (a : ℝ) / (P.AngleN : ℝ))) := by
      simp only [entry, Angle.Rad, hpi, hsin, hcos, hcast]
      rw [chord_x, hth]
    have ey : (entry P M .Left a.toNat).y
        = P.Radius * (Real.cos (2 * Real.pi * (a : ℝ) / (P.AngleN : ℝ))
          - Real.cos (2 * Real.pi * ((a : ℝ) + 1) / (P.AngleN : ℝ))) := by
      simp only [entry, Angle.Rad, hpi, hsin, hcos, hcast]
      rw [chord_y, hth]
    have ea : (entry P M .Left a.toNat).a = 1 := rfl
    rw [ex, ey, ea] at h
    split at h
    · cases h
    · rename_i ps2 v2 hp
      simp only [Except.ok.injEq, Prod.mk.injEq] at h
      rw [← h.2]
      cases j with
      | zero =>
        simp only [List.replicate_zero, place, Except.ok.injEq, Prod.mk.injEq] at hp
        rw [← hp.2]
        simp
      | succ j =>
        push_cast at h1
        have hmod : (a + 1) % P.AngleN = a + 1 := Int.emod_eq_of_lt (by omega) (by omega)
        rw [hmod] at hp
        obtain ⟨i1, i2⟩ := ih _ _ (a + 1) ps2 v2 (by omega) (by push_cast; omega) hp
        rw [i1, i2]
        push_cast
        constructor
        · ring_nf
        · ring_nf
theorem sqrt_three_bounds : (17 : ℝ) / 10 < Real.sqrt 3 ∧ Real.sqrt 3 < 7 / 4 := by
  constructor
  · rw [Real.lt_sqrt (by norm_num)]
    norm_num
  · rw [Real.sqrt_lt' (by norm_num)]
    norm_num

theorem sin_pi_div_twelve_ge : (1 : ℝ) / 4 ≤ Real.sin (Real.pi / 12) := by
  have h1 := Real.sin_sq_eq_half_sub (Real.pi / 12)
  have h2 : 2 * (Real.pi / 12) = Real.pi / 6 := by ring
  rw [h2, Real.cos_pi_div_six] at h1
  have h3 : 0 ≤ Real.sin (Real.pi / 12) :=
    Real.sin_nonneg_of_nonneg_of_le_pi (by positivity) (by linarith [Real.pi_pos])
  have h4 := sqrt_three_bounds.2
  by_contra hlt
  push_neg at hlt
  nlinarith

/-- The squared distance from the origin after one straight of length `1` and `j` left
curves of radius `2` with twelve curves to the circle is at most `(12 - j) ^ 2`. -/
theorem dist_sq_bound (j : Nat) (hj : j < 12) :
    9 + 4 * Real.sin (2 * Real.pi * (j : ℝ) / 12) - 8 * Real.cos (2 * Real.pi * (j : ℝ) / 12)
      ≤ (12 - (j : ℝ)) ^ 2 := by
  have hs := Real.sin_le_one (2 * Real.pi * (j : ℝ) / 12)
  have hc := Real.neg_one_le_cos (2 * Real.pi * (j : ℝ) / 12)
  obtain ⟨b1, b2⟩ := sqrt_three_bounds
  interval_cases j
  · norm_num at hs hc ⊢
  · norm_num at hs hc ⊢; linarith
  · norm_num at hs hc ⊢; linarith
  · norm_num at hs hc ⊢; linarith
  · norm_num at hs hc ⊢; linarith
  · norm_num at hs hc ⊢; linarith
  · norm_num at hs hc ⊢; linarith
  · norm_num at hs hc ⊢; linarith
  · have e : 2 * Real.pi * ((8 : Nat) : ℝ) / 12 = Real.pi / 3 + Real.pi := by push_cast; ring
    rw [e, Real.sin_add_pi, Real.cos_add_pi, Real.sin_pi_div_three, Real.cos_pi_div_three]
    push_cast
    nlinarith
  · have e : 2 * Real.pi * ((9 : Nat) : ℝ) / 12 = Real.pi / 2 + Real.pi := by push_cast; ring
    rw [e, Real.sin_add_pi, Real.cos_add_pi, Real.sin_pi_div_two, Real.cos_pi_div_two]
    push_cast
    norm_num
  · have e : 2 * Real.pi * ((10 : Nat) : ℝ) / 12 = 2 * Real.pi - Real.pi / 3 := by
      push_cast; ring
    rw [e, Real.sin_two_pi_sub, Real.cos_two_pi_sub, Real.sin_pi_div_three,
      Real.cos_pi_div_three]
    push_cast
    nlinarith
  · have e : 2 * Real.pi * ((11 : Nat) : ℝ) / 12 = 2 * Real.pi - Real.pi / 6 := by
      push_cast; ring
    rw [e, Real.sin_two_pi_sub, Real.cos_two_pi_sub, Real.sin_pi_div_six,
      Real.cos_pi_div_six]
    push_cast
    nlinarith
/-- Over exact reals with the default parameters, no prefix `Straight, Left, ..., Left` of
the dummy start call of a search for twelve curves is cut. -/
theorem twelve_not_pruned (M : MathFn ℝ) (hM : M.Exact) (tab : List (update ℝ))
    (htab : initUpdateTab (⟨12, 2, 8, 1⟩ : Params ℝ) M = .ok tab) (j : Nat) (hj : j < 12)
    (ps : List (Part ℝ)) (v : Part ℝ)
    (hp : place (⟨12, 2, 8, 1⟩ : Params ℝ) tab 0 0 0 (.Straight :: List.replicate j .Left)
      = .ok (ps, v)) :
    ¬ M.Sqrt (v.X * v.X + v.Y * v.Y)
      > ((-1 : Int) : ℝ) * (⟨12, 2, 8, 1⟩ : Params ℝ).StraightLen
        + ((((12 : Nat) : Int) - (j : Int) : Int) : ℝ) * (2 * 2 * M.Sin (M.Pi / ((12 : Int) : ℝ)))
        + 1 := by
  have hM' := hM
  obtain ⟨hpi, hsin, hcos, hsqrt⟩ := hM
  have hN : (1 : Int) ≤ (⟨12, 2, 8, 1⟩ : Params ℝ).AngleN := by decide
  rw [place, Update_eq (⟨12, 2, 8, 1⟩ : Params ℝ) M tab (by decide) htab ⟨0, 0, 0, .Straight⟩
    Part.zero (le_refl _) (by decide)] at hp
  simp only at hp
  have ex : (entry (⟨12, 2, 8, 1⟩ : Params ℝ) M .Straight (0 : Int).toNat).x = 1 := by
    simp [entry, Angle.Rad, hcos]
  have ey : (entry (⟨12, 2, 8, 1⟩ : Params ℝ) M .Straight (0 : Int).toNat).y = 0 := by
    simp [entry, Angle.Rad, hsin]
  have ea : (entry (⟨12, 2, 8, 1⟩ : Params ℝ) M .Straight (0 : Int).toNat).a = 0 := rfl
  rw [ex, ey, ea] at hp
  have hmod : ((0 : Int) + 0) % (12 : Int) = 0 := by decide
  simp only [hmod, zero_add] at hp
  split at hp
  · cases hp
  · rename_i ps2 v2 hp2
    simp only [Except.ok.injEq, Prod.mk.injEq] at hp
    rw [← hp.2]
    obtain ⟨vx, vy⟩ := place_lefts (⟨12, 2, 8, 1⟩ : Params ℝ) M tab hM' hN htab j 1 0 0 ps2 v2
      (le_refl _) (by
        have : ((j : Int)) ≤ 12 := by omega
        simpa using this) hp2
    simp only [Int.cast_zero, zero_add, mul_zero, zero_div, Real.sin_zero, Real.cos_zero,
      sub_zero, Int.cast_ofNat] at vx vy
    have hb := dist_sq_bound j hj
    have hcl := sin_pi_div_twelve_ge
    have hjr : (j : ℝ) < 12 := by exact_mod_cast hj
    have hsc := Real.sin_sq_add_cos_sq (2 * Real.pi * (j : ℝ) / 12)
    rw [hsqrt, hsin, hpi, vx, vy]
    push_cast
    rw [not_lt, Real.sqrt_le_iff]
    constructor
    · nlinarith
    · have h1 : (12 - (j : ℝ)) ^ 2 ≤ ((12 - (j : ℝ)) * (2 * 2 * Real.sin (Real.pi / 12))) ^ 2 := by
        have : 1 ≤ 2 * 2 * Real.sin (Real.pi / 12) := by linarith
        have h12 : 0 ≤ 12 - (j : ℝ) := by linarith
        nlinarith [mul_le_mul_of_nonneg_left this h12]
      have h2 : (1 + 2 * Real.sin (2 * Real.pi * (j : ℝ) / 12))
          * (1 + 2 * Real.sin (2 * Real.pi * (j : ℝ) / 12))
          + 2 * (1 - Real.cos (2 * Real.pi * (j : ℝ) / 12))
            * (2 * (1 - Real.cos (2 * Real.pi * (j : ℝ) / 12)))
          = 9 + 4 * Real.sin (2 * Real.pi * (j : ℝ) / 12)
            - 8 * Real.cos (2 * Real.pi * (j : ℝ) / 12) := by
        linear_combination 4 * hsc
      rw [h2]
      calc 9 + 4 * Real.sin (2 * Real.pi * (j : ℝ) / 12)
            - 8 * Real.cos (2 * Real.pi * (j : ℝ) / 12) ≤ (12 - (j : ℝ)) ^ 2 := hb
        _ ≤ ((12 - (j : ℝ)) * (2 * 2 * Real.sin (Real.pi / 12))) ^ 2 := h1
        _ = _ := by ring
theorem twelve_curves_panics (M : MathFn ℝ) (hM : M.Exact) (tab : List (update ℝ))
    (htab : initUpdateTab (⟨12, 2, 8, 1⟩ : Params ℝ) M = .ok tab) :
    (findTracks (⟨12, 2, 8, 1⟩ : Params ℝ) M tab 0 0 12).err = some .indexOutOfRange ∧
      (findTracks (⟨12, 2, 8, 1⟩ : Params ℝ) M tab 0 0 12).out = [] := by
  have hd := dfs_dummy_panics (⟨12, 2, 8, 1⟩ : Params ℝ) M tab 12
    (2 * 2 * M.Sin (M.Pi / ((12 : Int) : ℝ))) (by decide) htab 12 13 [] 0 0 0 .Straight
    (by decide) (le_refl _) (by decide)
    (fun j hj ps v hp => twelve_not_pruned M hM tab htab j hj ps v hp)
  obtain ⟨h1, h2⟩ := findTracks_eq_spec (⟨12, 2, 8, 1⟩ : Params ℝ) M tab 0 0 12 (Or.inl rfl)
    (le_refl _) (by decide)
  rw [h1, h2]
  unfold tracksSpec
  simp only
  rw [if_neg (by decide)]
  have e1 : (0 : Int).toNat + (12 : Int).toNat + 1 = 13 := rfl
  have e2 : (0 : Int) - 1 = -1 := rfl
  have e3 : ((12 : Nat) : Int) = 12 := rfl
  rw [e3] at hd
  rw [e1, e2, hd]
  exact ⟨rfl, rfl⟩

/-- C6 (fails on the code): over exact reals, with `AngleN = 12`, `Radius = 2`,
`BridgeLen = 8`, `StraightLen = 1` and the table of `initUpdateTab`, `findTracks` for no
bridge, no straight and twelve curves sends no track: the start call
`r(0, Straight, -1, 12)` follows the path `Straight, Left, ..., Left`, is never cut, and at
depth twelve indexes `track[13]` in a slice of length `13`. -/
theorem findTracks_twelve_curves_panics :
    (findTracks (⟨12, 2, 8, 1⟩ : Params ℝ) ⟨Real.pi, Real.sin, Real.cos, Real.sqrt⟩
        (tableOf ⟨12, 2, 8, 1⟩ ⟨Real.pi, Real.sin, Real.cos, Real.sqrt⟩) 0 0 12).err
        = some .indexOutOfRange ∧
      (findTracks (⟨12, 2, 8, 1⟩ : Params ℝ) ⟨Real.pi, Real.sin, Real.cos, Real.sqrt⟩
        (tableOf ⟨12, 2, 8, 1⟩ ⟨Real.pi, Real.sin, Real.cos, Real.sqrt⟩) 0 0 12).out = [] :=
  twelve_curves_panics ⟨Real.pi, Real.sin, Real.cos, Real.sqrt⟩ ⟨rfl, rfl, rfl, rfl⟩ _
    (initUpdateTab_ok _ _ (by decide))
/-! ### The recursion budget -/

theorem andThen_fuel {x : Search R} {f : List (Part R) → List (List (Part R)) → Search R}
    (hx : x.err ≠ some .outOfFuel) (hf : ∀ t o, (f t o).err ≠ some .outOfFuel) :
    (x.andThen f).err ≠ some .outOfFuel := by
  unfold Search.andThen
  split
  · exact hx
  · exact hf _ _

theorem Update_fuel (P : Params R) (tab : List (update R)) (p t : Part R) :
    p.Update P tab t ≠ .error .outOfFuel := by
  intro h
  rcases Update_err P tab p t _ h with h | ⟨-, h⟩ <;> cases h

/-- The recursion budget given to `r` is never used up: every recursive call is made with
`s > 0` or `c > 0` and decreases `max(s,0) + max(c,0)`. -/
theorem r_fuel (P : Params R) (M : MathFn R) (tab : List (update R)) (curves n1 : Int)
    (curveLen : R) :
    ∀ (fuel pos : Nat) (kind : Kind) (s c : Int) (track : List (Part R))
      (out : List (List (Part R))), s.toNat + c.toNat < fuel →
      (r P M tab curves n1 curveLen fuel pos kind s c track out).err ≠ some .outOfFuel := by
  intro fuel
  induction fuel with
  | zero => intro pos kind s c track out h; omega
  | succ fuel ih =>
    intro pos kind s c track out hf
    unfold r
    split
    · simp
    · simp only
      split
      · simp
      · split
        · rename_i e he
          intro h
          simp only [Option.some.injEq] at h
          rw [h] at he
          exact Update_fuel P tab _ _ he
        · split
          · split
            · simp
            · split
              · split <;> simp
              · simp
          · split
            · simp
            · refine andThen_fuel ?_ ?_
              · split
                · exact ih _ _ _ _ _ _ (by omega)
                · simp
              · intro t o
                split
                · refine andThen_fuel (ih _ _ _ _ _ _ (by omega)) ?_
                  intro t2 o2
                  split
                  · exact ih _ _ _ _ _ _ (by omega)
                  · simp
                · simp

/-- The error `outOfFuel` of the embedding is never the result of `findTracks`: the
recursion of `r` terminates by itself. -/
theorem findTracks_fuel (P : Params R) (M : MathFn R) (tab : List (update R))
    (bridges straights curves : Int) :
    (findTracks P M tab bridges straights curves).err ≠ some .outOfFuel := by
  unfold findTracks
  split
  · simp
  · split
    · simp
    · simp only
      refine andThen_fuel ?_ ?_
      · split
        · unfold placeBridge
          split
          · simp
          · simp only
            split
            · simp
            · split
              · rename_i e he
                intro h
                simp only [Option.some.injEq] at h
                rw [h] at he
                exact Update_fuel P tab _ _ he
              · simp
        · simp
      · intro t o
        refine andThen_fuel (r_fuel P M tab _ _ _ _ _ _ _ _ _ _ (by omega)) ?_
        intro t2 o2
        exact r_fuel P M tab _ _ _ _ _ _ _ _ _ _ (by omega)

/-! ### Heading arithmetic, turning number and bounding box -/

/-- C11: for `AngleN ≥ 1` and all integers `a`, `b`, `a.Add(b)` does not fail, lies in
`[0, AngleN)` and is congruent to `a + b` modulo `AngleN`, also when `a + b` is negative.
With `AngleN = 12` and `a = 0`: `Add(1) = 1`, `Add(11) = 11`, `Add(13) = 1`, `Add(-1) = 11`,
`Add(-14) = 10`. -/
theorem Add_mod_AngleN (N a b : Int) (hN : 1 ≤ N) :
    (∃ res, Angle.Add N a b = .ok res ∧ 0 ≤ res ∧ res < N ∧ N ∣ res - (a + b)) ∧
      (Angle.Add 12 0 1 = .ok 1 ∧ Angle.Add 12 0 11 = .ok 11 ∧ Angle.Add 12 0 13 = .ok 1 ∧
        Angle.Add 12 0 (-1) = .ok 11 ∧ Angle.Add 12 0 (-14) = .ok 10) := by
  refine ⟨⟨(a + b) % N, Add_eq N a b (by omega), Int.emod_nonneg _ (by omega),
    Int.emod_lt_of_pos _ (by omega), ?_⟩, rfl, rfl, rfl, rfl, rfl⟩
  refine ⟨-((a + b) / N), ?_⟩
  have h := Int.emod_add_ediv (a + b) N
  linarith

theorem kinds_cons (p : Part R) (t : List (Part R)) : kinds (p :: t) = p.Kind :: kinds t := rfl

/-- C14: for every sequence of parts, closed or not, `totalAngle` is the number of `Left`
parts minus the number of `Right` parts; `End`, `Bridge` and `Straight` parts contribute `0`,
and positions and headings are ignored: the result depends on the kinds only. -/
theorem totalAngle_eq_lefts_sub_rights (t : List (Part R)) :
    totalAngle t = ((kinds t).count .Left : Int) - ((kinds t).count .Right : Int) ∧
      ∀ t2 : List (Part R), kinds t2 = kinds t → totalAngle t2 = totalAngle t := by
  have key : ∀ u : List (Part R),
      totalAngle u = ((kinds u).count .Left : Int) - ((kinds u).count .Right : Int) := by
    intro u
    induction u with
    | nil => rfl
    | cons p u ih =>
      rw [totalAngle_cons, ih, kinds_cons]
      cases hk : p.Kind <;> simp [Kind.turn, List.count_cons] <;> omega
  refine ⟨key t, ?_⟩
  intro t2 h
  rw [key t2, key t, h]

theorem trackBounds_step (b : R × R × R × R) (p : Part R) (t : List (Part R)) :
    List.foldl (fun (b : R × R × R × R) (p : Part R) =>
      ((if b.1 > p.X then p.X else b.1), (if b.2.1 > p.Y then p.Y else b.2.1),
        (if b.2.2.1 < p.X then p.X else b.2.2.1), (if b.2.2.2 < p.Y then p.Y else b.2.2.2)))
      b (p :: t)
    = List.foldl (fun (b : R × R × R × R) (p : Part R) =>
      ((if b.1 > p.X then p.X else b.1), (if b.2.1 > p.Y then p.Y else b.2.1),
        (if b.2.2.1 < p.X then p.X else b.2.2.1), (if b.2.2.2 < p.Y then p.Y else b.2.2.2)))
      ((if b.1 > p.X then p.X else b.1), (if b.2.1 > p.Y then p.Y else b.2.1),
        (if b.2.2.1 < p.X then p.X else b.2.2.1), (if b.2.2.2 < p.Y then p.Y else b.2.2.2)) t :=
  rfl

/-- What the loop of `trackBounds` computes from the start values `b`: the smallest and the
largest coordinate among the start values and the parts. -/
theorem trackBounds_loop (t : List (Part R)) :
    ∀ b : R × R × R × R,
      List.foldl (fun (b : R × R × R × R) (p : Part R) =>
        ((if b.1 > p.X then p.X else b.1), (if b.2.1 > p.Y then p.Y else b.2.1),
          (if b.2.2.1 < p.X then p.X else b.2.2.1), (if b.2.2.2 < p.Y then p.Y else b.2.2.2)))
        b t
      = (t.foldl (fun m p => min m p.X) b.1, t.foldl (fun m p => min m p.Y) b.2.1,
          t.foldl (fun m p => max m p.X) b.2.2.1, t.foldl (fun m p => max m p.Y) b.2.2.2) := by
  induction t with
  | nil => intro b; rfl
  | cons p t ih =>
    intro b
    rw [trackBounds_step, ih]
    simp only [List.foldl_cons]
    have e1 : ∀ x y : R, (if x > y then y else x) = min x y := by
      intro x y
      rcases lt_or_le y x with h | h
      · rw [if_pos h, min_eq_right h.le]
      · rw [if_neg (not_lt.mpr h), min_eq_left h]
    have e2 : ∀ x y : R, (if x < y then y else x) = max x y := by
      intro x y
      rcases lt_or_le x y with h | h
      · rw [if_pos h, max_eq_right h.le]
      · rw [if_neg (not_lt.mpr h), max_eq_left h]
    simp only [e1, e2]

/-- The result of `trackBounds`: minima and maxima over the parts and `0`. -/
theorem trackBounds_eq (t : List (Part R)) :
    trackBounds t
      = (t.foldl (fun m p => min m p.X) 0, t.foldl (fun m p => min m p.Y) 0,
          t.foldl (fun m p => max m p.X) 0, t.foldl (fun m p => max m p.Y) 0) :=
  trackBounds_loop t (0, 0, 0, 0)

/-- For the track of one part at `(1, 1)` the smallest `X` and `Y` over the parts are `1`,
but `trackBounds` returns `minX = minY = 0`, the start value of its named results, so `minX`
and `minY` are the coordinate of no part of the track. -/
theorem trackBounds_single_part :
    trackBounds [(⟨1, 1, 0, .Straight⟩ : Part R)] = (0, 0, 1, 1) ∧
      ∀ p ∈ [(⟨1, 1, 0, .Straight⟩ : Part R)],
        p.X ≠ (trackBounds [(⟨1, 1, 0, .Straight⟩ : Part R)]).1 ∧
          p.Y ≠ (trackBounds [(⟨1, 1, 0, .Straight⟩ : Part R)]).2.1 := by
  have h : trackBounds [(⟨1, 1, 0, .Straight⟩ : Part R)] = (0, 0, 1, 1) := by
    rw [trackBounds_eq]
    simp
  refine ⟨h, ?_⟩
  intro p hp
  rw [h, List.mem_singleton.mp hp]
  simp

/-- Where the first part of the track lies at the origin, as in every track `findTracks`
sends, the start value `0` of the results is the first part's own coordinate and
`trackBounds` returns the smallest and the largest coordinate over the parts. -/
theorem trackBounds_of_head_origin (p : Part R) (t : List (Part R)) (hx : p.X = 0)
    (hy : p.Y = 0) :
    trackBounds (p :: t)
      = (t.foldl (fun m q => min m q.X) p.X, t.foldl (fun m q => min m q.Y) p.Y,
          t.foldl (fun m q => max m q.X) p.X, t.foldl (fun m q => max m q.Y) p.Y) := by
  rw [trackBounds_eq]
  simp [hx, hy]

/-! ### The range of the headings -/

/-- For `AngleN ≥ 1` the heading of a part computed by `Update` lies in `[0, AngleN)`,
whatever the table holds. -/
theorem Update_angle_range (P : Params R) (tab : List (update R)) (hN : 1 ≤ P.AngleN)
    (p t q : Part R) (h : p.Update P tab t = .ok q) :
    (0 : Int) ≤ q.Angle ∧ q.Angle < P.AngleN := by
  unfold Part.Update at h
  simp only at h
  split at h
  · cases h
  · split at h
    · cases h
    · rename_i u _
      rw [Add_eq P.AngleN _ _ (by omega)] at h
      simp only [Except.ok.injEq] at h
      rw [← h]
      exact ⟨Int.emod_nonneg _ (by omega), Int.emod_lt_of_pos _ (by omega)⟩

theorem mem_set_range {N : Int} {l : List (Part R)} {i : Nat} {a : Part R}
    (hl : ∀ p ∈ l, (0 : Int) ≤ p.Angle ∧ p.Angle < N) (ha : (0 : Int) ≤ a.Angle ∧ a.Angle < N) :
    ∀ p ∈ l.set i a, (0 : Int) ≤ p.Angle ∧ p.Angle < N := by
  intro p hp
  rcases List.mem_or_eq_of_mem_set hp with h | h
  · exact hl p h
  · rw [h]; exact ha

theorem andThen_range {N : Int} {x : Search R}
    {f : List (Part R) → List (List (Part R)) → Search R} (hx : x.InRange N)
    (hf : ∀ t o, (⟨t, o, none⟩ : Search R).InRange N → (f t o).InRange N) :
    (x.andThen f).InRange N := by
  unfold Search.andThen
  split
  · exact hx
  · exact hf _ _ hx

/-- The closure `r` keeps all headings in range. -/
theorem r_range (P : Params R) (M : MathFn R) (tab : List (update R)) (curves n1 : Int)
    (curveLen : R) (hN : 1 ≤ P.AngleN) :
    ∀ (fuel pos : Nat) (kind : Kind) (s c : Int) (track : List (Part R))
      (out : List (List (Part R))), (⟨track, out, none⟩ : Search R).InRange P.AngleN →
      (r P M tab curves n1 curveLen fuel pos kind s c track out).InRange P.AngleN := by
  intro fuel
  induction fuel with
  | zero => intro pos kind s c track out h; exact h
  | succ fuel ih =>
    intro pos kind s c track out h
    obtain ⟨ht, ho⟩ := h
    unfold r
    split
    · exact ⟨ht, ho⟩
    · rename_i p0 hp0
      have hp0r := ht p0 (List.getElem?_mem hp0)
      have ht1 : ∀ p ∈ track.set pos { p0 with Kind := kind },
          (0 : Int) ≤ p.Angle ∧ p.Angle < P.AngleN := mem_set_range ht hp0r
      simp only
      split
      · exact ⟨ht1, ho⟩
      · split
        · exact ⟨ht1, ho⟩
        · rename_i q hq
          have hqr := Update_angle_range P tab hN _ _ _ hq
          have ht2 : ∀ p ∈ (track.set pos { p0 with Kind := kind }).set (pos + 1) q,
              (0 : Int) ≤ p.Angle ∧ p.Angle < P.AngleN := mem_set_range ht1 hqr
          split
          · split
            · exact ⟨ht2, ho⟩
            · split
              · split
                · refine ⟨ht2, ?_⟩
                  intro t htm
                  simp only [List.mem_append, List.mem_singleton] at htm
                  rcases htm with htm | htm
                  · exact ho t htm
                  · intro p hp
                    rw [htm] at hp
                    exact ht2 p (List.mem_of_mem_take hp)
                · exact ⟨ht2, ho⟩
              · exact ⟨ht2, ho⟩
          · split
            · exact ⟨ht2, ho⟩
            · refine andThen_range ?_ ?_
              · split
                · exact ih _ _ _ _ _ _ ⟨ht2, ho⟩
                · exact ⟨ht2, ho⟩
              · intro t o hto
                split
                · refine andThen_range (ih _ _ _ _ _ _ hto) ?_
                  intro t2 o2 hto2
                  split
                  · exact ih _ _ _ _ _ _ hto2
                  · exact hto2
                · exact hto

/-- The headings of the working slice and of the tracks sent by `findTracks` lie in
`[0, AngleN)`. -/
theorem findTracks_range (P : Params R) (M : MathFn R) (tab : List (update R))
    (hN : 1 ≤ P.AngleN) (bridges straights curves : Int) :
    (findTracks P M tab bridges straights curves).InRange P.AngleN := by
  have hz : ∀ n : Nat, ∀ p ∈ List.replicate n (Part.zero : Part R),
      (0 : Int) ≤ p.Angle ∧ p.Angle < P.AngleN := by
    intro n p hp
    rw [List.eq_of_mem_replicate hp]
    exact ⟨le_refl _, by show (0 : Int) < P.AngleN; omega⟩
  unfold findTracks
  split
  · exact ⟨by simp, by simp⟩
  · split
    · exact ⟨by simp, by simp⟩
    · simp only
      refine andThen_range ?_ ?_
      · split
        · unfold placeBridge
          split
          · exact ⟨hz _, by simp⟩
          · rename_i p0 hp0
            have hp0r := hz _ p0 (List.getElem?_mem hp0)
            have ht1 : ∀ p ∈ (List.replicate (bridges + straights + curves + 1).toNat
                (Part.zero : Part R)).set 0 { p0 with Kind := .Bridge },
                (0 : Int) ≤ p.Angle ∧ p.Angle < P.AngleN := mem_set_range (hz _) hp0r
            simp only
            split
            · exact ⟨ht1, by simp⟩
            · split
              · exact ⟨ht1, by simp⟩
              · rename_i q hq
                exact ⟨mem_set_range ht1 (Update_angle_range P tab hN _ _ _ hq), by simp⟩
        · exact ⟨hz _, by simp⟩
      · intro t o hto
        refine andThen_range (r_range P M tab _ _ _ hN _ _ _ _ _ _ _ hto) ?_
        intro t2 o2 hto2
        exact r_range P M tab _ _ _ hN _ _ _ _ _ _ _ hto2

/-- C18: for `AngleN ≥ 1` and the table built by `initUpdateTab`, a part of any kind with
`Angle` in `[0, AngleN)` has its lookup index `Kind * AngleN + Angle` inside the table, whose
size is `kindCnt * AngleN`, and `Update` gives its target an `Angle` in `[0, AngleN)` again;
hence every part of the working slice of `findTracks` and of every track it sends has its
`Angle` in `[0, AngleN)`. -/
theorem Update_keeps_heading_in_range (P : Params R) (M : MathFn R) (tab : List (update R))
    (hN : 1 ≤ P.AngleN) (htab : initUpdateTab P M = .ok tab) :
    (tab.length : Int) = kindCnt * P.AngleN ∧
      (∀ p target : Part R, (0 : Int) ≤ p.Angle → p.Angle < P.AngleN →
        0 ≤ p.Kind.toInt * P.AngleN + p.Angle ∧
          p.Kind.toInt * P.AngleN + p.Angle < (tab.length : Int) ∧
          ∃ q, p.Update P tab target = .ok q ∧ (0 : Int) ≤ q.Angle ∧ q.Angle < P.AngleN) ∧
      ∀ bridges straights curves : Int,
        (∀ p ∈ (findTracks P M tab bridges straights curves).track,
          (0 : Int) ≤ p.Angle ∧ p.Angle < P.AngleN) ∧
        ∀ t ∈ (findTracks P M tab bridges straights curves).out, ∀ p ∈ t,
          (0 : Int) ≤ p.Angle ∧ p.Angle < P.AngleN := by
  obtain ⟨hlen, -⟩ := initUpdateTab_get P M tab (by omega) htab
  refine ⟨hlen, ?_, fun b s c => findTracks_range P M tab hN b s c⟩
  intro p target h0 h1
  have hk : 0 ≤ p.Kind.toInt ∧ p.Kind.toInt ≤ 4 := by cases p.Kind <;> decide
  have hk0 : 0 ≤ p.Kind.toInt * P.AngleN := Int.mul_nonneg hk.1 (by omega)
  have hk4 : p.Kind.toInt * P.AngleN ≤ 4 * P.AngleN :=
    Int.mul_le_mul_of_nonneg_right hk.2 (by omega)
  have h0i : (0 : Int) ≤ (p.Angle : Int) := h0
  have h1i : @LT.lt Int _ p.Angle P.AngleN := h1
  refine ⟨by omega, by rw [hlen]; simp only [kindCnt]; omega, ?_⟩
  have hu := Update_eq P M tab (by omega) htab p target h0 h1
  exact ⟨_, hu, Update_angle_range P tab hN _ _ _ hu⟩

/-! ### The number of tracks sent -/

theorem andThen_out_le {x : Search R} {f : List (Part R) → List (List (Part R)) → Search R}
    (o k1 k2 : Nat) (hx : x.out.length ≤ o + k1)
    (hf : ∀ t o2, (f t o2).out.length ≤ o2.length + k2) :
    (x.andThen f).out.length ≤ o + (k1 + k2) := by
  unfold Search.andThen
  split
  · omega
  · have := hf x.track x.out
    omega

/-- A call of `r` with `s` straights and `c` curves left sends at most `3 ^ (max(s,0) +
max(c,0))` tracks: it makes at most three recursive calls, each with one piece less. -/
theorem r_out_le (P : Params R) (M : MathFn R) (tab : List (update R)) (curves n1 : Int)
    (curveLen : R) :
    ∀ (fuel pos : Nat) (kind : Kind) (s c : Int) (track : List (Part R))
      (out : List (List (Part R))),
      (r P M tab curves n1 curveLen fuel pos kind s c track out).out.length
        ≤ out.length + 3 ^ (s.toNat + c.toNat) := by
  intro fuel
  induction fuel with
  | zero => intro pos kind s c track out; exact Nat.le_add_right _ _
  | succ fuel ih =>
    intro pos kind s c track out
    have hpos : 0 < 3 ^ (s.toNat + c.toNat) := pow_pos (by decide) _
    unfold r
    split
    · exact Nat.le_add_right _ _
    · simp only
      split
      · exact Nat.le_add_right _ _
      · split
        · exact Nat.le_add_right _ _
        · split
          · split
            · exact Nat.le_add_right _ _
            · split
              · split
                · simp only [List.length_append, List.length_singleton]
                  omega
                · exact Nat.le_add_right _ _
              · exact Nat.le_add_right _ _
          · split
            · exact Nat.le_add_right _ _
            · rename_i hsc _
              refine le_trans (andThen_out_le out.length
                (if s > 0 then 3 ^ ((s - 1).toNat + c.toNat) else 0)
                (if c > 0 then 3 ^ (s.toNat + (c - 1).toNat) + 3 ^ (s.toNat + (c - 1).toNat)
                  else 0) ?_ ?_) ?_
              · split
                · exact ih _ _ _ _ _ _
                · exact Nat.le_add_right _ _
              · intro t o
                split
                · refine andThen_out_le o.length _ _ (ih _ _ _ _ _ _) ?_
                  intro t2 o2
                  split
                  · exact ih _ _ _ _ _ _
                  · exact Nat.le_add_right _ _
                · exact Nat.le_add_right _ _
              · by_cases hs : s > 0
                · obtain ⟨a, ha⟩ : ∃ a : Nat, s.toNat = a + 1 := ⟨s.toNat - 1, by omega⟩
                  have ha2 : (s - 1).toNat = a := by omega
                  by_cases hc : c > 0
                  · obtain ⟨b, hb⟩ : ∃ b : Nat, c.toNat = b + 1 := ⟨c.toNat - 1, by omega⟩
                    have hb2 : (c - 1).toNat = b := by omega
                    rw [if_pos hs, if_pos hc, ha, ha2, hb, hb2]
                    have e1 : a + (b + 1) = a + b + 1 := by omega
                    have e2 : a + 1 + b = a + b + 1 := by omega
                    have e3 : a + 1 + (b + 1) = a + b + 1 + 1 := by omega
                    rw [e1, e2, e3, pow_succ 3 (a + b + 1)]
                    omega
                  · rw [if_pos hs, if_neg hc, ha, ha2]
                    have e3 : a + 1 + c.toNat = a + c.toNat + 1 := by omega
                    rw [e3, pow_succ 3 (a + c.toNat)]
                    omega
                · by_cases hc : c > 0
                  · obtain ⟨b, hb⟩ : ∃ b : Nat, c.toNat = b + 1 := ⟨c.toNat - 1, by omega⟩
                    have hb2 : (c - 1).toNat = b := by omega
                    rw [if_neg hs, if_pos hc, hb, hb2]
                    have e3 : s.toNat + (b + 1) = s.toNat + b + 1 := by omega
                    rw [e3, pow_succ 3 (s.toNat + b)]
                    omega
                  · rw [if_neg hs, if_neg hc]
                    omega

/-- The run of `findTracks` sends at most `2 * 3 ^ (max(straights,0) + max(curves,0))`
tracks. -/
theorem findTracks_out_le (P : Params R) (M : MathFn R) (tab : List (update R))
    (bridges straights curves : Int) :
    (findTracks P M tab bridges straights curves).out.length
      ≤ 2 * 3 ^ (straights.toNat + curves.toNat) := by
  have hm : ∀ a b : Nat, a ≤ b → 3 ^ a ≤ 3 ^ b := fun a b h =>
    Nat.pow_le_pow_right (by decide) h
  have h1 := hm ((straights - 1).toNat + curves.toNat) (straights.toNat + curves.toNat)
    (by omega)
  have h2 := hm (straights.toNat + (curves - 1).toNat) (straights.toNat + curves.toNat)
    (by omega)
  unfold findTracks
  split
  · exact Nat.zero_le _
  · split
    · exact Nat.zero_le _
    · simp only
      have h0 : ∀ x : Search R, x.out = [] → x.out.length ≤ 0 + 0 := by
        intro x hx; rw [hx]; exact Nat.le_refl _
      refine le_trans (andThen_out_le 0 0
        (3 ^ ((straights - 1).toNat + curves.toNat) + 3 ^ (straights.toNat + (curves - 1).toNat))
        (h0 _ ?_) ?_) (by omega)
      · split
        · unfold placeBridge
          split
          · rfl
          · simp only
            split
            · rfl
            · split <;> rfl
        · rfl
      · intro t o
        refine andThen_out_le o.length _ _ (r_out_le P M tab _ _ _ _ _ _ _ _ _ _) ?_
        intro t2 o2
        exact r_out_le P M tab _ _ _ _ _ _ _ _ _ _

/-- C16 (fails on the code): the recursion of `r` is well-founded for all integer counts:
the budget `max(straights,0) + max(curves,0) + 1` for the nesting of calls is never used up,
and at most `2 * 3 ^ (max(straights,0) + max(curves,0))` tracks are sent.  But the run need
not end by signalling completion: with no piece at all, `bridges = straights = curves = 0`,
the start call `r(0, Straight, -1, 0)` evaluates `track[1]` in a slice of length `1` and the
run stops with an index out of range. -/
theorem findTracks_no_pieces_panics (P : Params R) (M : MathFn R) (tab : List (update R)) :
    (∀ bridges straights curves : Int,
      (findTracks P M tab bridges straights curves).err ≠ some .outOfFuel ∧
        (findTracks P M tab bridges straights curves).out.length
          ≤ 2 * 3 ^ (straights.toNat + curves.toNat)) ∧
      findTracks P M tab 0 0 0 = ⟨[⟨0, 0, 0, .Straight⟩], [], some .indexOutOfRange⟩ :=
  ⟨fun b s c => ⟨findTracks_fuel P M tab b s c, findTracks_out_le P M tab b s c⟩, rfl⟩

/-! ### The distance cut -/

/-- Placing a single piece: the part itself and the slot `Update` computes after it. -/
theorem place_single (P : Params R) (M : MathFn R) (tab : List (update R))
    (hN : 1 ≤ P.AngleN) (htab : initUpdateTab P M = .ok tab) (X Y : R) (A : Angle) (k : Kind)
    (h0 : (0 : Int) ≤ A) (h1 : A < P.AngleN) :
    place P tab X Y A [k] = .ok ([⟨X, Y, A, k⟩],
      ⟨X + (entry P M k A.toNat).x, Y + (entry P M k A.toNat).y,
        (A + (entry P M k A.toNat).a) % P.AngleN, .End⟩) := by
  rw [place, Update_eq P M tab (by omega) htab ⟨X, Y, A, k⟩ Part.zero h0 h1]
  rfl

/-- `AtSamePlaceAs` looks at the position and the heading of its receiver only. -/
theorem AtSamePlaceAs_congr (p p2 v : Part R) (hx : p.X = p2.X) (hy : p.Y = p2.Y)
    (ha : p.Angle = p2.Angle) : p.AtSamePlaceAs v = p2.AtSamePlaceAs v := by
  unfold Part.AtSamePlaceAs
  rw [hx, hy, ha]

/-- The first part of the path of a call of `r` at `pos`: the part at index `0` of the slice,
with the kind the call gives it when `pos = 0`. -/
theorem head_of_take (track : List (Part R)) (pos : Nat) (cur first : Part R) (kind : Kind)
    (hcur : track[pos]? = some cur) (hfirst : track[0]? = some first) :
    ((track.take pos ++ [(⟨cur.X, cur.Y, cur.Angle, kind⟩ : Part R)]).headD
        ⟨cur.X, cur.Y, cur.Angle, kind⟩).X = first.X ∧
      ((track.take pos ++ [(⟨cur.X, cur.Y, cur.Angle, kind⟩ : Part R)]).headD
        ⟨cur.X, cur.Y, cur.Angle, kind⟩).Y = first.Y ∧
      ((track.take pos ++ [(⟨cur.X, cur.Y, cur.Angle, kind⟩ : Part R)]).headD
        ⟨cur.X, cur.Y, cur.Angle, kind⟩).Angle = first.Angle := by
  cases track with
  | nil => simp at hfirst
  | cons a rest =>
    simp only [List.getElem?_cons_zero, Option.some.injEq] at hfirst
    subst hfirst
    cases pos with
    | zero =>
      simp only [List.getElem?_cons_zero, Option.some.injEq] at hcur
      subst hcur
      exact ⟨rfl, rfl, rfl⟩
    | succ n => exact ⟨rfl, rfl, rfl⟩

/-- No call of `r` discards a branch that has a closed completion (over exact reals): if
the pieces still to place (`s` `Straight`, `c` curves, the first curve of the track being
`Left`) can be chained from the slot of the call so that the loop closes at the first part,
which lies at the origin, then the call sends that track. -/
theorem r_complete (P : Params ℝ) (M : MathFn ℝ) (tab : List (update ℝ)) (hM : M.Exact)
    (hN : 1 ≤ P.AngleN) (hR : 0 ≤ P.Radius) (hS : 0 ≤ P.StraightLen)
    (htab : initUpdateTab P M = .ok tab) (curves n1 : Int) (fuel pos : Nat) (kind : Kind)
    (s c : Int) (track : List (Part ℝ)) (out : List (List (Part ℝ))) (cur first : Part ℝ)
    (ks : List Kind) (ps : List (Part ℝ)) (v : Part ℝ)
    (hs : 0 ≤ s) (hc : 0 ≤ c) (hle : c ≤ curves) (hfuel : s.toNat + c.toNat < fuel)
    (hlen : (track.length : Int) = pos + s + c + 2) (hn1 : n1 = (track.length : Int) - 1)
    (hcur : track[pos]? = some cur) (h0 : (0 : Int) ≤ cur.Angle) (h1 : cur.Angle < P.AngleN)
    (hfirst : track[0]? = some first) (hx : first.X = 0) (hy : first.Y = 0)
    (hk : KindsOK curves s c ks)
    (hp : place P tab cur.X cur.Y cur.Angle (kind :: ks) = .ok (ps, v))
    (hcl : first.AtSamePlaceAs v = true) :
    track.take pos ++ ps
      ∈ (r P M tab curves n1 (P.Radius * 2 * M.Sin (M.Pi / (P.AngleN : ℝ))) fuel pos kind s c
          track out).out := by
  have hsim := r_eq_dfs P M tab curves n1 (P.Radius * 2 * M.Sin (M.Pi / (P.AngleN : ℝ)))
    fuel pos kind s c track out (track.take pos) cur.X cur.Y cur.Angle hlen hn1 rfl
    (by
      intro x hxx
      rw [hcur] at hxx
      simp only [Option.some.injEq] at hxx
      rw [← hxx]
      exact ⟨rfl, rfl, rfl⟩)
  obtain ⟨hout, -, -⟩ := hsim
  rw [hout]
  refine List.mem_append_right _ ?_
  obtain ⟨e1, e2, e3⟩ := head_of_take track pos cur first kind hcur hfirst
  have herr := dfs_no_err P M tab curves (P.Radius * 2 * M.Sin (M.Pi / (P.AngleN : ℝ))) hN htab
    fuel (track.take pos) cur.X cur.Y cur.Angle kind s c hs hc hfuel h0 h1
  refine dfs_complete P M tab hM hN hR hS htab curves fuel (track.take pos) cur.X cur.Y
    cur.Angle kind s c ks ps v herr h0 h1 hle (by rw [e1, hx]) (by rw [e2, hy]) hk hp ?_
  rw [AtSamePlaceAs_congr _ first v e1 e2 e3]
  exact hcl

/-- What `r` does when its distance test holds at a call that is not the last one: it
returns with the two slots written, sends nothing and makes no recursive call. -/
theorem r_cut (P : Params R) (M : MathFn R) (tab : List (update R)) (curves n1 : Int)
    (curveLen : R) (fuel pos : Nat) (kind : Kind) (s c : Int) (track : List (Part R))
    (out : List (List (Part R))) (p0 target q : Part R) (h0 : track[pos]? = some p0)
    (h1 : (track.set pos { p0 with Kind := kind })[pos + 1]? = some target)
    (hU : Part.Update P tab { p0 with Kind := kind } target = .ok q) (hsc : ¬ (s = 0 ∧ c = 0))
    (hd : M.Sqrt (q.X * q.X + q.Y * q.Y) > (s : R) * P.StraightLen + (c : R) * curveLen + 1) :
    r P M tab curves n1 curveLen (fuel + 1) pos kind s c track out
      = ⟨(track.set pos { p0 with Kind := kind }).set (pos + 1) q, out, none⟩ := by
  rw [r, h0]
  simp only
  rw [h1]
  simp only
  rw [hU]
  simp only
  rw [if_neg hsc, if_pos hd]

/-- C15: over exact reals with `AngleN ≥ 1`, `Radius ≥ 0`, `StraightLen ≥ 0` and the table
of `initUpdateTab`.  (1) If the distance of `(X, Y)` from the origin exceeds
`s * StraightLen + c * curveLen + 1`, where `curveLen = Radius * 2 * sin(pi / AngleN)`, then
no sequence of exactly `s` `Straight` and `c` `Left`/`Right` pieces chained by `Update` from
`(X, Y)`, at any heading, ends in a trailing slot at the same place as a part at the origin.
(2) The closure `r` of `findTracks` cuts exactly on this test: when the test holds for the
slot it has just computed, the call returns without sending and without recursive call, and
by (1) no sequence of the remaining pieces chained from that slot closes at the origin.
(3) Conversely no call of `r` discards a branch that has a closed completion: whenever the
remaining pieces can be chained from the slot of the call so that the loop closes at the
first part of the slice, which lies at the origin, the call sends that track. -/
theorem distance_cut_sound (P : Params ℝ) (M : MathFn ℝ) (tab : List (update ℝ))
    (hM : M.Exact) (hN : 1 ≤ P.AngleN) (hR : 0 ≤ P.Radius) (hS : 0 ≤ P.StraightLen)
    (htab : initUpdateTab P M = .ok tab) :
    (∀ (s c : Int) (X Y : ℝ) (A : Angle) (ks : List Kind) (ps : List (Part ℝ))
        (v f : Part ℝ), (0 : Int) ≤ A → A < P.AngleN →
      M.Sqrt (X * X + Y * Y)
        > (s : ℝ) * P.StraightLen + (c : ℝ) * (P.Radius * 2 * M.Sin (M.Pi / (P.AngleN : ℝ)))
          + 1 →
      (∀ k ∈ ks, k = Kind.Straight ∨ k = Kind.Left ∨ k = Kind.Right) →
      (ks.count .Straight : Int) = s →
      (ks.count .Left : Int) + (ks.count .Right : Int) = c →
      place P tab X Y A ks = .ok (ps, v) → f.X = 0 → f.Y = 0 →
      f.AtSamePlaceAs v = false) ∧
    (∀ (curves n1 : Int) (fuel pos : Nat) (kind : Kind) (s c : Int) (track : List (Part ℝ))
        (out : List (List (Part ℝ))) (p0 target q : Part ℝ),
      track[pos]? = some p0 →
      (track.set pos { p0 with Kind := kind })[pos + 1]? = some target →
      Part.Update P tab { p0 with Kind := kind } target = .ok q → ¬ (s = 0 ∧ c = 0) →
      M.Sqrt (q.X * q.X + q.Y * q.Y)
        > (s : ℝ) * P.StraightLen + (c : ℝ) * (P.Radius * 2 * M.Sin (M.Pi / (P.AngleN : ℝ)))
          + 1 →
      r P M tab curves n1 (P.Radius * 2 * M.Sin (M.Pi / (P.AngleN : ℝ))) (fuel + 1) pos kind
          s c track out
        = ⟨(track.set pos { p0 with Kind := kind }).set (pos + 1) q, out, none⟩ ∧
      ∀ (ks : List Kind) (ps : List (Part ℝ)) (v f : Part ℝ),
        (∀ k ∈ ks, k = Kind.Straight ∨ k = Kind.Left ∨ k = Kind.Right) →
        (ks.count .Straight : Int) = s →
        (ks.count .Left : Int) + (ks.count .Right : Int) = c →
        place P tab q.X q.Y q.Angle ks = .ok (ps, v) → f.X = 0 → f.Y = 0 →
        f.AtSamePlaceAs v = false) ∧
    ∀ (curves n1 : Int) (fuel pos : Nat) (kind : Kind) (s c : Int) (track : List (Part ℝ))
        (out : List (List (Part ℝ))) (cur first : Part ℝ) (ks : List Kind)
        (ps : List (Part ℝ)) (v : Part ℝ),
      0 ≤ s → 0 ≤ c → c ≤ curves → s.toNat + c.toNat < fuel →
      (track.length : Int) = pos + s + c + 2 → n1 = (track.length : Int) - 1 →
      track[pos]? = some cur → (0 : Int) ≤ cur.Angle → cur.Angle < P.AngleN →
      track[0]? = some first → first.X = 0 → first.Y = 0 →
      KindsOK curves s c ks →
      place P tab cur.X cur.Y cur.Angle (kind :: ks) = .ok (ps, v) →
      first.AtSamePlaceAs v = true →
      track.take pos ++ ps
        ∈ (r P M tab curves n1 (P.Radius * 2 * M.Sin (M.Pi / (P.AngleN : ℝ))) fuel pos kind
            s c track out).out := by
  have far : ∀ (s c : Int) (X Y : ℝ) (A : Angle) (ks : List Kind) (ps : List (Part ℝ))
      (v f : Part ℝ), (0 : Int) ≤ A → A < P.AngleN →
      M.Sqrt (X * X + Y * Y)
        > (s : ℝ) * P.StraightLen + (c : ℝ) * (P.Radius * 2 * M.Sin (M.Pi / (P.AngleN : ℝ)))
          + 1 →
      (∀ k ∈ ks, k = Kind.Straight ∨ k = Kind.Left ∨ k = Kind.Right) →
      (ks.count .Straight : Int) = s →
      (ks.count .Left : Int) + (ks.count .Right : Int) = c →
      place P tab X Y A ks = .ok (ps, v) → f.X = 0 → f.Y = 0 →
      f.AtSamePlaceAs v = false := by
    intro s c X Y A ks ps v f h0 h1 hd hk hks hkc hp hx hy
    cases hcl : f.AtSamePlaceAs v with
    | false => rfl
    | true =>
      exfalso
      exact not_pruned P M tab hM hN hR hS htab ks X Y A ps v f (c + 1) s c h0 h1
        ⟨hks, hkc, hk, fun h => absurd h (by omega)⟩ hp hx hy hcl hd
  refine ⟨far, ?_, ?_⟩
  · intro curves n1 fuel pos kind s c track out p0 target q h0 h1 hU hsc hd
    refine ⟨r_cut P M tab curves n1 _ fuel pos kind s c track out p0 target q h0 h1 hU hsc hd,
      ?_⟩
    intro ks ps v f hk hks hkc hp hx hy
    obtain ⟨a0, a1⟩ := Update_angle_range P tab hN _ _ _ hU
    exact far s c q.X q.Y q.Angle ks ps v f a0 a1 hd hk hks hkc hp hx hy
  · intro curves n1 fuel pos kind s c track out cur first ks ps v hs hc hle hfuel hlen hn1
      hcur h0 h1 hfirst hx hy hk hp hcl
    exact r_complete P M tab hM hN hR hS htab curves n1 fuel pos kind s c track out cur first
      ks ps v hs hc hle hfuel hlen hn1 hcur h0 h1 hfirst hx hy hk hp hcl

/-! ### The transitions over exact reals -/

theorem Kind.toInt_injective (k1 k2 : Kind) (h : k1.toInt = k2.toInt) : k1 = k2 := by
  cases k1 <;> cases k2 <;> first | rfl | (exfalso; revert h; decide)

/-- The flattened index `kind * AngleN + a` determines the kind and the angle. -/
theorem index_injective (N : Int) (k1 k2 : Kind) (a1 a2 : Int) (h10 : 0 ≤ a1) (h11 : a1 < N)
    (h20 : 0 ≤ a2) (h21 : a2 < N) (h : k1.toInt * N + a1 = k2.toInt * N + a2) :
    k1 = k2 ∧ a1 = a2 := by
  have hk : k1.toInt = k2.toInt := by
    rcases lt_trichotomy k1.toInt k2.toInt with hlt | heq | hgt
    · exfalso
      have : (k1.toInt + 1) * N ≤ k2.toInt * N := Int.mul_le_mul_of_nonneg_right hlt (by omega)
      rw [add_mul] at this
      omega
    · exact heq
    · exfalso
      have : (k2.toInt + 1) * N ≤ k1.toInt * N := Int.mul_le_mul_of_nonneg_right hgt (by omega)
      rw [add_mul] at this
      omega
  refine ⟨Kind.toInt_injective k1 k2 hk, ?_⟩
  rw [hk] at h
  omega

/-- The result of `Update` over exact reals, by kind. -/
theorem Update_exact (P : Params ℝ) (M : MathFn ℝ) (tab : List (update ℝ)) (hM : M.Exact)
    (hN : 1 ≤ P.AngleN) (htab : initUpdateTab P M = .ok tab) (x y : ℝ) (a : Int)
    (target : Part ℝ) (h0 : 0 ≤ a) (h1 : a < P.AngleN) :
    (⟨x, y, a, .Straight⟩ : Part ℝ).Update P tab target
        = .ok ⟨x + P.StraightLen * Real.cos (2 * Real.pi * (a : ℝ) / (P.AngleN : ℝ)),
            y + P.StraightLen * Real.sin (2 * Real.pi * (a : ℝ) / (P.AngleN : ℝ)), a,
            target.Kind⟩ ∧
      (⟨x, y, a, .Bridge⟩ : Part ℝ).Update P tab target
        = .ok ⟨x + P.BridgeLen * Real.cos (2 * Real.pi * (a : ℝ) / (P.AngleN : ℝ)),
            y + P.BridgeLen * Real.sin (2 * Real.pi * (a : ℝ) / (P.AngleN : ℝ)), a,
            target.Kind⟩ ∧
      (⟨x, y, a, .Left⟩ : Part ℝ).Update P tab target
        = .ok ⟨x + 2 * P.Radius * Real.sin (Real.pi / (P.AngleN : ℝ))
              * Real.cos (2 * Real.pi * (a : ℝ) / (P.AngleN : ℝ) + Real.pi / (P.AngleN : ℝ)),
            y + 2 * P.Radius * Real.sin (Real.pi / (P.AngleN : ℝ))
              * Real.sin (2 * Real.pi * (a : ℝ) / (P.AngleN : ℝ) + Real.pi / (P.AngleN : ℝ)),
            (a + 1) % P.AngleN, target.Kind⟩ ∧
      (⟨x, y, a, .Right⟩ : Part ℝ).Update P tab target
        = .ok ⟨x + 2 * P.Radius * Real.sin (Real.pi / (P.AngleN : ℝ))
              * Real.cos (2 * Real.pi * (a : ℝ) / (P.AngleN : ℝ) - Real.pi / (P.AngleN : ℝ)),
            y + 2 * P.Radius * Real.sin (Real.pi / (P.AngleN : ℝ))
              * Real.sin (2 * Real.pi * (a : ℝ) / (P.AngleN : ℝ) - Real.pi / (P.AngleN : ℝ)),
            (a - 1) % P.AngleN, target.Kind⟩ := by
  obtain ⟨hpi, hsin, hcos, -⟩ := hM
  have hc : ((a.toNat : Int) : ℝ) = (a : ℝ) := by rw [Int.toNat_of_nonneg h0]
  have hm : (a + 0) % P.AngleN = a := by
    rw [add_zero]; exact Int.emod_eq_of_lt h0 h1
  refine ⟨?_, ?_, ?_, ?_⟩
  · rw [Update_eq P M tab (by omega) htab ⟨x, y, a, .Straight⟩ target h0 h1]
    simp only [entry, Angle.Rad, hpi, hsin, hcos, hc, hm]
    congr 2 <;> ring
  · rw [Update_eq P M tab (by omega) htab ⟨x, y, a, .Bridge⟩ target h0 h1]
    simp only [entry, Angle.Rad, hpi, hsin, hcos, hc, hm]
    congr 2 <;> ring
  · rw [Update_eq P M tab (by omega) htab ⟨x, y, a, .Left⟩ target h0 h1]
    simp only [entry, Angle.Rad, hpi, hsin, hcos, hc]
    congr 2 <;> ring
  · rw [Update_eq P M tab (by omega) htab ⟨x, y, a, .Right⟩ target h0 h1]
    simp only [entry, Angle.Rad, hpi, hsin, hcos, hc]
    congr 2 <;> ring

/-- C12: over exact reals, with `AngleN ≥ 1` and the table built by `initUpdateTab`, for
every heading `a` in `[0, AngleN)` and `theta = 2 * pi * a / AngleN`, `Update` on a part at
`(x, y)` with heading `a` gives its target: for `Straight` the position
`(x + StraightLen * cos theta, y + StraightLen * sin theta)` and the heading `a`; for `Bridge`
the same with `BridgeLen`; for `Left` the position `(x, y) + 2 * Radius * sin(pi / AngleN) *
(cos(theta + pi / AngleN), sin(theta + pi / AngleN))` and the heading `(a + 1) mod AngleN`;
for `Right` the same with `theta - pi / AngleN` and the heading `(a - 1) mod AngleN`.  The
index `kind * AngleN + a` is different for different pairs `(kind, a)` and addresses the entry
written for that pair.  From `(0, 0)` with heading `0` a `Straight` lands at
`(StraightLen, 0)` and a `Bridge` at `(BridgeLen, 0)`, which is `(1, 0)` and `(8, 0)` for the
default lengths. -/
theorem Update_transition_correct (P : Params ℝ) (M : MathFn ℝ) (tab : List (update ℝ))
    (hM : M.Exact) (hN : 1 ≤ P.AngleN) (htab : initUpdateTab P M = .ok tab) :
    (∀ (x y : ℝ) (a : Int) (target : Part ℝ), 0 ≤ a → a < P.AngleN →
      (⟨x, y, a, .Straight⟩ : Part ℝ).Update P tab target
          = .ok ⟨x + P.StraightLen * Real.cos (2 * Real.pi * (a : ℝ) / (P.AngleN : ℝ)),
              y + P.StraightLen * Real.sin (2 * Real.pi * (a : ℝ) / (P.AngleN : ℝ)), a,
              target.Kind⟩ ∧
        (⟨x, y, a, .Bridge⟩ : Part ℝ).Update P tab target
          = .ok ⟨x + P.BridgeLen * Real.cos (2 * Real.pi * (a : ℝ) / (P.AngleN : ℝ)),
              y + P.BridgeLen * Real.sin (2 * Real.pi * (a : ℝ) / (P.AngleN : ℝ)), a,
              target.Kind⟩ ∧
        (⟨x, y, a, .Left⟩ : Part ℝ).Update P tab target
          = .ok ⟨x + 2 * P.Radius * Real.sin (Real.pi / (P.AngleN : ℝ))
                * Real.cos (2 * Real.pi * (a : ℝ) / (P.AngleN : ℝ) + Real.pi / (P.AngleN : ℝ)),
              y + 2 * P.Radius * Real.sin (Real.pi / (P.AngleN : ℝ))
                * Real.sin (2 * Real.pi * (a : ℝ) / (P.AngleN : ℝ) + Real.pi / (P.AngleN : ℝ)),
              (a + 1) % P.AngleN, target.Kind⟩ ∧
        (⟨x, y, a, .Right⟩ : Part ℝ).Update P tab target
          = .ok ⟨x + 2 * P.Radius * Real.sin (Real.pi / (P.AngleN : ℝ))
                * Real.cos (2 * Real.pi * (a : ℝ) / (P.AngleN : ℝ) - Real.pi / (P.AngleN : ℝ)),
              y + 2 * P.Radius * Real.sin (Real.pi / (P.AngleN : ℝ))
                * Real.sin (2 * Real.pi * (a : ℝ) / (P.AngleN : ℝ) - Real.pi / (P.AngleN : ℝ)),
              (a - 1) % P.AngleN, target.Kind⟩) ∧
      (∀ (k1 k2 : Kind) (a1 a2 : Int), 0 ≤ a1 → a1 < P.AngleN → 0 ≤ a2 → a2 < P.AngleN →
        k1.toInt * P.AngleN + a1 = k2.toInt * P.AngleN + a2 → k1 = k2 ∧ a1 = a2) ∧
      (∀ (k : Kind) (a : Int), 0 ≤ a → a < P.AngleN →
        tab[(k.toInt * P.AngleN + a).toNat]? = some (entry P M k a.toNat)) ∧
      ∀ target : Part ℝ,
        (⟨0, 0, 0, .Straight⟩ : Part ℝ).Update P tab target
            = .ok ⟨P.StraightLen, 0, 0, target.Kind⟩ ∧
          (⟨0, 0, 0, .Bridge⟩ : Part ℝ).Update P tab target
            = .ok ⟨P.BridgeLen, 0, 0, target.Kind⟩ := by
  refine ⟨fun x y a target h0 h1 => Update_exact P M tab hM hN htab x y a target h0 h1,
    fun k1 k2 a1 a2 h10 h11 h20 h21 h => index_injective P.AngleN k1 k2 a1 a2 h10 h11 h20 h21 h,
    (initUpdateTab_get P M tab (by omega) htab).2, ?_⟩
  intro target
  obtain ⟨hs, hb, -, -⟩ := Update_exact P M tab hM hN htab 0 0 0 target (le_refl _) (by omega)
  rw [hs, hb]
  simp

/-! ### Runs of curves over exact reals -/

theorem angle_wrap (N : Int) (hN : 1 ≤ N) (m k : Int) :
    2 * Real.pi * ((m % N + k : Int) : ℝ) / (N : ℝ)
      = 2 * Real.pi * ((m + k : Int) : ℝ) / (N : ℝ) - ((m / N : Int) : ℝ) * (2 * Real.pi) := by
  have hNr : (N : ℝ) ≠ 0 := by
    have : (1 : ℝ) ≤ (N : ℝ) := by exact_mod_cast hN
    linarith
  have h1 : ((m % N : Int) : ℝ) = (m : ℝ) - (N : ℝ) * ((m / N : Int) : ℝ) := by
    have h2 : ((m % N + N * (m / N) : Int) : ℝ) = (m : ℝ) := by rw [Int.emod_add_ediv]
    push_cast at h2
    linarith
  push_cast
  rw [h1]
  field_simp
  ring

/-- The sine of a heading does not change when the heading is reduced modulo `AngleN`. -/
theorem sin_wrap (N : Int) (hN : 1 ≤ N) (m k : Int) :
    Real.sin (2 * Real.pi * ((m % N + k : Int) : ℝ) / (N : ℝ))
      = Real.sin (2 * Real.pi * ((m + k : Int) : ℝ) / (N : ℝ)) := by
  rw [angle_wrap N hN, Real.sin_sub_int_mul_two_pi]

/-- The cosine of a heading does not change when the heading is reduced modulo `AngleN`. -/
theorem cos_wrap (N : Int) (hN : 1 ≤ N) (m k : Int) :
    Real.cos (2 * Real.pi * ((m % N + k : Int) : ℝ) / (N : ℝ))
      = Real.cos (2 * Real.pi * ((m + k : Int) : ℝ) / (N : ℝ)) := by
  rw [angle_wrap N hN, Real.cos_sub_int_mul_two_pi]

theorem sin_wrap_zero (N : Int) (hN : 1 ≤ N) (m : Int) :
    Real.sin (2 * Real.pi * ((m % N : Int) : ℝ) / (N : ℝ))
      = Real.sin (2 * Real.pi * ((m : Int) : ℝ) / (N : ℝ)) := by
  have h := sin_wrap N hN m 0
  rw [add_zero, add_zero] at h
  exact h

theorem cos_wrap_zero (N : Int) (hN : 1 ≤ N) (m : Int) :
    Real.cos (2 * Real.pi * ((m % N : Int) : ℝ) / (N : ℝ))
      = Real.cos (2 * Real.pi * ((m : Int) : ℝ) / (N : ℝ)) := by
  have h := cos_wrap N hN m 0
  rw [add_zero, add_zero] at h
  exact h

theorem half_step (N : Int) (hN : 1 ≤ N) (a : Int) :
    2 * Real.pi * (a : ℝ) / (N : ℝ) + Real.pi / (N : ℝ) + Real.pi / (N : ℝ)
      = 2 * Real.pi * ((a + 1 : Int) : ℝ) / (N : ℝ) := by
  have hNr : (N : ℝ) ≠ 0 := by
    have : (1 : ℝ) ≤ (N : ℝ) := by exact_mod_cast hN
    linarith
  push_cast
  field_simp
  ring

/-- Over exact reals, `j` consecutive `Left` parts from `(X, Y)` with a heading `a` in
`[0, AngleN)` can always be placed, and they move the track along a circle of radius
`Radius`, turning the heading to `(a + j) mod AngleN`. -/
theorem place_lefts_wrap (P : Params ℝ) (M : MathFn ℝ) (tab : List (update ℝ)) (hM : M.Exact)
    (hN : 1 ≤ P.AngleN) (htab : initUpdateTab P M = .ok tab) :
    ∀ (j : Nat) (X Y : ℝ) (a : Int), 0 ≤ a → a < P.AngleN →
      ∃ ps v, place P tab X Y a (List.replicate j .Left) = .ok (ps, v) ∧
        v.X = X + P.Radius * (Real.sin (2 * Real.pi * ((a + (j : Int) : Int) : ℝ) / (P.AngleN : ℝ))
          - Real.sin (2 * Real.pi * ((a : Int) : ℝ) / (P.AngleN : ℝ))) ∧
        v.Y = Y + P.Radius * (Real.cos (2 * Real.pi * ((a : Int) : ℝ) / (P.AngleN : ℝ))
          - Real.cos (2 * Real.pi * ((a + (j : Int) : Int) : ℝ) / (P.AngleN : ℝ))) ∧
        v.Angle = (a + (j : Int)) % P.AngleN := by
  intro j
  induction j with
  | zero =>
    intro X Y a h0 h1
    refine ⟨[], ⟨X, Y, a, .End⟩, rfl, by simp, by simp, ?_⟩
    simp only [Nat.cast_zero, add_zero]
    exact (Int.emod_eq_of_lt h0 h1).symm
  | succ j ih =>
    intro X Y a h0 h1
    obtain ⟨-, -, hU, -⟩ := Update_exact P M tab hM hN htab X Y a Part.zero h0 h1
    obtain ⟨ps, v, hp, hx, hy, ha⟩ := ih
      (X + 2 * P.Radius * Real.sin (Real.pi / (P.AngleN : ℝ))
        * Real.cos (2 * Real.pi * (a : ℝ) / (P.AngleN : ℝ) + Real.pi / (P.AngleN : ℝ)))
      (Y + 2 * P.Radius * Real.sin (Real.pi / (P.AngleN : ℝ))
        * Real.sin (2 * Real.pi * (a : ℝ) / (P.AngleN : ℝ) + Real.pi / (P.AngleN : ℝ)))
      ((a + 1) % P.AngleN) (Int.emod_nonneg _ (by omega)) (Int.emod_lt_of_pos _ (by omega))
    refine ⟨⟨X, Y, a, .Left⟩ :: ps, v, ?_, ?_, ?_, ?_⟩
    · rw [List.replicate_succ, place, hU]
      simp only
      rw [hp]
    · rw [hx, sin_wrap P.AngleN hN (a + 1) j, sin_wrap_zero P.AngleN hN (a + 1)]
      have hc := chord_x P.Radius (2 * Real.pi * (a : ℝ) / (P.AngleN : ℝ))
        (Real.pi / (P.AngleN : ℝ))
      rw [half_step P.AngleN hN a] at hc
      have e1 : a + 1 + (j : Int) = a + ((j + 1 : Nat) : Int) := by push_cast; ring
      rw [e1]
      linear_combination hc
    · rw [hy, cos_wrap P.AngleN hN (a + 1) j, cos_wrap_zero P.AngleN hN (a + 1)]
      have hc := chord_y P.Radius (2 * Real.pi * (a : ℝ) / (P.AngleN : ℝ))
        (Real.pi / (P.AngleN : ℝ))
      rw [half_step P.AngleN hN a] at hc
      have e1 : a + 1 + (j : Int) = a + ((j + 1 : Nat) : Int) := by push_cast; ring
      rw [e1]
      linear_combination hc
    · rw [ha, Int.emod_add_emod]
      congr 1
      push_cast
      ring

theorem half_step_back (N : Int) (hN : 1 ≤ N) (a : Int) :
    2 * Real.pi * ((a - 1 : Int) : ℝ) / (N : ℝ) + Real.pi / (N : ℝ)
        = 2 * Real.pi * (a : ℝ) / (N : ℝ) - Real.pi / (N : ℝ) ∧
      2 * Real.pi * ((a - 1 : Int) : ℝ) / (N : ℝ) + Real.pi / (N : ℝ) + Real.pi / (N : ℝ)
        = 2 * Real.pi * (a : ℝ) / (N : ℝ) := by
  have hNr : (N : ℝ) ≠ 0 := by
    have : (1 : ℝ) ≤ (N : ℝ) := by exact_mod_cast hN
    linarith
  constructor
  · push_cast
    field_simp
    ring
  · push_cast
    field_simp
    ring

/-- Over exact reals, `j` consecutive `Right` parts from `(X, Y)` with a heading `a` in
`[0, AngleN)` can always be placed, and they move the track along a circle of radius
`Radius`, turning the heading to `(a - j) mod AngleN`. -/
theorem place_rights_wrap (P : Params ℝ) (M : MathFn ℝ) (tab : List (update ℝ)) (hM : M.Exact)
    (hN : 1 ≤ P.AngleN) (htab : initUpdateTab P M = .ok tab) :
    ∀ (j : Nat) (X Y : ℝ) (a : Int), 0 ≤ a → a < P.AngleN →
      ∃ ps v, place P tab X Y a (List.replicate j .Right) = .ok (ps, v) ∧
        v.X = X + P.Radius * (Real.sin (2 * Real.pi * ((a : Int) : ℝ) / (P.AngleN : ℝ))
          - Real.sin (2 * Real.pi * ((a + -(j : Int) : Int) : ℝ) / (P.AngleN : ℝ))) ∧
        v.Y = Y + P.Radius * (Real.cos (2 * Real.pi * ((a + -(j : Int) : Int) : ℝ) / (P.AngleN : ℝ))
          - Real.cos (2 * Real.pi * ((a : Int) : ℝ) / (P.AngleN : ℝ))) ∧
        v.Angle = (a + -(j : Int)) % P.AngleN := by
  intro j
  induction j with
  | zero =>
    intro X Y a h0 h1
    refine ⟨[], ⟨X, Y, a, .End⟩, rfl, by simp, by simp, ?_⟩
    simp only [Nat.cast_zero, neg_zero, add_zero]
    exact (Int.emod_eq_of_lt h0 h1).symm
  | succ j ih =>
    intro X Y a h0 h1
    obtain ⟨-, -, -, hU⟩ := Update_exact P M tab hM hN htab X Y a Part.zero h0 h1
    obtain ⟨ps, v, hp, hx, hy, ha⟩ := ih
      (X + 2 * P.Radius * Real.sin (Real.pi / (P.AngleN : ℝ))
        * Real.cos (2 * Real.pi * (a : ℝ) / (P.AngleN : ℝ) - Real.pi / (P.AngleN : ℝ)))
      (Y + 2 * P.Radius * Real.sin (Real.pi / (P.AngleN : ℝ))
        * Real.sin (2 * Real.pi * (a : ℝ) / (P.AngleN : ℝ) - Real.pi / (P.AngleN : ℝ)))
      ((a - 1) % P.AngleN) (Int.emod_nonneg _ (by omega)) (Int.emod_lt_of_pos _ (by omega))
    obtain ⟨hb1, hb2⟩ := half_step_back P.AngleN hN a
    have e1 : a - 1 + -(j : Int) = a + -((j + 1 : Nat) : Int) := by push_cast; ring
    refine ⟨⟨X, Y, a, .Right⟩ :: ps, v, ?_, ?_, ?_, ?_⟩
    · rw [List.replicate_succ, place, hU]
      simp only
      rw [hp]
    · rw [hx, sin_wrap P.AngleN hN (a - 1) (-(j : Int)), sin_wrap_zero P.AngleN hN (a - 1)]
      have hc := chord_x P.Radius (2 * Real.pi * ((a - 1 : Int) : ℝ) / (P.AngleN : ℝ))
        (Real.pi / (P.AngleN : ℝ))
      rw [hb2, hb1] at hc
      rw [e1]
      linear_combination hc
    · rw [hy, cos_wrap P.AngleN hN (a - 1) (-(j : Int)), cos_wrap_zero P.AngleN hN (a - 1)]
      have hc := chord_y P.Radius (2 * Real.pi * ((a - 1 : Int) : ℝ) / (P.AngleN : ℝ))
        (Real.pi / (P.AngleN : ℝ))
      rw [hb2, hb1] at hc
      rw [e1]
      linear_combination hc
    · rw [ha, Int.emod_add_emod, e1]

theorem full_turn (N : Int) (hN : 1 ≤ N) (a : Int) :
    2 * Real.pi * ((a + ((N.toNat : Nat) : Int) : Int) : ℝ) / (N : ℝ)
        = 2 * Real.pi * ((a : Int) : ℝ) / (N : ℝ) + 2 * Real.pi ∧
      2 * Real.pi * ((a + -((N.toNat : Nat) : Int) : Int) : ℝ) / (N : ℝ)
        = 2 * Real.pi * ((a : Int) : ℝ) / (N : ℝ) - 2 * Real.pi := by
  have hNr : (N : ℝ) ≠ 0 := by
    have : (1 : ℝ) ≤ (N : ℝ) := by exact_mod_cast hN
    linarith
  rw [Int.toNat_of_nonneg (by omega)]
  constructor
  · push_cast
    field_simp
    ring
  · push_cast
    field_simp
    ring

/-- C13: over exact reals, for every `AngleN ≥ 1`, every `Radius`, every start position and
every start heading in `[0, AngleN)`, chaining `AngleN` consecutive `Left` pieces by `Update`
succeeds and the slot after the last piece is the start position with the start heading; and
likewise for `AngleN` consecutive `Right` pieces. -/
theorem full_circle_closes (P : Params ℝ) (M : MathFn ℝ) (tab : List (update ℝ))
    (hM : M.Exact) (hN : 1 ≤ P.AngleN) (htab : initUpdateTab P M = .ok tab) (X Y : ℝ)
    (a : Int) (h0 : 0 ≤ a) (h1 : a < P.AngleN) :
    (∃ ps v, place P tab X Y a (List.replicate P.AngleN.toNat .Left) = .ok (ps, v) ∧
        v.X = X ∧ v.Y = Y ∧ v.Angle = a) ∧
      ∃ ps v, place P tab X Y a (List.replicate P.AngleN.toNat .Right) = .ok (ps, v) ∧
        v.X = X ∧ v.Y = Y ∧ v.Angle = a := by
  obtain ⟨ft1, ft2⟩ := full_turn P.AngleN hN a
  have hn : ((P.AngleN.toNat : Nat) : Int) = P.AngleN := Int.toNat_of_nonneg (by omega)
  constructor
  · obtain ⟨ps, v, hp, hx, hy, ha⟩ :=
      place_lefts_wrap P M tab hM hN htab P.AngleN.toNat X Y a h0 h1
    refine ⟨ps, v, hp, ?_, ?_, ?_⟩
    · rw [hx, ft1, Real.sin_add_two_pi]; ring
    · rw [hy, ft1, Real.cos_add_two_pi]; ring
    · rw [ha, hn, Int.add_emod_self]; exact Int.emod_eq_of_lt h0 h1
  · obtain ⟨ps, v, hp, hx, hy, ha⟩ :=
      place_rights_wrap P M tab hM hN htab P.AngleN.toNat X Y a h0 h1
    refine ⟨ps, v, hp, ?_, ?_, ?_⟩
    · rw [hx, ft2, Real.sin_sub_two_pi]; ring
    · rw [hy, ft2, Real.cos_sub_two_pi]; ring
    · rw [ha, hn]
      have : (a + -P.AngleN) % P.AngleN = a % P.AngleN := by
        rw [show a + -P.AngleN = a + P.AngleN * (-1) by ring, Int.add_mul_emod_self_left]
      rw [this]; exact Int.emod_eq_of_lt h0 h1

/-! ### Mirror symmetry -/

theorem neg_emod_emod (m N : Int) : (-(m % N)) % N = (-m) % N := by
  have h : -(m % N) = -m + N * (m / N) := by
    have := Int.emod_add_ediv m N
    omega
  rw [h, Int.add_mul_emod_self_left]

/-- The radian value of the mirrored heading `(-A) mod AngleN` is minus the radian value of
`A`, up to full turns. -/
theorem mirror_angle (N : Int) (hN : 1 ≤ N) (A : Int) :
    ∃ q : Int, 2 * Real.pi * (((-A) % N : Int) : ℝ) / (N : ℝ)
      = -(2 * Real.pi * (A : ℝ) / (N : ℝ)) - (q : ℝ) * (2 * Real.pi) := by
  refine ⟨(-A) / N, ?_⟩
  have h := angle_wrap N hN (-A) 0
  rw [add_zero, add_zero] at h
  rw [h]
  push_cast
  ring

theorem trig_mirror (th be : ℝ) (q : Int) :
    Real.cos (-th - (q : ℝ) * (2 * Real.pi) + be) = Real.cos (th - be) ∧
      Real.sin (-th - (q : ℝ) * (2 * Real.pi) + be) = -Real.sin (th - be) ∧
      Real.cos (-th - (q : ℝ) * (2 * Real.pi) - be) = Real.cos (th + be) ∧
      Real.sin (-th - (q : ℝ) * (2 * Real.pi) - be) = -Real.sin (th + be) ∧
      Real.cos (-th - (q : ℝ) * (2 * Real.pi)) = Real.cos th ∧
      Real.sin (-th - (q : ℝ) * (2 * Real.pi)) = -Real.sin th := by
  refine ⟨?_, ?_, ?_, ?_, ?_, ?_⟩
  · rw [show -th - (q : ℝ) * (2 * Real.pi) + be = -(th - be) - (q : ℝ) * (2 * Real.pi) by ring,
      Real.cos_sub_int_mul_two_pi, Real.cos_neg]
  · rw [show -th - (q : ℝ) * (2 * Real.pi) + be = -(th - be) - (q : ℝ) * (2 * Real.pi) by ring,
      Real.sin_sub_int_mul_two_pi, Real.sin_neg]
  · rw [show -th - (q : ℝ) * (2 * Real.pi) - be = -(th + be) - (q : ℝ) * (2 * Real.pi) by ring,
      Real.cos_sub_int_mul_two_pi, Real.cos_neg]
  · rw [show -th - (q : ℝ) * (2 * Real.pi) - be = -(th + be) - (q : ℝ) * (2 * Real.pi) by ring,
      Real.sin_sub_int_mul_two_pi, Real.sin_neg]
  · rw [Real.cos_sub_int_mul_two_pi, Real.cos_neg]
  · rw [Real.sin_sub_int_mul_two_pi, Real.sin_neg]

/-- The table entry of the mirrored kind at the mirrored heading is the mirror image of the
entry of the kind at the heading: same `x`, opposite `y`, opposite turn. -/
theorem entry_mirror (P : Params ℝ) (M : MathFn ℝ) (hM : M.Exact) (hN : 1 ≤ P.AngleN)
    (k : Kind) (A : Int) (h0 : 0 ≤ A) :
    (entry P M k.mirror ((-A) % P.AngleN).toNat).x = (entry P M k A.toNat).x ∧
      (entry P M k.mirror ((-A) % P.AngleN).toNat).y = -(entry P M k A.toNat).y ∧
      (entry P M k.mirror ((-A) % P.AngleN).toNat).a = -(entry P M k A.toNat).a := by
  obtain ⟨hpi, hsin, hcos, -⟩ := hM
  obtain ⟨q, hq⟩ := mirror_angle P.AngleN hN A
  have hc : ((A.toNat : Int) : ℝ) = (A : ℝ) := by rw [Int.toNat_of_nonneg h0]
  have hc2 : (((((-A) % P.AngleN).toNat : Nat) : Int) : ℝ) = (((-A) % P.AngleN : Int) : ℝ) := by
    rw [Int.toNat_of_nonneg (Int.emod_nonneg _ (by omega))]
  obtain ⟨t1, t2, t3, t4, t5, t6⟩ := trig_mirror (2 * Real.pi * (A : ℝ) / (P.AngleN : ℝ))
    (Real.pi / (P.AngleN : ℝ)) q
  cases k
  · simp [entry, Kind.mirror, update.zero]
  · simp only [entry, Kind.mirror, Angle.Rad, hpi, hsin, hcos, hc, hc2, hq, t5, t6]
    refine ⟨?_, ?_, ?_⟩ <;> first | trivial | ring
  · simp only [entry, Kind.mirror, Angle.Rad, hpi, hsin, hcos, hc, hc2, hq, t5, t6]
    refine ⟨?_, ?_, ?_⟩ <;> first | trivial | ring
  · simp only [entry, Kind.mirror, Angle.Rad, hpi, hsin, hcos, hc, hc2, hq, t3, t4]
    refine ⟨?_, ?_, ?_⟩ <;> first | trivial | ring
  · simp only [entry, Kind.mirror, Angle.Rad, hpi, hsin, hcos, hc, hc2, hq, t1, t2]
    refine ⟨?_, ?_, ?_⟩ <;> first | trivial | ring

/-- Mirror symmetry of chaining by `Update`: placing the mirrored kinds from the mirrored
heading gives the mirrored displacement and the mirrored end heading. -/
theorem place_mirror (P : Params ℝ) (M : MathFn ℝ) (tab : List (update ℝ)) (hM : M.Exact)
    (hN : 1 ≤ P.AngleN) (htab : initUpdateTab P M = .ok tab) :
    ∀ (ks : List Kind) (X Y X2 Y2 : ℝ) (A : Int) (ps : List (Part ℝ)) (v : Part ℝ),
      0 ≤ A → A < P.AngleN → place P tab X Y A ks = .ok (ps, v) →
      ∃ ps2 v2, place P tab X2 Y2 ((-A) % P.AngleN) (ks.map Kind.mirror) = .ok (ps2, v2) ∧
        v2.X - X2 = v.X - X ∧ v2.Y - Y2 = -(v.Y - Y) ∧
        v2.Angle = (-v.Angle) % P.AngleN := by
  intro ks
  induction ks with
  | nil =>
    intro X Y X2 Y2 A ps v _ _ h
    simp only [place, Except.ok.injEq, Prod.mk.injEq] at h
    refine ⟨[], ⟨X2, Y2, (-A) % P.AngleN, .End⟩, rfl, ?_, ?_, ?_⟩
    · rw [← h.2]; simp
    · rw [← h.2]; simp
    · rw [← h.2]
  | cons k ks ih =>
    intro X Y X2 Y2 A ps v h0 h1 h
    have hA0 : 0 ≤ (-A) % P.AngleN := Int.emod_nonneg _ (by omega)
    have hA1 : (-A) % P.AngleN < P.AngleN := Int.emod_lt_of_pos _ (by omega)
    obtain ⟨ex, ey, ea⟩ := entry_mirror P M hM hN k A h0
    rw [place, Update_eq P M tab (by omega) htab ⟨X, Y, A, k⟩ Part.zero h0 h1] at h
    simp only at h
    split at h
    · cases h
    · rename_i ps1 v1 hp
      simp only [Except.ok.injEq, Prod.mk.injEq] at h
      obtain ⟨ps2, v2, hp2, hx2, hy2, ha2⟩ := ih _ _
        (X2 + (entry P M k.mirror ((-A) % P.AngleN).toNat).x)
        (Y2 + (entry P M k.mirror ((-A) % P.AngleN).toNat).y) _ ps1 v1
        (Int.emod_nonneg _ (by omega)) (Int.emod_lt_of_pos _ (by omega)) hp
      have hhead : ((-A) % P.AngleN + (entry P M k.mirror ((-A) % P.AngleN).toNat).a)
          % P.AngleN = (-((A + (entry P M k A.toNat).a) % P.AngleN)) % P.AngleN := by
        rw [ea, Int.emod_add_emod, neg_emod_emod]
        congr 1
        ring
      refine ⟨⟨X2, Y2, (-A) % P.AngleN, k.mirror⟩ :: ps2, v2, ?_, ?_, ?_, ?_⟩
      · rw [List.map_cons, place,
          Update_eq P M tab (by omega) htab ⟨X2, Y2, (-A) % P.AngleN, k.mirror⟩ Part.zero hA0 hA1]
        simp only
        rw [hhead, hp2]
      · rw [← h.2]
        rw [ex] at hx2
        linarith
      · rw [← h.2]
        rw [ey] at hy2
        linarith
      · rw [← h.2]
        exact ha2

/-- C17: over exact reals, for every `AngleN ≥ 1` and every sequence of piece kinds: if
chaining the sequence by `Update` from `(0, 0)` with heading `0` ends in a slot at `(x, y)`
with heading `a`, then chaining the sequence with `Left` and `Right` exchanged ends at
`(x, -y)` with heading `(-a) mod AngleN`. -/
theorem Update_chain_mirror (P : Params ℝ) (M : MathFn ℝ) (tab : List (update ℝ))
    (hM : M.Exact) (hN : 1 ≤ P.AngleN) (htab : initUpdateTab P M = .ok tab) (ks : List Kind)
    (ps : List (Part ℝ)) (v : Part ℝ) (h : place P tab 0 0 0 ks = .ok (ps, v)) :
    ∃ ps2 v2, place P tab 0 0 0 (ks.map Kind.mirror) = .ok (ps2, v2) ∧
      v2.X = v.X ∧ v2.Y = -v.Y ∧ v2.Angle = (-v.Angle) % P.AngleN := by
  obtain ⟨ps2, v2, hp, hx, hy, ha⟩ :=
    place_mirror P M tab hM hN htab ks 0 0 0 0 0 ps v (le_refl _) (by omega) h
  have hz : (-(0 : Int)) % P.AngleN = 0 := by simp
  rw [hz] at hp
  exact ⟨ps2, v2, hp, by linarith, by linarith, ha⟩

/-- Chaining `ks1 ++ ks2` is chaining `ks1` and then `ks2` from the slot `ks1` ends in. -/
theorem place_append (P : Params R) (tab : List (update R)) :
    ∀ (ks1 ks2 : List Kind) (X Y : R) (A : Angle) (ps1 ps2 : List (Part R)) (v1 v2 : Part R),
      place P tab X Y A ks1 = .ok (ps1, v1) →
      place P tab v1.X v1.Y v1.Angle ks2 = .ok (ps2, v2) →
      place P tab X Y A (ks1 ++ ks2) = .ok (ps1 ++ ps2, v2) := by
  intro ks1
  induction ks1 with
  | nil =>
    intro ks2 X Y A ps1 ps2 v1 v2 h1 h2
    simp only [place, Except.ok.injEq, Prod.mk.injEq] at h1
    obtain ⟨e1, e2⟩ := h1
    subst e1 e2
    simpa using h2
  | cons k ks ih =>
    intro ks2 X Y A ps1 ps2 v1 v2 h1 h2
    rw [place] at h1
    rw [List.cons_append, place]
    split at h1
    · cases h1
    · rename_i q hq
      split at h1
      · cases h1
      · rename_i ps v hp
        simp only [Except.ok.injEq, Prod.mk.injEq] at h1
        rw [← h1.2] at h2
        rw [ih ks2 _ _ _ ps ps2 v v2 hp h2, ← h1.1]
        rfl

/-- With the default parameters, six `Left` and then six `Right` pieces from `(0, 0)` with
heading `0` end at `(0, 8)` with heading `0` (a row of `TestUpdate`). -/
theorem six_left_six_right :
    ∃ ps v, place (⟨12, 2, 8, 1⟩ : Params ℝ)
        (tableOf ⟨12, 2, 8, 1⟩ ⟨Real.pi, Real.sin, Real.cos, Real.sqrt⟩) 0 0 0
        (List.replicate 6 .Left ++ List.replicate 6 .Right) = .ok (ps, v) ∧
      v.X = 0 ∧ v.Y = 8 ∧ v.Angle = 0 := by
  have hM : (⟨Real.pi, Real.sin, Real.cos, Real.sqrt⟩ : MathFn ℝ).Exact := ⟨rfl, rfl, rfl, rfl⟩
  have htab := initUpdateTab_ok (⟨12, 2, 8, 1⟩ : Params ℝ)
    ⟨Real.pi, Real.sin, Real.cos, Real.sqrt⟩ (by decide)
  obtain ⟨ps1, v1, hp1, hx1, hy1, ha1⟩ :=
    place_lefts_wrap _ _ _ hM (by decide) htab 6 0 0 0 (le_refl _) (by decide)
  have ha1' : v1.Angle = 6 := by rw [ha1]; rfl
  obtain ⟨ps2, v2, hp2, hx2, hy2, ha2⟩ :=
    place_rights_wrap _ _ _ hM (by decide) htab 6 v1.X v1.Y 6 (by decide) (by decide)
  rw [← ha1'] at hp2
  refine ⟨ps1 ++ ps2, v2, place_append _ _ _ _ _ _ _ _ _ v1 v2 hp1 hp2, ?_, ?_, ?_⟩
  · rw [hx2, hx1]
    dsimp only
    push_cast
    rw [show 2 * Real.pi * 6 / 12 = Real.pi by ring, show 2 * Real.pi * 0 / 12 = 0 by ring,
      Real.sin_pi, Real.sin_zero]
    norm_num
  · rw [hy2, hy1]
    dsimp only
    push_cast
    rw [show 2 * Real.pi * 6 / 12 = Real.pi by ring, show 2 * Real.pi * 0 / 12 = 0 by ring,
      Real.cos_pi, Real.cos_zero]
    norm_num
  · rw [ha2]; rfl

/-! ### The test helper `updateChain` -/

theorem getElem?_mid (pre : List (Part R)) (cur : Part R) (rest : List (Part R)) :
    (pre ++ cur :: rest)[pre.length]? = some cur := by
  rw [List.getElem?_append_right (le_refl _)]
  simp

theorem set_mid (pre : List (Part R)) (cur x : Part R) (rest : List (Part R)) :
    (pre ++ cur :: rest).set pre.length x = pre ++ x :: rest := by
  simp

/-- The loop of `updateChain`, started at the index `pre.length` on a slice whose slots
behind that index are still zero, chains the pieces by `Update` as `place` does; the last
piece only gets its kind. -/
theorem updateChainLoop_eq (P : Params R) (tab : List (update R)) (kl : Kind) :
    ∀ (ks : List Kind) (pre : List (Part R)) (cur : Part R),
      updateChainLoop P tab (pre.length + 1 + ks.length) pre.length (ks ++ [kl])
          (pre ++ cur :: List.replicate ks.length Part.zero)
        = match place P tab cur.X cur.Y cur.Angle ks with
          | .error e => .error e
          | .ok (ps, v) => .ok (pre ++ ps ++ [{ v with Kind := kl }]) := by
  intro ks
  induction ks with
  | nil =>
    intro pre cur
    simp only [List.nil_append, List.length_nil, List.replicate_zero, add_zero, place]
    rw [updateChainLoop, getElem?_mid]
    simp only [set_mid, lt_irrefl, if_false, updateChainLoop, List.append_nil]
  | cons k ks ih =>
    intro pre cur
    rw [List.cons_append, updateChainLoop, getElem?_mid]
    simp only [set_mid, List.length_cons, List.replicate_succ]
    rw [if_pos (by omega)]
    have h1 : (pre ++ ({ cur with Kind := k } : Part R) :: Part.zero ::
        List.replicate ks.length Part.zero)[pre.length + 1]? = some Part.zero := by
      have := getElem?_mid (pre ++ [({ cur with Kind := k } : Part R)]) Part.zero
        (List.replicate ks.length Part.zero)
      simpa using this
    rw [h1, place]
    simp only
    cases hU : Part.Update P tab ⟨cur.X, cur.Y, cur.Angle, k⟩ Part.zero with
    | error e => rfl
    | ok q =>
      simp only
      have h2 : (pre ++ ({ cur with Kind := k } : Part R) :: Part.zero ::
          List.replicate ks.length Part.zero).set (pre.length + 1) q
          = (pre ++ [({ cur with Kind := k } : Part R)]) ++ q ::
            List.replicate ks.length Part.zero := by
        simp
      have h3 := ih (pre ++ [({ cur with Kind := k } : Part R)]) q
      simp only [List.length_append, List.length_singleton] at h3
      rw [h2, show pre.length + 1 + (ks.length + 1) = pre.length + 1 + 1 + ks.length by omega, h3]
      cases place P tab q.X q.Y q.Angle ks with
      | error e => rfl
      | ok r => simp

/-- The test helper `updateChain` on the pieces `ks` followed by a last piece `kl` returns
the parts `place` computes for `ks` from `(0, 0)` with heading `0`, followed by the slot
after them with the kind `kl`. -/
theorem updateChain_eq_place (P : Params R) (tab : List (update R)) (ks : List Kind)
    (kl : Kind) :
    updateChain P tab (ks ++ [kl])
      = match place P tab 0 0 0 ks with
        | .error e => .error e
        | .ok (ps, v) => .ok (ps ++ [{ v with Kind := kl }]) := by
  have h := updateChainLoop_eq P tab kl ks [] Part.zero
  simp only [List.length_nil, List.nil_append, zero_add] at h
  unfold updateChain
  rw [List.length_append, List.length_singleton, List.replicate_succ,
    show ks.length + 1 = 1 + ks.length by omega]
  exact h

/-- The first two rows of `TestUpdate` over exact reals: `updateChain` on `Straight, End`
ends with a part at `(1, 0)` with heading `0`, and on `Bridge, End` with a part at `(8, 0)`
with heading `0`. -/
theorem updateChain_straight_bridge :
    updateChain (⟨12, 2, 8, 1⟩ : Params ℝ)
        (tableOf ⟨12, 2, 8, 1⟩ ⟨Real.pi, Real.sin, Real.cos, Real.sqrt⟩) [.Straight, .End]
        = .ok [⟨0, 0, 0, .Straight⟩, ⟨1, 0, 0, .End⟩] ∧
      updateChain (⟨12, 2, 8, 1⟩ : Params ℝ)
        (tableOf ⟨12, 2, 8, 1⟩ ⟨Real.pi, Real.sin, Real.cos, Real.sqrt⟩) [.Bridge, .End]
        = .ok [⟨0, 0, 0, .Bridge⟩, ⟨8, 0, 0, .End⟩] := by
  have htab := initUpdateTab_ok (⟨12, 2, 8, 1⟩ : Params ℝ)
    ⟨Real.pi, Real.sin, Real.cos, Real.sqrt⟩ (by decide)
  have hs := updateChain_eq_place (⟨12, 2, 8, 1⟩ : Params ℝ)
    (tableOf ⟨12, 2, 8, 1⟩ ⟨Real.pi, Real.sin, Real.cos, Real.sqrt⟩) [.Straight] .End
  have hb := updateChain_eq_place (⟨12, 2, 8, 1⟩ : Params ℝ)
    (tableOf ⟨12, 2, 8, 1⟩ ⟨Real.pi, Real.sin, Real.cos, Real.sqrt⟩) [.Bridge] .End
  rw [place_single _ _ _ (by decide) htab 0 0 0 .Straight (le_refl _) (by decide)] at hs
  rw [place_single _ _ _ (by decide) htab 0 0 0 .Bridge (le_refl _) (by decide)] at hb
  constructor
  · rw [show ([.Straight, .End] : List Kind) = [.Straight] ++ [.End] from rfl, hs]
    simp [entry, Angle.Rad]
  · rw [show ([.Bridge, .End] : List Kind) = [.Bridge] ++ [.End] from rfl, hb]
    simp [entry, Angle.Rad]

/-! ### Concrete calls for the distance cut -/

/-- Over exact reals a `Straight` with heading `0` moves the track by `StraightLen` along
the `x` axis. -/
theorem Update_straight_zero (P : Params ℝ) (M : MathFn ℝ) (tab : List (update ℝ))
    (hM : M.Exact) (hN : 1 ≤ P.AngleN) (htab : initUpdateTab P M = .ok tab) (x y : ℝ)
    (target : Part ℝ) :
    (⟨x, y, 0, .Straight⟩ : Part ℝ).Update P tab target
      = .ok ⟨x + P.StraightLen, y, 0, target.Kind⟩ := by
  obtain ⟨h, -, -, -⟩ := Update_exact P M tab hM hN htab x y 0 target (le_refl _) (by omega)
  rw [h]
  simp

/-- Placing one `Straight` with heading `0`. -/
theorem place_straight_zero (P : Params ℝ) (M : MathFn ℝ) (tab : List (update ℝ))
    (hM : M.Exact) (hN : 1 ≤ P.AngleN) (htab : initUpdateTab P M = .ok tab) (x y : ℝ) :
    place P tab x y 0 [.Straight]
      = .ok ([⟨x, y, 0, .Straight⟩], ⟨x + P.StraightLen, y, 0, .End⟩) := by
  rw [place, Update_straight_zero P M tab hM hN htab x y Part.zero]
  rfl

/-- With `AngleN = 2` and `Radius = 2`, two `Left` parts from the origin close the loop. -/
theorem two_lefts_close :
    ∃ ps v, place (⟨2, 2, 8, 1⟩ : Params ℝ)
        (tableOf ⟨2, 2, 8, 1⟩ ⟨Real.pi, Real.sin, Real.cos, Real.sqrt⟩) 0 0 0 [.Left, .Left]
        = .ok (ps, v) ∧ (Part.zero : Part ℝ).AtSamePlaceAs v = true := by
  have hM : (⟨Real.pi, Real.sin, Real.cos, Real.sqrt⟩ : MathFn ℝ).Exact := ⟨rfl, rfl, rfl, rfl⟩
  have htab := initUpdateTab_ok (⟨2, 2, 8, 1⟩ : Params ℝ)
    ⟨Real.pi, Real.sin, Real.cos, Real.sqrt⟩ (by decide)
  obtain ⟨ps, v, hp, hx, hy, ha⟩ :=
    place_lefts_wrap _ _ _ hM (by decide) htab 2 0 0 0 (le_refl _) (by decide)
  refine ⟨ps, v, hp, ?_⟩
  have hx0 : v.X = 0 := by
    rw [hx]
    dsimp only
    push_cast
    rw [show 2 * Real.pi * 2 / 2 = 0 + 2 * Real.pi by ring,
      show 2 * Real.pi * 0 / 2 = 0 by ring, Real.sin_add_two_pi]
    simp
  have hy0 : v.Y = 0 := by
    rw [hy]
    dsimp only
    push_cast
    rw [show 2 * Real.pi * 2 / 2 = 0 + 2 * Real.pi by ring,
      show 2 * Real.pi * 0 / 2 = 0 by ring, Real.cos_add_two_pi]
    simp
  have ha0 : v.Angle = 0 := by rw [ha]; rfl
  unfold Part.AtSamePlaceAs
  simp [Part.zero, hx0, hy0, ha0]

/-! ### The bounding box -/

theorem foldl_min_spec {α : Type} (f : α → R) (t : List α) :
    ∀ m0 : R, t.foldl (fun m p => min m (f p)) m0 ≤ m0 ∧
      (∀ p ∈ t, t.foldl (fun m p => min m (f p)) m0 ≤ f p) ∧
      (t.foldl (fun m p => min m (f p)) m0 = m0 ∨
        ∃ p ∈ t, f p = t.foldl (fun m p => min m (f p)) m0) := by
  induction t with
  | nil => intro m0; exact ⟨le_refl _, by simp, Or.inl rfl⟩
  | cons a t ih =>
    intro m0
    obtain ⟨h1, h2, h3⟩ := ih (min m0 (f a))
    simp only [List.foldl_cons]
    refine ⟨le_trans h1 (min_le_left _ _), ?_, ?_⟩
    · intro p hp
      rcases List.mem_cons.1 hp with rfl | hp
      · exact le_trans h1 (min_le_right _ _)
      · exact h2 p hp
    · rcases h3 with h3 | ⟨p, hp, hpe⟩
      · rcases min_choice m0 (f a) with hm | hm
        · exact Or.inl (by rw [h3, hm])
        · exact Or.inr ⟨a, List.mem_cons_self _ _, by rw [h3, hm]⟩
      · exact Or.inr ⟨p, List.mem_cons_of_mem _ hp, hpe⟩

theorem foldl_max_spec {α : Type} (f : α → R) (t : List α) :
    ∀ m0 : R, m0 ≤ t.foldl (fun m p => max m (f p)) m0 ∧
      (∀ p ∈ t, f p ≤ t.foldl (fun m p => max m (f p)) m0) ∧
      (t.foldl (fun m p => max m (f p)) m0 = m0 ∨
        ∃ p ∈ t, f p = t.foldl (fun m p => max m (f p)) m0) := by
  induction t with
  | nil => intro m0; exact ⟨le_refl _, by simp, Or.inl rfl⟩
  | cons a t ih =>
    intro m0
    obtain ⟨h1, h2, h3⟩ := ih (max m0 (f a))
    simp only [List.foldl_cons]
    refine ⟨le_trans (le_max_left _ _) h1, ?_, ?_⟩
    · intro p hp
      rcases List.mem_cons.1 hp with rfl | hp
      · exact le_trans (le_max_right _ _) h1
      · exact h2 p hp
    · rcases h3 with h3 | ⟨p, hp, hpe⟩
      · rcases max_choice m0 (f a) with hm | hm
        · exact Or.inl (by rw [h3, hm])
        · exact Or.inr ⟨a, List.mem_cons_self _ _, by rw [h3, hm]⟩
      · exact Or.inr ⟨p, List.mem_cons_of_mem _ hp, hpe⟩

/-- The result of `trackBounds` is the bounding box of the parts together with a part at
the origin. -/
theorem trackBounds_with_origin (t : List (Part R)) (o : Part R) (hx : o.X = 0)
    (hy : o.Y = 0) : IsBoundingBox (o :: t) (trackBounds t) := by
  rw [trackBounds_eq]
  obtain ⟨a1, a2, a3⟩ := foldl_min_spec (fun p : Part R => p.X) t 0
  obtain ⟨b1, b2, b3⟩ := foldl_min_spec (fun p : Part R => p.Y) t 0
  obtain ⟨c1, c2, c3⟩ := foldl_max_spec (fun p : Part R => p.X) t 0
  obtain ⟨d1, d2, d3⟩ := foldl_max_spec (fun p : Part R => p.Y) t 0
  refine ⟨?_, ?_, ?_, ?_, ?_⟩
  · intro p hp
    rcases List.mem_cons.1 hp with rfl | hp
    · exact ⟨by rw [hx]; exact a1, by rw [hy]; exact b1, by rw [hx]; exact c1,
        by rw [hy]; exact d1⟩
    · exact ⟨a2 p hp, b2 p hp, c2 p hp, d2 p hp⟩
  · rcases a3 with h | ⟨p, hp, hpe⟩
    · exact ⟨o, List.mem_cons_self _ _, by rw [hx]; exact h.symm⟩
    · exact ⟨p, List.mem_cons_of_mem _ hp, hpe⟩
  · rcases b3 with h | ⟨p, hp, hpe⟩
    · exact ⟨o, List.mem_cons_self _ _, by rw [hy]; exact h.symm⟩
    · exact ⟨p, List.mem_cons_of_mem _ hp, hpe⟩
  · rcases c3 with h | ⟨p, hp, hpe⟩
    · exact ⟨o, List.mem_cons_self _ _, by rw [hx]; exact h.symm⟩
    · exact ⟨p, List.mem_cons_of_mem _ hp, hpe⟩
  · rcases d3 with h | ⟨p, hp, hpe⟩
    · exact ⟨o, List.mem_cons_self _ _, by rw [hy]; exact h.symm⟩
    · exact ⟨p, List.mem_cons_of_mem _ hp, hpe⟩

theorem IsBoundingBox.of_cons_mem {t : List (Part R)} {o : Part R} {b : R × R × R × R}
    (ho : o ∈ t) (h : IsBoundingBox (o :: t) b) : IsBoundingBox t b := by
  have hm : ∀ p, p ∈ o :: t → p ∈ t := by
    intro p hp
    rcases List.mem_cons.1 hp with rfl | hp
    · exact ho
    · exact hp
  obtain ⟨h1, ⟨p2, m2, e2⟩, ⟨p3, m3, e3⟩, ⟨p4, m4, e4⟩, ⟨p5, m5, e5⟩⟩ := h
  exact ⟨fun p hp => h1 p (List.mem_cons_of_mem _ hp), ⟨p2, hm p2 m2, e2⟩, ⟨p3, hm p3 m3, e3⟩,
    ⟨p4, hm p4 m4, e4⟩, ⟨p5, hm p5 m5, e5⟩⟩

/-- Every track sent by `findTracks` has its first part at the origin. -/
theorem findTracks_origin_mem (P : Params R) (M : MathFn R) (tab : List (update R))
    (bridges straights curves : Int) (hb : bridges = 0 ∨ bridges = 1) (hs : 0 ≤ straights)
    (hc : 0 ≤ curves) (t : List (Part R))
    (ht : t ∈ (findTracks P M tab bridges straights curves).out) :
    ∃ p ∈ t, p.X = 0 ∧ p.Y = 0 := by
  obtain ⟨v, first, hk, hp, -, -⟩ :=
    findTracks_sound P M tab bridges straights curves hb hs hc t ht
  obtain ⟨k, ks, hks⟩ := List.exists_cons_of_ne_nil hk.ne_nil
  rw [hks] at hp
  obtain ⟨ps2, hps⟩ := place_head P tab _ _ _ _ _ _ _ hp
  exact ⟨⟨0, 0, 0, k⟩, by rw [hps]; exact List.mem_cons_self _ _, rfl, rfl⟩

/-- C19 (amended): `trackBounds` returns the bounding box of the parts of the track together
with the origin `(0, 0)`, the start value of its results.  So for every track that has a
part at `(0, 0)`, and in particular for every track sent by `findTracks`, whose first part
lies at the origin, `minX` and `maxX` are the smallest and the largest `X` over its parts and
`minY` and `maxY` the smallest and the largest `Y` over its parts. -/
theorem trackBounds_bounding_box :
    (∀ t : List (Part R), IsBoundingBox (Part.zero :: t) (trackBounds t)) ∧
      (∀ t : List (Part R), (∃ p ∈ t, p.X = 0 ∧ p.Y = 0) →
        IsBoundingBox t (trackBounds t)) ∧
      ∀ (P : Params R) (M : MathFn R) (tab : List (update R)) (bridges straights curves : Int),
        bridges = 0 ∨ bridges = 1 → 0 ≤ straights → 0 ≤ curves →
        ∀ t ∈ (findTracks P M tab bridges straights curves).out,
          IsBoundingBox t (trackBounds t) := by
  have key : ∀ t : List (Part R), (∃ p ∈ t, p.X = 0 ∧ p.Y = 0) →
      IsBoundingBox t (trackBounds t) := by
    intro t h
    obtain ⟨p, hp, hx, hy⟩ := h
    exact (trackBounds_with_origin t p hx hy).of_cons_mem hp
  refine ⟨fun t => trackBounds_with_origin t Part.zero rfl rfl, key, ?_⟩
  intro P M tab bridges straights curves hb hs hc t ht
  exact key t (findTracks_origin_mem P M tab bridges straights curves hb hs hc t ht)

/-- The result of `trackBounds` need not be the bounding box of the parts: the track of the
single part at `(1, 1)` is not empty, and the result `(0, 0, 1, 1)` is not the bounding box
of its parts, whose smallest `X` is `1`. -/
theorem trackBounds_not_bounding_box :
    [(⟨1, 1, 0, .Straight⟩ : Part ℚ)] ≠ [] ∧
      trackBounds [(⟨1, 1, 0, .Straight⟩ : Part ℚ)] = (0, 0, 1, 1) ∧
      ¬ IsBoundingBox [(⟨1, 1, 0, .Straight⟩ : Part ℚ)]
        (trackBounds [(⟨1, 1, 0, .Straight⟩ : Part ℚ)]) := by
  have h := (trackBounds_single_part : _ ∧ ∀ p ∈ [(⟨1, 1, 0, .Straight⟩ : Part ℚ)], _).1
  refine ⟨by simp, h, ?_⟩
  intro hb
  obtain ⟨-, ⟨p, hp, hpx⟩, -⟩ := hb
  rw [h, List.mem_singleton.1 hp] at hpx
  norm_num at hpx

/-! ### The definitions at work on the rational instance -/

/-- The table of the rational instance is the one `initUpdateTab` builds. -/
theorem gridTab_eq : initUpdateTab gridParams gridMath = .ok gridTab := rfl

/-- On the rational instance with two straights and four curves the search sends three
tracks (`S` straight, `A` left): `SAASAA`, `ASAASA` and `AASAAS`. -/
theorem findTracks_grid_example :
    (findTracks gridParams gridMath gridTab 0 2 4).out.map kinds =
      [[.Straight, .Left, .Left, .Straight, .Left, .Left],
        [.Left, .Straight, .Left, .Left, .Straight, .Left],
        [.Left, .Left, .Straight, .Left, .Left, .Straight]] := by
  decide!

/-- Witness for C1 on the rational instance. -/
theorem findTracks_emits_closed_loops_witness :
    ((0 : Int) = 0 ∨ (0 : Int) = 1) ∧ (0 : Int) ≤ 2 ∧ (0 : Int) ≤ 4 ∧
      ∀ t ∈ (findTracks gridParams gridMath gridTab 0 2 4).out,
        ClosedLoop gridParams gridTab t :=
  ⟨by decide, by decide, by decide,
    findTracks_emits_closed_loops gridParams gridMath gridTab 0 2 4 (by decide) (by decide)
      (by decide)⟩

/-- Witness for C2 with `AngleN = 4`, `Radius = 2`, `BridgeLen = 2`, `StraightLen = 1` on
the rational grid, for one bridge, two straights and four curves: the search sends one
track, `Bridge, Left, Left, Straight, Straight, Left, Left`. -/
theorem findTracks_uses_all_pieces_witness :
    ((1 : Int) = 0 ∨ (1 : Int) = 1) ∧ (0 : Int) ≤ 2 ∧ (0 : Int) ≤ 4 ∧
      (findTracks (⟨4, 2, 2, 1⟩ : Params ℚ) gridMath (tableOf ⟨4, 2, 2, 1⟩ gridMath)
          1 2 4).out.map kinds
        = [[.Bridge, .Left, .Left, .Straight, .Straight, .Left, .Left]] ∧
      ∀ t ∈ (findTracks (⟨4, 2, 2, 1⟩ : Params ℚ) gridMath (tableOf ⟨4, 2, 2, 1⟩ gridMath)
          1 2 4).out,
        (t.length : Int) = 1 + 2 + 4 ∧
        ((kinds t).count .Bridge : Int) = 1 ∧
        ((kinds t).count .Straight : Int) = 2 ∧
        ((kinds t).count .Left : Int) + ((kinds t).count .Right : Int) = 4 ∧
        Kind.End ∉ kinds t :=
  ⟨by decide, by decide, by decide, by decide!,
    findTracks_uses_all_pieces (⟨4, 2, 2, 1⟩ : Params ℚ) gridMath
      (tableOf ⟨4, 2, 2, 1⟩ gridMath) 1 2 4 (by decide) (by decide) (by decide)⟩

/-- Witness for C7 on the rational instance. -/
theorem findTracks_first_curve_left_witness :
    ((0 : Int) = 0 ∨ (0 : Int) = 1) ∧ (0 : Int) ≤ 2 ∧ (0 : Int) ≤ 8 ∧
      ((∀ t ∈ (findTracks gridParams gridMath gridTab 0 2 8).out,
        (∃ k ∈ kinds t, k.isCurve = true) → (kinds t).find? Kind.isCurve = some .Left) ∧
      ((findTracks gridParams gridMath gridTab 0 2 8).out
          = (tracksByFlag gridParams gridMath gridTab 0 2 8).1 ∧
        (findTracks gridParams gridMath gridTab 0 2 8).err
          = (tracksByFlag gridParams gridMath gridTab 0 2 8).2) ∧
      (∀ t ∈ (findTracks gridParams gridMath gridTab 0 2 8).out,
        (∃ k ∈ kinds t, k.isCurve = true) →
        ∀ t2 ∈ (findTracks gridParams gridMath gridTab 0 2 8).out,
          kinds t2 ≠ (kinds t).map Kind.mirror)) :=
  ⟨by decide, by decide, by decide,
    findTracks_first_curve_left gridParams gridMath gridTab 0 2 8 (by decide) (by decide)
      (by decide)⟩

/-- Witness for C8 on the rational instance. -/
theorem findTracks_bridge_first_witness :
    ((1 : Int) = 0 ∨ (1 : Int) = 1) ∧ (0 : Int) ≤ 8 ∧ (0 : Int) ≤ 4 ∧
      ∀ t ∈ (findTracks gridParams gridMath gridTab 1 8 4).out,
        ((1 : Int) = 1 → (kinds t)[0]? = some .Bridge ∧
          ∀ i, (kinds t)[i]? = some .Bridge → i = 0) ∧
        ((1 : Int) = 0 → Kind.Bridge ∉ kinds t) :=
  ⟨by decide, by decide, by decide,
    findTracks_bridge_first gridParams gridMath gridTab 1 8 4 (by decide) (by decide)
      (by decide)⟩

/-- Witness for C9 on the rational instance. -/
theorem findTracks_sorted_witness :
    ((0 : Int) = 0 ∨ (0 : Int) = 1) ∧ (0 : Int) ≤ 4 ∧ (0 : Int) ≤ 4 ∧
      (List.Pairwise (fun t1 t2 => List.Lex Kind.lt (kinds t1) (kinds t2))
          (findTracks gridParams gridMath gridTab 0 4 4).out ∧
        ((findTracks gridParams gridMath gridTab 0 4 4).out.map kinds).Nodup) :=
  ⟨by decide, by decide, by decide,
    findTracks_sorted gridParams gridMath gridTab 0 4 4 (by decide) (by decide) (by decide)⟩

/-- Witness for C10 on the rational instance. -/
theorem totalAngle_multiple_of_AngleN_witness :
    (1 : Int) ≤ gridParams.AngleN ∧ initUpdateTab gridParams gridMath = .ok gridTab ∧
      ((∀ (t : List (Part ℚ)) (first last v : Part ℚ),
        List.Chain' (fun p q => p.Update gridParams gridTab q = .ok q) t →
        t.head? = some first → (0 : Int) ≤ first.Angle → first.Angle < gridParams.AngleN →
        t.getLast? = some last → last.Update gridParams gridTab Part.zero = .ok v →
        v.Angle = (first.Angle + totalAngle t) % gridParams.AngleN) ∧
      (∀ (t : List (Part ℚ)) (first last v : Part ℚ),
        List.Chain' (fun p q => p.Update gridParams gridTab q = .ok q) t →
        t.head? = some first → (0 : Int) ≤ first.Angle → first.Angle < gridParams.AngleN →
        t.getLast? = some last → last.Update gridParams gridTab Part.zero = .ok v →
        first.AtSamePlaceAs v = true → gridParams.AngleN ∣ totalAngle t) ∧
      (∀ bridges straights curves : Int, (bridges = 0 ∨ bridges = 1) → 0 ≤ straights →
        0 ≤ curves → ∀ t ∈ (findTracks gridParams gridMath gridTab bridges straights curves).out,
          gridParams.AngleN ∣ totalAngle t)) :=
  ⟨by decide, gridTab_eq,
    totalAngle_multiple_of_AngleN gridParams gridMath gridTab (by decide) gridTab_eq⟩

/-- Witness for C3: the default parameters and the default set of one bridge, five
straights and twenty curves, over exact reals. -/
theorem findTracks_exhaustive_witness :
    MathFn.Exact ⟨Real.pi, Real.sin, Real.cos, Real.sqrt⟩ ∧
      (1 : Int) ≤ (⟨12, 2, 8, 1⟩ : Params ℝ).AngleN ∧
      0 < (⟨12, 2, 8, 1⟩ : Params ℝ).Radius ∧ 0 < (⟨12, 2, 8, 1⟩ : Params ℝ).BridgeLen ∧
      0 < (⟨12, 2, 8, 1⟩ : Params ℝ).StraightLen ∧
      initUpdateTab (⟨12, 2, 8, 1⟩ : Params ℝ) ⟨Real.pi, Real.sin, Real.cos, Real.sqrt⟩
        = .ok (tableOf ⟨12, 2, 8, 1⟩ ⟨Real.pi, Real.sin, Real.cos, Real.sqrt⟩) ∧
      ((1 : Int) = 0 ∨ (1 : Int) = 1) ∧ (0 : Int) ≤ 5 ∧ (0 : Int) ≤ 20 ∧
      (findTracks (⟨12, 2, 8, 1⟩ : Params ℝ) ⟨Real.pi, Real.sin, Real.cos, Real.sqrt⟩
        (tableOf ⟨12, 2, 8, 1⟩ ⟨Real.pi, Real.sin, Real.cos, Real.sqrt⟩) 1 5 20).err = none ∧
      ∀ t : List (Part ℝ),
        ClosedLoop (⟨12, 2, 8, 1⟩ : Params ℝ)
          (tableOf ⟨12, 2, 8, 1⟩ ⟨Real.pi, Real.sin, Real.cos, Real.sqrt⟩) t →
        ((kinds t).count .Bridge : Int) = 1 →
        ((kinds t).count .Straight : Int) = 5 →
        ((kinds t).count .Left : Int) + ((kinds t).count .Right : Int) = 20 →
        Kind.End ∉ kinds t →
        ((1 : Int) = 1 → (kinds t).head? = some .Bridge) →
        (∀ k, (kinds t).find? Kind.isCurve = some k → k = .Left) →
        t ∈ (findTracks (⟨12, 2, 8, 1⟩ : Params ℝ) ⟨Real.pi, Real.sin, Real.cos, Real.sqrt⟩
          (tableOf ⟨12, 2, 8, 1⟩ ⟨Real.pi, Real.sin, Real.cos, Real.sqrt⟩) 1 5 20).out :=
  ⟨⟨rfl, rfl, rfl, rfl⟩, by decide, by norm_num, by norm_num, by norm_num,
    initUpdateTab_ok _ _ (by decide), by decide, by decide, by decide,
    findTracks_completes _ _ _ (by decide) (initUpdateTab_ok _ _ (by decide)) 1 5 20
      (by decide) (by decide) (by decide),
    findTracks_exhaustive _ ⟨Real.pi, Real.sin, Real.cos, Real.sqrt⟩ _ ⟨rfl, rfl, rfl, rfl⟩
      (by decide) (by norm_num) (by norm_num) (by norm_num) (initUpdateTab_ok _ _ (by decide))
      1 5 20 (by decide) (by decide) (by decide)
      (findTracks_completes _ _ _ (by decide) (initUpdateTab_ok _ _ (by decide)) 1 5 20
        (by decide) (by decide) (by decide))⟩

/-- Witness for C11: `AngleN = 12`, `a = 0`, `b = -14`. -/
theorem Add_mod_AngleN_witness :
    (1 : Int) ≤ 12 ∧
      ((∃ res, Angle.Add 12 0 (-14) = .ok res ∧ 0 ≤ res ∧ res < 12 ∧ 12 ∣ res - (0 + -14)) ∧
        (Angle.Add 12 0 1 = .ok 1 ∧ Angle.Add 12 0 11 = .ok 11 ∧ Angle.Add 12 0 13 = .ok 1 ∧
          Angle.Add 12 0 (-1) = .ok 11 ∧ Angle.Add 12 0 (-14) = .ok 10)) :=
  ⟨by decide, Add_mod_AngleN 12 0 (-14) (by decide)⟩

/-- Witness for C18 on the rational instance (`AngleN = 4`). -/
theorem Update_keeps_heading_in_range_witness :
    (1 : Int) ≤ gridParams.AngleN ∧ initUpdateTab gridParams gridMath = .ok gridTab ∧
      ((gridTab.length : Int) = kindCnt * gridParams.AngleN ∧
        (∀ p target : Part ℚ, (0 : Int) ≤ p.Angle → p.Angle < gridParams.AngleN →
          0 ≤ p.Kind.toInt * gridParams.AngleN + p.Angle ∧
            p.Kind.toInt * gridParams.AngleN + p.Angle < (gridTab.length : Int) ∧
            ∃ q, p.Update gridParams gridTab target = .ok q ∧ (0 : Int) ≤ q.Angle ∧
              q.Angle < gridParams.AngleN) ∧
        ∀ bridges straights curves : Int,
          (∀ p ∈ (findTracks gridParams gridMath gridTab bridges straights curves).track,
            (0 : Int) ≤ p.Angle ∧ p.Angle < gridParams.AngleN) ∧
          ∀ t ∈ (findTracks gridParams gridMath gridTab bridges straights curves).out, ∀ p ∈ t,
            (0 : Int) ≤ p.Angle ∧ p.Angle < gridParams.AngleN) :=
  ⟨by decide, rfl, Update_keeps_heading_in_range gridParams gridMath gridTab (by decide) rfl⟩

/-- Witness for C15 with `AngleN = 2`, `Radius = 2`, `StraightLen = 1`.  (1) From `(6, 0)`
with one `Straight` left the distance `6` exceeds `1 * 1 + 0 * curveLen + 1 = 2`, and the
`Straight` does not lead back to the origin.  (2) The call `r(0, Straight, 1, 0)` on a slice
whose first slot is at `(5, 0)` computes the slot `(6, 0)` and is cut.  (3) The call
`r(0, Left, 0, 1)` from the origin is not cut and sends the loop of two `Left` parts. -/
theorem distance_cut_sound_witness :
    (⟨Real.pi, Real.sin, Real.cos, Real.sqrt⟩ : MathFn ℝ).Exact ∧
      (1 : Int) ≤ (⟨2, 2, 8, 1⟩ : Params ℝ).AngleN ∧
      (0 : ℝ) ≤ (⟨2, 2, 8, 1⟩ : Params ℝ).Radius ∧
      (0 : ℝ) ≤ (⟨2, 2, 8, 1⟩ : Params ℝ).StraightLen ∧
      initUpdateTab (⟨2, 2, 8, 1⟩ : Params ℝ) ⟨Real.pi, Real.sin, Real.cos, Real.sqrt⟩
        = .ok (tableOf ⟨2, 2, 8, 1⟩ ⟨Real.pi, Real.sin, Real.cos, Real.sqrt⟩) ∧
      (Real.sqrt (6 * 6 + 0 * 0)
          > ((1 : Int) : ℝ) * 1 + ((0 : Int) : ℝ) * (2 * 2 * Real.sin (Real.pi / ((2 : Int) : ℝ)))
            + 1 ∧
        place (⟨2, 2, 8, 1⟩ : Params ℝ)
            (tableOf ⟨2, 2, 8, 1⟩ ⟨Real.pi, Real.sin, Real.cos, Real.sqrt⟩) 6 0 0 [.Straight]
          = .ok ([⟨6, 0, 0, .Straight⟩], ⟨6 + 1, 0, 0, .End⟩) ∧
        (Part.zero : Part ℝ).AtSamePlaceAs ⟨6 + 1, 0, 0, .End⟩ = false) ∧
      (Part.Update (⟨2, 2, 8, 1⟩ : Params ℝ)
            (tableOf ⟨2, 2, 8, 1⟩ ⟨Real.pi, Real.sin, Real.cos, Real.sqrt⟩)
            ⟨5, 0, 0, .Straight⟩ Part.zero = .ok ⟨5 + 1, 0, 0, .End⟩ ∧
        Real.sqrt ((5 + 1) * (5 + 1) + 0 * 0)
          > ((1 : Int) : ℝ) * 1 + ((0 : Int) : ℝ) * (2 * 2 * Real.sin (Real.pi / ((2 : Int) : ℝ)))
            + 1 ∧
        r (⟨2, 2, 8, 1⟩ : Params ℝ) ⟨Real.pi, Real.sin, Real.cos, Real.sqrt⟩
            (tableOf ⟨2, 2, 8, 1⟩ ⟨Real.pi, Real.sin, Real.cos, Real.sqrt⟩) 0 2
            (2 * 2 * Real.sin (Real.pi / ((2 : Int) : ℝ))) (0 + 1) 0 .Straight 1 0
            [⟨5, 0, 0, .End⟩, Part.zero, Part.zero] []
          = ⟨[⟨5, 0, 0, .Straight⟩, ⟨5 + 1, 0, 0, .End⟩, Part.zero], [], none⟩) ∧
      ∃ ps v, place (⟨2, 2, 8, 1⟩ : Params ℝ)
          (tableOf ⟨2, 2, 8, 1⟩ ⟨Real.pi, Real.sin, Real.cos, Real.sqrt⟩) 0 0 0
          [.Left, .Left] = .ok (ps, v) ∧
        (Part.zero : Part ℝ).AtSamePlaceAs v = true ∧
        ps ∈ (r (⟨2, 2, 8, 1⟩ : Params ℝ) ⟨Real.pi, Real.sin, Real.cos, Real.sqrt⟩
            (tableOf ⟨2, 2, 8, 1⟩ ⟨Real.pi, Real.sin, Real.cos, Real.sqrt⟩) 2 2
            (2 * 2 * Real.sin (Real.pi / ((2 : Int) : ℝ))) 2 0 .Left 0 1
            [Part.zero, Part.zero, Part.zero] []).out := by
  have hM : (⟨Real.pi, Real.sin, Real.cos, Real.sqrt⟩ : MathFn ℝ).Exact := ⟨rfl, rfl, rfl, rfl⟩
  have htab := initUpdateTab_ok (⟨2, 2, 8, 1⟩ : Params ℝ)
    ⟨Real.pi, Real.sin, Real.cos, Real.sqrt⟩ (by decide)
  obtain ⟨T1, T2, T3⟩ := distance_cut_sound (⟨2, 2, 8, 1⟩ : Params ℝ)
    ⟨Real.pi, Real.sin, Real.cos, Real.sqrt⟩ _ hM (by decide) (by norm_num) (by norm_num) htab
  have hd6 : Real.sqrt (6 * 6 + 0 * 0)
      > ((1 : Int) : ℝ) * 1 + ((0 : Int) : ℝ) * (2 * 2 * Real.sin (Real.pi / ((2 : Int) : ℝ)))
        + 1 := by
    rw [show (6 * 6 + 0 * 0 : ℝ) = 6 ^ 2 by norm_num, Real.sqrt_sq (by norm_num)]
    norm_num
  have hd5 : Real.sqrt ((5 + 1) * (5 + 1) + 0 * 0)
      > ((1 : Int) : ℝ) * 1 + ((0 : Int) : ℝ) * (2 * 2 * Real.sin (Real.pi / ((2 : Int) : ℝ)))
        + 1 := by
    rw [show ((5 + 1) * (5 + 1) + 0 * 0 : ℝ) = 6 ^ 2 by norm_num, Real.sqrt_sq (by norm_num)]
    norm_num
  have hp6 := place_straight_zero (⟨2, 2, 8, 1⟩ : Params ℝ) _ _ hM (by decide) htab 6 0
  have hU5 := Update_straight_zero (⟨2, 2, 8, 1⟩ : Params ℝ) _ _ hM (by decide) htab 5 0
    Part.zero
  obtain ⟨ps, v, hp, hcl⟩ := two_lefts_close
  refine ⟨hM, by decide, by norm_num, by norm_num, htab, ⟨hd6, hp6, ?_⟩, ⟨hU5, hd5, ?_⟩,
    ps, v, hp, hcl, ?_⟩
  · exact T1 1 0 6 0 0 [.Straight] _ _ Part.zero (le_refl _) (by decide) hd6 (by decide)
      (by decide) (by decide) hp6 rfl rfl
  · exact (T2 0 2 0 0 .Straight 1 0 [⟨5, 0, 0, .End⟩, Part.zero, Part.zero] [] ⟨5, 0, 0, .End⟩
      Part.zero ⟨5 + 1, 0, 0, .End⟩ rfl rfl hU5 (by decide) hd5).1
  · exact T3 2 2 2 0 .Left 0 1 [Part.zero, Part.zero, Part.zero] [] Part.zero Part.zero [.Left]
      ps v (le_refl _) (by decide) (by decide) (by decide) (by decide) (by decide) rfl
      (le_refl _) (by decide) rfl rfl rfl
      ⟨by decide, by decide, by decide, fun h => absurd h (by decide)⟩ hp hcl

/-- Witness for C12 with the default parameters: from `(0, 0)` with heading `0` a
`Straight` lands at `(1, 0)` and a `Bridge` at `(8, 0)`. -/
theorem Update_transition_correct_witness :
    (⟨Real.pi, Real.sin, Real.cos, Real.sqrt⟩ : MathFn ℝ).Exact ∧
      (1 : Int) ≤ (⟨12, 2, 8, 1⟩ : Params ℝ).AngleN ∧
      initUpdateTab (⟨12, 2, 8, 1⟩ : Params ℝ) ⟨Real.pi, Real.sin, Real.cos, Real.sqrt⟩
        = .ok (tableOf ⟨12, 2, 8, 1⟩ ⟨Real.pi, Real.sin, Real.cos, Real.sqrt⟩) ∧
      ∀ target : Part ℝ,
        (⟨0, 0, 0, .Straight⟩ : Part ℝ).Update ⟨12, 2, 8, 1⟩
            (tableOf ⟨12, 2, 8, 1⟩ ⟨Real.pi, Real.sin, Real.cos, Real.sqrt⟩) target
            = .ok ⟨1, 0, 0, target.Kind⟩ ∧
          (⟨0, 0, 0, .Bridge⟩ : Part ℝ).Update ⟨12, 2, 8, 1⟩
            (tableOf ⟨12, 2, 8, 1⟩ ⟨Real.pi, Real.sin, Real.cos, Real.sqrt⟩) target
            = .ok ⟨8, 0, 0, target.Kind⟩ :=
  ⟨⟨rfl, rfl, rfl, rfl⟩, by decide, initUpdateTab_ok _ _ (by decide),
    (Update_transition_correct (⟨12, 2, 8, 1⟩ : Params ℝ)
      ⟨Real.pi, Real.sin, Real.cos, Real.sqrt⟩ _ ⟨rfl, rfl, rfl, rfl⟩ (by decide)
      (initUpdateTab_ok _ _ (by decide))).2.2.2⟩

/-- Witness for C13: `AngleN = 12`, `Radius = 2`; twelve `Left` (or twelve `Right`) from
`(0, 0)` with heading `0` end at `(0, 0)` with heading `0`. -/
theorem full_circle_closes_witness :
    (⟨Real.pi, Real.sin, Real.cos, Real.sqrt⟩ : MathFn ℝ).Exact ∧
      (1 : Int) ≤ (⟨12, 2, 8, 1⟩ : Params ℝ).AngleN ∧
      initUpdateTab (⟨12, 2, 8, 1⟩ : Params ℝ) ⟨Real.pi, Real.sin, Real.cos, Real.sqrt⟩
        = .ok (tableOf ⟨12, 2, 8, 1⟩ ⟨Real.pi, Real.sin, Real.cos, Real.sqrt⟩) ∧
      (0 : Int) ≤ 0 ∧ (0 : Int) < (⟨12, 2, 8, 1⟩ : Params ℝ).AngleN ∧
      (∃ ps v, place (⟨12, 2, 8, 1⟩ : Params ℝ)
          (tableOf ⟨12, 2, 8, 1⟩ ⟨Real.pi, Real.sin, Real.cos, Real.sqrt⟩) 0 0 0
          (List.replicate 12 .Left) = .ok (ps, v) ∧ v.X = 0 ∧ v.Y = 0 ∧ v.Angle = 0) ∧
      ∃ ps v, place (⟨12, 2, 8, 1⟩ : Params ℝ)
          (tableOf ⟨12, 2, 8, 1⟩ ⟨Real.pi, Real.sin, Real.cos, Real.sqrt⟩) 0 0 0
          (List.replicate 12 .Right) = .ok (ps, v) ∧ v.X = 0 ∧ v.Y = 0 ∧ v.Angle = 0 :=
  ⟨⟨rfl, rfl, rfl, rfl⟩, by decide, initUpdateTab_ok _ _ (by decide), by decide, by decide,
    full_circle_closes (⟨12, 2, 8, 1⟩ : Params ℝ) ⟨Real.pi, Real.sin, Real.cos, Real.sqrt⟩ _
      ⟨rfl, rfl, rfl, rfl⟩ (by decide) (initUpdateTab_ok _ _ (by decide)) 0 0 0 (by decide)
      (by decide)⟩

/-- Witness for C17, a mirrored pair of rows of `TestUpdate` (`AngleN = 12`, `Radius = 2`):
six `Left` then six `Right` end at `(0, 8)` with heading `0`, hence six `Right` then six
`Left` end at `(0, -8)` with heading `0`. -/
theorem Update_chain_mirror_witness :
    (⟨Real.pi, Real.sin, Real.cos, Real.sqrt⟩ : MathFn ℝ).Exact ∧
      (1 : Int) ≤ (⟨12, 2, 8, 1⟩ : Params ℝ).AngleN ∧
      initUpdateTab (⟨12, 2, 8, 1⟩ : Params ℝ) ⟨Real.pi, Real.sin, Real.cos, Real.sqrt⟩
        = .ok (tableOf ⟨12, 2, 8, 1⟩ ⟨Real.pi, Real.sin, Real.cos, Real.sqrt⟩) ∧
      ∃ ps v, place (⟨12, 2, 8, 1⟩ : Params ℝ)
          (tableOf ⟨12, 2, 8, 1⟩ ⟨Real.pi, Real.sin, Real.cos, Real.sqrt⟩) 0 0 0
          (List.replicate 6 .Left ++ List.replicate 6 .Right) = .ok (ps, v) ∧
        v.X = 0 ∧ v.Y = 8 ∧ v.Angle = 0 ∧
        ∃ ps2 v2, place (⟨12, 2, 8, 1⟩ : Params ℝ)
            (tableOf ⟨12, 2, 8, 1⟩ ⟨Real.pi, Real.sin, Real.cos, Real.sqrt⟩) 0 0 0
            (List.replicate 6 .Right ++ List.replicate 6 .Left) = .ok (ps2, v2) ∧
          v2.X = 0 ∧ v2.Y = -8 ∧ v2.Angle = 0 := by
  obtain ⟨ps, v, hp, hx, hy, ha⟩ := six_left_six_right
  obtain ⟨ps2, v2, hp2, hx2, hy2, ha2⟩ :=
    Update_chain_mirror (⟨12, 2, 8, 1⟩ : Params ℝ) ⟨Real.pi, Real.sin, Real.cos, Real.sqrt⟩ _
      ⟨rfl, rfl, rfl, rfl⟩ (by decide) (initUpdateTab_ok _ _ (by decide))
      (List.replicate 6 .Left ++ List.replicate 6 .Right) ps v hp
  exact ⟨⟨rfl, rfl, rfl, rfl⟩, by decide, initUpdateTab_ok _ _ (by decide), ps, v, hp, hx, hy,
    ha, ps2, v2, hp2, by rw [hx2, hx], by rw [hy2, hy], by rw [ha2, ha]; rfl⟩

/-- Witness for C19: a track of three parts with a part at the origin, and the three tracks
`findTracks` sends on the rational instance for two straights and four curves. -/
theorem trackBounds_bounding_box_witness :
    (∃ p ∈ [(⟨0, 0, 0, .Straight⟩ : Part ℚ), ⟨3, 2, 1, .Left⟩, ⟨-1, 1, 2, .Left⟩],
        p.X = 0 ∧ p.Y = 0) ∧
      trackBounds [(⟨0, 0, 0, .Straight⟩ : Part ℚ), ⟨3, 2, 1, .Left⟩, ⟨-1, 1, 2, .Left⟩]
        = (-1, 0, 3, 2) ∧
      IsBoundingBox [(⟨0, 0, 0, .Straight⟩ : Part ℚ), ⟨3, 2, 1, .Left⟩, ⟨-1, 1, 2, .Left⟩]
        (trackBounds
          [(⟨0, 0, 0, .Straight⟩ : Part ℚ), ⟨3, 2, 1, .Left⟩, ⟨-1, 1, 2, .Left⟩]) ∧
      (findTracks gridParams gridMath gridTab 0 2 4).out.length = 3 ∧
      ∀ t ∈ (findTracks gridParams gridMath gridTab 0 2 4).out,
        IsBoundingBox t (trackBounds t) :=
  ⟨⟨⟨0, 0, 0, .Straight⟩, List.mem_cons_self _ _, rfl, rfl⟩, by decide!,
    (@trackBounds_bounding_box ℚ _).2.1 _
      ⟨⟨0, 0, 0, .Straight⟩, List.mem_cons_self _ _, rfl, rfl⟩,
    by decide!,
    (@trackBounds_bounding_box ℚ _).2.2 gridParams gridMath gridTab 0 2 4 (by decide)
      (by decide) (by decide)⟩

end Trains
